import Mathlib

/-!
# SPIDIR tree search (`src/spidir/search.cpp`): NNI proposals and the MCMC driver

A shallow embedding of the topology proposer (`proposeNni`, `proposeRandomNni`,
`NniProposer`) and of the search loop `searchMCMC`, followed by the properties
proved about them.

Node pointers are indices into the tree's node array (`tree->nodes[i]`, with
`nodes[i]->name == i`); a null pointer is `none`.  A run of the C++ code that
trips an `assert`, dereferences a null or out-of-range pointer, or is still
looping when the supplied random draws are used up, ends in a `Fault`.
-/

namespace spidir

/-! ## Data model -/

/-- Ways in which a run can stop without returning normally. -/
inductive Fault where
  /-- an `assert(...)` of the source evaluated to false -/
  | assertion
  /-- a null pointer was dereferenced or an array was read out of range -/
  | memory
  /-- the supplied random draws ran out while the code still asked for one -/
  | draws
deriving DecidableEq, Repr

deriving instance DecidableEq for Except

/-- The fields of `class Node` that the search code reads and writes:
`parent` (null for the root) and the array `children` with
`nchildren = children.length`. -/
structure Node where
  parent : Option Nat
  children : List Nat
deriving DecidableEq, Repr

/-- The fields of `class Tree` used by the search code: the node array `nodes`
(`nnodes = nodes.length`) and the `root` pointer. -/
structure Tree where
  nodes : List Node
  root : Nat
deriving DecidableEq, Repr

namespace Tree

/-- The value of `tree->nnodes`. -/
def nnodes (t : Tree) : Nat := t.nodes.length

/-- Parent pointer of node `n` (`none` also for a pointer outside the array). -/
def par (t : Tree) (n : Nat) : Option Nat :=
  match t.nodes[n]? with
  | some nd => nd.parent
  | none => none

/-- Children array of node `n` (empty for a pointer outside the array). -/
def kids (t : Tree) (n : Nat) : List Nat :=
  match t.nodes[n]? with
  | some nd => nd.children
  | none => []

/-- Read of `n->parent`: faults when `n` is not a node of the tree. -/
def parentOf (t : Tree) (n : Nat) : Except Fault (Option Nat) :=
  match t.nodes[n]? with
  | some nd => .ok nd.parent
  | none => .error .memory

/-- Read of `n->nchildren`. -/
def nchildren (t : Tree) (n : Nat) : Except Fault Nat :=
  match t.nodes[n]? with
  | some nd => .ok nd.children.length
  | none => .error .memory

/-- Read of `n->children[i]`: faults outside `0 .. nchildren-1`. -/
def childAt (t : Tree) (n i : Nat) : Except Fault Nat :=
  match t.nodes[n]? with
  | some nd =>
    match nd.children[i]? with
    | some c => .ok c
    | none => .error .memory
  | none => .error .memory

/-- The assignment `n->parent = p`. -/
def setParent (t : Tree) (n : Nat) (p : Option Nat) : Tree :=
  match t.nodes[n]? with
  | some nd => { t with nodes := t.nodes.set n { nd with parent := p } }
  | none => t

/-- The assignment `n->children[i] = c`. -/
def setChild (t : Tree) (n i c : Nat) : Tree :=
  match t.nodes[n]? with
  | some nd => { t with nodes := t.nodes.set n { nd with children := nd.children.set i c } }
  | none => t

/-- Modelled from the spec: `Tree::isRooted` is declared in `phylogeny.h`, which
is not among the sources; the tree is rooted when its root has out-degree 2. -/
def isRooted (t : Tree) : Except Fault Bool :=
  match t.nodes[t.root]? with
  | some nd => .ok (nd.children.length == 2)
  | none => .error .memory

/-- Modelled from the spec: `Node::isLeaf` is declared in `phylogeny.h`, which is
not among the sources; a leaf is a node with 0 children. -/
def isLeaf (t : Tree) (n : Nat) : Except Fault Bool :=
  match t.nodes[n]? with
  | some nd => .ok (nd.children.length == 0)
  | none => .error .memory

end Tree

/-- Dereference of a pointer that may be null. -/
def deref (p : Option Nat) : Except Fault Nat :=
  match p with
  | some n => .ok n
  | none => .error .memory

/-- The statement `assert(c)`. -/
def assertThat (c : Bool) : Except Fault Unit :=
  if c then .ok () else .error .assertion

/-! ## Nearest-neighbour interchange -/

/-- The tail of the four-argument `proposeNni` (lines 90-101): find the slot
`change` of `child` under `node1`, then exchange `child` with
`node2->children[uncle]`. -/
def nniExchange (tree : Tree) (node1 node2 child uncle : Nat) : Except Fault Tree := do
  let c0 ← tree.childAt node1 0
  let change := if c0 = child then 0 else 1
  let cc ← tree.childAt node1 change
  assertThat (cc == child)
  -- swap parent pointers
  let _ ← tree.parentOf child
  let tree := tree.setParent child (some node2)
  let u ← tree.childAt node2 uncle
  let _ ← tree.parentOf u
  let tree := tree.setParent u (some node1)
  -- swap child pointers
  let tmp ← tree.childAt node2 uncle
  let tree := tree.setChild node2 uncle child
  let tree := tree.setChild node1 change tmp
  pure tree

/-- The middle of the four-argument `proposeNni` (lines 73-88), entered with
`node1` the child end of the edge: choose the `uncle` slot, or give up when
both ends hang off the root and neither child of `node2` is internal. -/
def nniUncle (tree : Tree) (node1 node2 child : Nat) : Except Fault Tree := do
  let p1 ← tree.parentOf node1
  let both ←
    if p1 = some tree.root then do
      let p2 ← tree.parentOf node2
      pure (decide (p2 = some tree.root))
    else pure false
  if both then
    let c0 ← tree.childAt node2 0
    let k0 ← tree.nchildren c0
    if k0 < 2 then
      let c1 ← tree.childAt node2 1
      let k1 ← tree.nchildren c1
      if k1 < 2 then
        -- can't do NNI on this branch
        pure tree
      else nniExchange tree node1 node2 child 0
    else nniExchange tree node1 node2 child 0
  else
    -- find uncle
    let c0 ← tree.childAt node2 0
    let uncle := if c0 = node1 then 1 else 0
    nniExchange tree node1 node2 child uncle

/-- The four-argument `proposeNni(Tree*, Node *node1, Node *node2, Node *child)`
(lines 49-105): NNI on the branch `node1 - node2`, exchanging `child` (a child
of the lower end) with the uncle. -/
def proposeNniEdge (tree : Tree) (node1 node2 child : Nat) : Except Fault Tree := do
  -- ensure node1 is the child of node2
  let p1 ← tree.parentOf node1
  let ends := if p1 ≠ some node2 then (node2, node1) else (node1, node2)
  let node1 := ends.1
  let node2 := ends.2
  let p1 ← tree.parentOf node1
  assertThat (p1 == some node2)
  -- try to see if edge is one branch (not root edge)
  let rooted ← tree.isRooted
  if rooted ∧ node2 = tree.root then
    -- special case of specifying root edge
    let c0 ← tree.childAt node2 0
    let node2 ← if c0 = node1 then tree.childAt node2 1 else tree.childAt node2 0
    -- if edge is not an internal edge, give up
    let k ← tree.nchildren node2
    if k < 2 then pure tree
    else nniUncle tree node1 node2 child
  else nniUncle tree node1 node2 child

/-- The two-argument `proposeNni(Tree*, Node *nodea, Node *nodeb)` (lines
123-146): exchange `nodea` and `nodeb` between their parents. -/
def proposeNni (tree : Tree) (nodea nodeb : Nat) : Except Fault Tree := do
  let pa ← tree.parentOf nodea
  let node1 ← deref pa
  let pb ← tree.parentOf nodeb
  let node2 ← deref pb
  -- assert that node1 and node2 are incident to the same branch
  let p1 ← tree.parentOf node1
  let adjacent ←
    if p1 = some node2 then pure true
    else do
      let p2 ← tree.parentOf node2
      pure (decide (p2 = some node1))
  assertThat adjacent
  -- find child indexes
  let a0 ← tree.childAt node1 0
  let a := if a0 = nodea then 0 else 1
  let ca ← tree.childAt node1 a
  assertThat (ca == nodea)
  let b0 ← tree.childAt node2 0
  let b := if b0 = nodeb then 0 else 1
  let cb ← tree.childAt node2 b
  assertThat (cb == nodeb)
  -- swap parent pointers
  let tree := tree.setParent nodea (some node2)
  let tree := tree.setParent nodeb (some node1)
  -- swap child pointers
  let tree := tree.setChild node2 b nodea
  let tree := tree.setChild node1 a nodeb
  pure tree

/-! ## Well-formed trees -/

namespace Tree

/-- The node reached from `n` by following `k` parent pointers, if there is one. -/
def ancestor (t : Tree) : Nat → Nat → Option Nat
  | 0, n => some n
  | k + 1, n =>
    match t.par n with
    | some p => ancestor t k p
    | none => none

/-- The tree invariant of the data model: the root is a node of the tree and
has no parent, it is the only such node, parent and child pointers agree (every
node with a parent occurs exactly once in that parent's children, every child
of a node points back to it), no children array has a duplicate, every node has
0 or 2 children, and every node reaches the root through parent pointers (the
structure is connected and has no cycle). -/
structure Valid (t : Tree) : Prop where
  root_lt : t.root < t.nnodes
  root_par : t.par t.root = none
  only_root : ∀ n < t.nnodes, t.par n = none → n = t.root
  par_kids : ∀ n < t.nnodes, ∀ p ∈ t.par n, (t.kids p).count n = 1
  kids_par : ∀ n < t.nnodes, ∀ c ∈ t.kids n, t.par c = some n
  nodup : ∀ n < t.nnodes, (t.kids n).Nodup
  binary : ∀ n < t.nnodes, (t.kids n).length = 0 ∨ (t.kids n).length = 2
  reach : ∀ n < t.nnodes, ∃ k < t.nnodes, t.ancestor k n = some t.root

instance (t : Tree) : Decidable t.Valid :=
  decidable_of_iff
    (t.root < t.nnodes ∧ t.par t.root = none ∧
      (∀ n < t.nnodes, t.par n = none → n = t.root) ∧
      (∀ n < t.nnodes, ∀ p ∈ t.par n, (t.kids p).count n = 1) ∧
      (∀ n < t.nnodes, ∀ c ∈ t.kids n, t.par c = some n) ∧
      (∀ n < t.nnodes, (t.kids n).Nodup) ∧
      (∀ n < t.nnodes, (t.kids n).length = 0 ∨ (t.kids n).length = 2) ∧
      (∀ n < t.nnodes, ∃ k < t.nnodes, t.ancestor k n = some t.root))
    ⟨fun h => ⟨h.1, h.2.1, h.2.2.1, h.2.2.2.1, h.2.2.2.2.1, h.2.2.2.2.2.1,
      h.2.2.2.2.2.2.1, h.2.2.2.2.2.2.2⟩,
     fun h => ⟨h.1, h.2, h.3, h.4, h.5, h.6, h.7, h.8⟩⟩

/-- Modelled from the spec: `Tree::assertTree` is declared in `phylogeny.h`,
which is not among the sources; it accepts exactly the trees that satisfy the
structural invariant of the data model. -/
def assertTree (t : Tree) : Bool := decide t.Valid

/-- The node `l` lies in the subtree of `n`: following parent pointers from `l`
leads to `n` (in fewer than `nnodes` steps). -/
def below (t : Tree) (n l : Nat) : Prop := ∃ k < t.nnodes, t.ancestor k l = some n

instance (t : Tree) (n l : Nat) : Decidable (t.below n l) := by
  unfold below
  infer_instance

/-- The node `n` of `t` and the node `m` of `t1` induce the same bipartition of
the leaves: the leaves of `t` below `n` are those below `m` in `t1`, or those
not below `m` in `t1`. -/
def sameSplit (t t1 : Tree) (n m : Nat) : Prop :=
  (∀ l < t.nnodes, t.kids l = [] → (t.below n l ↔ t1.below m l)) ∨
  (∀ l < t.nnodes, t.kids l = [] → (t.below n l ↔ ¬ t1.below m l))

instance (t t1 : Tree) (n m : Nat) : Decidable (t.sameSplit t1 n m) := by
  unfold sameSplit
  infer_instance

/-- The trees `t` and `t1` have the same unrooted topology: they have the same
nodes and the same leaves, and the subtrees of the non-root nodes of `t` induce
the same set of leaf bipartitions as those of the non-root nodes of `t1`. -/
def sameUnrooted (t t1 : Tree) : Prop :=
  t1.nnodes = t.nnodes ∧
  (∀ l < t.nnodes, t1.kids l = [] ↔ t.kids l = []) ∧
  (∀ n < t.nnodes, n ≠ t.root → ∃ m < t1.nnodes, m ≠ t1.root ∧ t.sameSplit t1 n m) ∧
  (∀ m < t1.nnodes, m ≠ t1.root → ∃ n < t.nnodes, n ≠ t.root ∧ t.sameSplit t1 n m)

instance (t t1 : Tree) : Decidable (t.sameUnrooted t1) := by
  unfold sameUnrooted
  infer_instance

end Tree

/-! ## Random draws -/

/-- The random source.  `irand` and `frand` are declared in `common.h`, which is
not among the sources, so the values they return are supplied from outside:
`ints` feeds the successive calls of `irand`, `reals` those of `frand`. -/
structure Rng where
  ints : List Nat
  reals : List ℚ
deriving DecidableEq, Repr

/-- Modelled from the spec: `irand(max)` samples an integer of `0 .. max-1`; the
next supplied value is reduced into that range. -/
def irand (max : Nat) (g : Rng) : Except Fault (Nat × Rng) :=
  match g.ints with
  | [] => .error .draws
  | r :: rs => .ok (r % max, { g with ints := rs })

/-- Modelled from the spec: `frand()` is a fresh uniform draw; the next supplied
value is returned as it is. -/
def frand (g : Rng) : Except Fault (ℚ × Rng) :=
  match g.reals with
  | [] => .error .draws
  | u :: us => .ok (u, { g with reals := us })

/-! ## Random NNI and the proposer -/

/-- The `do ... while` loop of `proposeRandomNni` (lines 154-157) over the
supplied `irand` values: draw `choice = irand(tree->nnodes)` until the node is
neither a leaf nor without a parent.  (The initial value `tree->root->name` of
`choice` is overwritten by the first draw.) -/
def pickPivot (tree : Tree) : List Nat → Except Fault (Nat × List Nat)
  | [] => .error .draws
  | r :: rs => do
    let choice := r % tree.nnodes
    let leaf ← tree.isLeaf choice
    if leaf then pickPivot tree rs
    else
      let p ← tree.parentOf choice
      if p = none then pickPivot tree rs
      else pure (choice, rs)

/-- The four out-parameters of `proposeRandomNni`. -/
structure NniChoice where
  node1 : Nat
  node2 : Nat
  a : Nat
  b : Nat
deriving DecidableEq, Repr

/-- The function `proposeRandomNni` (lines 149-164). -/
def proposeRandomNni (tree : Tree) (g : Rng) : Except Fault (NniChoice × Rng) := do
  -- find edges for NNI
  let (choice, ints) ← pickPivot tree g.ints
  let g := { g with ints := ints }
  let node1 := choice
  let p ← tree.parentOf choice
  let node2 ← deref p
  let (i, g) ← irand 2 g
  let a ← tree.childAt node1 i
  let c0 ← tree.childAt node2 0
  let b ← if c0 = node1 then tree.childAt node2 1 else tree.childAt node2 0
  pure ({ node1 := node1, node2 := node2, a := a, b := b }, g)

/-- The data members of `class NniProposer`; `S` is the type of species trees. -/
structure NniProposer (S : Type) where
  nodea : Option Nat
  nodeb : Option Nat
  nodec : Option Nat
  noded : Option Nat
  oldroot1 : Option Nat
  oldroot2 : Option Nat
  stree : Option S
  gene2species : List Int
  niter : Int
  iter : Int
deriving DecidableEq, Repr

/-- The constant `rerootProb` of `NniProposer::propose`. -/
def rerootProb : ℚ := 1

/-- The constant `doubleNniProb` of `NniProposer::propose`. -/
def doubleNniProb : ℚ := 3 / 10

namespace NniProposer

/-- The constructor `NniProposer::NniProposer` (lines 167-179). -/
def new {S : Type} (stree : Option S) (gene2species : List Int) (niter : Int) :
    NniProposer S :=
  { nodea := none, nodeb := none, nodec := none, noded := none,
    oldroot1 := none, oldroot2 := none,
    stree := stree, gene2species := gene2species, niter := niter, iter := 0 }

/-- Lines 197-200 of `NniProposer::propose`: with probability `doubleNniProb` a
second random NNI, recorded in `nodec`, `noded`. -/
def proposeSecond {S : Type} (p : NniProposer S) (tree : Tree) (g : Rng) :
    Except Fault (NniProposer S × Tree × Rng) := do
  let (u, g) ← frand g
  if u < doubleNniProb then do
    let (ch, g) ← proposeRandomNni tree g
    let p := { p with nodec := some ch.a, noded := some ch.b }
    let tree ← proposeNni tree ch.a ch.b
    pure (p, tree, g)
  else pure (p, tree, g)

/-- Lines 202-228 of `NniProposer::propose`: with probability `rerootProb` record
the two children of the root and, when a species tree is configured, re-root by
reconciliation; then `assert(tree->assertTree())`. -/
def proposeReroot {S : Type} (reconRoot : Tree → S → List Int → Except Fault Tree)
    (p : NniProposer S) (tree : Tree) (g : Rng) :
    Except Fault (NniProposer S × Tree × Rng) := do
  let (u, g) ← frand g
  let (p, tree) ←
    if u < rerootProb then do
      let r0 ← tree.childAt tree.root 0
      let r1 ← tree.childAt tree.root 1
      let p := { p with oldroot1 := some r0, oldroot2 := some r1 }
      match p.stree with
      | some s => do
        let tree ← reconRoot tree s p.gene2species
        pure (p, tree)
      | none =>
        -- do random reroot if species tree is not given: commented out in the source
        pure (p, tree)
    else pure ({ p with oldroot1 := none, oldroot2 := none }, tree)
  assertThat tree.assertTree
  pure (p, tree, g)

/-- The method `NniProposer::propose` (lines 182-229).  `reconRoot` (declared
outside the sources) is the externally supplied re-rooting by reconciliation. -/
def propose {S : Type} (reconRoot : Tree → S → List Int → Except Fault Tree)
    (p : NniProposer S) (tree : Tree) (g : Rng) :
    Except Fault (NniProposer S × Tree × Rng) := do
  -- increase iteration
  let p := { p with iter := p.iter + 1 }
  let p := { p with nodea := none, nodeb := none, nodec := none, noded := none }
  -- propose new tree
  let (ch, g) ← proposeRandomNni tree g
  let p := { p with nodea := some ch.a, nodeb := some ch.b }
  let tree ← proposeNni tree ch.a ch.b
  let (p, tree, g) ← proposeSecond p tree g
  proposeReroot reconRoot p tree g

/-- Lines 244-247 of `NniProposer::revert`: undo the recorded interchanges, the
second one first. -/
def revertNni {S : Type} (p : NniProposer S) (tree : Tree) : Except Fault Tree := do
  let tree ←
    match p.nodec with
    | some c => do
      let d ← deref p.noded
      proposeNni tree c d
    | none => pure tree
  let tree ←
    match p.nodea with
    | some a => do
      let b ← deref p.nodeb
      proposeNni tree a b
    | none => pure tree
  pure tree

/-- The method `NniProposer::revert` (lines 231-248).  `reroot` stands for
`Tree::reroot`, which is declared outside the sources. -/
def revert {S : Type} (reroot : Tree → Nat → Except Fault Tree)
    (p : NniProposer S) (tree : Tree) : Except Fault Tree := do
  -- reject, undo topology change
  let tree ←
    match p.oldroot1 with
    | some r1 => do
      let pr ← tree.parentOf r1
      if pr = p.oldroot2 then reroot tree r1
      else do
        let r2 ← deref p.oldroot2
        reroot tree r2
    | none => pure tree
  revertNni p tree

/-- The method `NniProposer::more` (lines 251-254). -/
def more {S : Type} (p : NniProposer S) : Bool := decide (p.iter < p.niter)

end NniProposer

/-! ## Scores -/

/-- The values of the C type `float`, in which `searchMCMC` keeps its scores
(`float toplogl`, `logl`, `nextlogl`, `speed`): a finite number, one of the two
infinities, or NaN.  Finite numbers are taken as exact rationals (rounding,
overflow and the sign of zero are not modelled); the infinities and NaN follow
the rules of IEEE 754 arithmetic. -/
inductive CFloat where
  | fin (q : ℚ)
  | pinf
  | ninf
  | nan
deriving DecidableEq, Repr

namespace CFloat

/-- Addition: NaN is absorbing, `inf + -inf` is NaN, an infinity absorbs every
finite value. -/
def add : CFloat → CFloat → CFloat
  | nan, _ => nan
  | _, nan => nan
  | pinf, ninf => nan
  | ninf, pinf => nan
  | pinf, _ => pinf
  | _, pinf => pinf
  | ninf, _ => ninf
  | _, ninf => ninf
  | fin a, fin b => fin (a + b)

/-- Negation. -/
def neg : CFloat → CFloat
  | fin a => fin (-a)
  | pinf => ninf
  | ninf => pinf
  | nan => nan

/-- Subtraction, so that `inf - inf` is NaN. -/
def sub (x y : CFloat) : CFloat := add x (neg y)

/-- Division: NaN is absorbing, `inf / inf` and `0 / 0` are NaN, a finite value
divided by an infinity is 0, a non-zero value divided by 0 is an infinity. -/
def div : CFloat → CFloat → CFloat
  | nan, _ => nan
  | _, nan => nan
  | fin a, fin b =>
    if b = 0 then (if a = 0 then nan else if 0 < a then pinf else ninf) else fin (a / b)
  | fin _, _ => fin 0
  | pinf, fin b => if b < 0 then ninf else pinf
  | ninf, fin b => if b < 0 then pinf else ninf
  | _, _ => nan

/-- The comparison `x < y`: false whenever an argument is NaN. -/
def lt : CFloat → CFloat → Bool
  | fin a, fin b => decide (a < b)
  | fin _, pinf => true
  | ninf, fin _ => true
  | ninf, pinf => true
  | _, _ => false

instance : Zero CFloat := ⟨fin 0⟩

instance : OfNat CFloat 2 := ⟨fin 2⟩

instance : Add CFloat := ⟨add⟩

instance : Sub CFloat := ⟨sub⟩

instance : Div CFloat := ⟨div⟩

instance : LT CFloat := ⟨fun x y => lt x y = true⟩

instance : DecidableRel (fun a b : CFloat => a < b) :=
  fun x y => inferInstanceAs (Decidable (lt x y = true))

end CFloat

/-! ## The MCMC driver -/

/-- The calls `searchMCMC` makes on its collaborators, recorded in the order in
which they happen. -/
inductive Call where
  | getInitialTree
  | parsimony
  | findLengths
  | likelihood
  | copy
  | hashkey
  | more
  | propose
  | revert
  | frand
deriving DecidableEq, Repr

/-- The collaborators of `searchMCMC`, none of which is defined in the sources
(`TopologyProposer`, `BranchLengthFitter` and `BranchLikelihoodFunc` are
abstract classes; `Tree::copy`, `Tree::hashkey`, `parsimony`, `frand` and `log`
are library code).  `σ` is everything they can read or change: the live tree,
the internal state of proposer, fitter and likelihood function, and the random
generator; `T` is the type of tree copies, `K` of topology keys, `α` of scores:
any type with `0`, `+`, `-`, `/ 2` and a decidable `<`, such as the exact
numbers of an ordered field or the values `CFloat` of the C type `float`. -/
structure Collab (σ T K α : Type) where
  /-- the call `getInitialTree(genes, nseqs, seqlen, seqs)` -/
  getInitialTree : σ → σ
  /-- the call `parsimony(tree, nseqs, seqs)` -/
  parsimony : σ → σ
  /-- the call `fitter->findLengths(tree)` -/
  findLengths : σ → α × σ
  /-- the call `lkfunc->likelihood(tree)` -/
  likelihood : σ → α × σ
  /-- the value of `tree->copy()` -/
  copy : σ → T
  /-- the key computed by `tree->hashkey(key)` -/
  hashkey : σ → K
  /-- the call `proposer->more()` -/
  more : σ → Bool
  /-- the call `proposer->propose(tree)` -/
  propose : σ → σ
  /-- the call `proposer->revert(tree)` -/
  revert : σ → σ
  /-- the value of `log(frand())` -/
  logFrand : σ → α × σ

/-- The local variables of `searchMCMC` together with the state `world` of its
collaborators; `calls` records the collaborator calls made so far, latest
last.  `nextlogl` is `none` until it is first assigned. -/
structure SearchState (σ T K α : Type) where
  world : σ
  toptree : T
  toplogl : α
  logl : α
  nextlogl : Option α
  speed : α
  hashtrees : List (K × (Option T × α))
  calls : List Call

/-- The table access `hashtrees[key]`: the stored entry, or the default
`TreeLogl(NULL, 0)` the table was constructed with. -/
def tableGet {T K α : Type} [DecidableEq K] [Zero α]
    (table : List (K × (Option T × α))) (key : K) : Option T × α :=
  match table.lookup key with
  | some e => e
  | none => (none, 0)

/-- Assignment through the reference returned by `hashtrees[key]`. -/
def tablePut {T K α : Type} [DecidableEq K]
    (table : List (K × (Option T × α))) (key : K) (e : Option T × α) :
    List (K × (Option T × α)) :=
  (key, e) :: table.filter (fun kv => kv.1 ≠ key)

/-- Lines 415-429 of `searchMCMC`: determine the initial tree, score it and make
it the current and the best tree.  `initNull` says whether `initTree == NULL`. -/
def searchInit {σ T K α : Type} [Zero α] [Add α] (c : Collab σ T K α)
    (initNull : Bool) (w : σ) : SearchState σ T K α :=
  -- determine initial tree
  let w1 := if initNull then c.getInitialTree w else w
  let calls1 := if initNull then [Call.getInitialTree] else []
  -- init likelihood score
  let w2 := c.parsimony w1
  let f := c.findLengths w2
  let l := c.likelihood f.2
  let logl := f.1 + l.1
  { world := l.2
    toptree := c.copy l.2
    toplogl := logl
    logl := logl
    nextlogl := none
    speed := 0
    hashtrees := []
    calls := calls1 ++ [Call.parsimony, Call.findLengths, Call.likelihood, Call.copy] }

/-- The body of the MCMC loop (lines 434-490), one iteration.  Logging
(`printLog`, `displayTree`) is left out. -/
def mcmcIter {σ T K α : Type} [DecidableEq K] [Zero α] [Add α] [Sub α] [Div α] [OfNat α 2] [LT α]
    [DecidableRel (fun a b : α => a < b)]
    (c : Collab σ T K α) (s : SearchState σ T K α) : SearchState σ T K α :=
  -- propose new tree
  let w := c.propose s.world
  -- hash topology
  let key := c.hashkey w
  -- TURN OFF hashing
  -- have we seen this topology before?
  let tmp := tableGet s.hashtrees key
  let scored : α × σ × List (K × (Option T × α)) × List Call :=
    if false && tmp.1.isSome then
      -- retrieve previously seen tree and logl
      (tmp.2, w, tablePut s.hashtrees key tmp, [])
    else
      -- calculate likelihood
      let f := c.findLengths w
      let l := c.likelihood f.2
      let nextlogl := f.1 + l.1
      -- hash result
      (nextlogl, l.2, tablePut s.hashtrees key (some (c.copy l.2), nextlogl),
        [Call.findLengths, Call.likelihood, Call.copy])
  let nextlogl := scored.1
  let w := scored.2.1
  let hashtrees := scored.2.2.1
  let calls := s.calls ++ [Call.propose, Call.hashkey] ++ scored.2.2.2
  -- acceptance rule
  let test : Bool × σ × List Call :=
    if nextlogl > s.logl then (true, w, [])
    else
      let u := c.logFrand w
      (decide (nextlogl - s.logl + s.speed > u.1), u.2, [Call.frand])
  let w := test.2.1
  let calls := calls ++ test.2.2
  if test.1 then
    -- accept
    let logl := nextlogl
    let speed := s.speed / 2
    -- keep track of toptree
    if logl > s.toplogl then
      { world := w, toptree := c.copy w, toplogl := logl, logl := logl,
        nextlogl := some nextlogl, speed := 0, hashtrees := hashtrees,
        calls := calls ++ [Call.copy] }
    else
      { world := w, toptree := s.toptree, toplogl := s.toplogl, logl := logl,
        nextlogl := some nextlogl, speed := speed, hashtrees := hashtrees,
        calls := calls }
  else
    -- reject, undo topology change
    { world := c.revert w, toptree := s.toptree, toplogl := s.toplogl, logl := s.logl,
      nextlogl := some nextlogl, speed := s.speed, hashtrees := hashtrees,
      calls := calls ++ [Call.revert] }

/-- The tree state after the proposal of an iteration started in `s` has been
scored (`propose`, then `findLengths`, then `likelihood`). -/
def scoredWorld {σ T K α : Type} (c : Collab σ T K α) (s : SearchState σ T K α) : σ :=
  (c.likelihood (c.findLengths (c.propose s.world)).2).2

/-- The score `nextlogl` computed for the proposal of an iteration started in
`s`: the sum of what `findLengths` and `likelihood` return. -/
def newScore {σ T K α : Type} [Add α] (c : Collab σ T K α)
    (s : SearchState σ T K α) : α :=
  (c.findLengths (c.propose s.world)).1
    + (c.likelihood (c.findLengths (c.propose s.world)).2).1

/-- The value of `log(frand())` in the acceptance test of an iteration started
in `s` (the draw is made after scoring). -/
def lnU {σ T K α : Type} (c : Collab σ T K α) (s : SearchState σ T K α) : α :=
  (c.logFrand (scoredWorld c s)).1

/-- One turn of the loop `for (int i=0; proposer->more(); i++)` (line 433) after
its condition was found true: the call of `more` is recorded and the body runs. -/
def mcmcStep {σ T K α : Type} [DecidableEq K] [Zero α] [Add α] [Sub α] [Div α] [OfNat α 2] [LT α]
    [DecidableRel (fun a b : α => a < b)]
    (c : Collab σ T K α) (s : SearchState σ T K α) : SearchState σ T K α :=
  mcmcIter c { s with calls := s.calls ++ [Call.more] }

/-- The exit of the loop: the last call of `more`, which returned false. -/
def mcmcExit {σ T K α : Type} (s : SearchState σ T K α) : SearchState σ T K α :=
  { s with calls := s.calls ++ [Call.more] }

/-- The loop `for (int i=0; proposer->more(); i++)` (line 433), run for at most
`fuel` iterations: `none` when the proposer still has more after that. -/
def mcmcLoop {σ T K α : Type} [DecidableEq K] [Zero α] [Add α] [Sub α] [Div α] [OfNat α 2] [LT α]
    [DecidableRel (fun a b : α => a < b)]
    (c : Collab σ T K α) : Nat → SearchState σ T K α → Option (SearchState σ T K α)
  | 0, s => if c.more s.world then none else some (mcmcExit s)
  | fuel + 1, s =>
    if c.more s.world then mcmcLoop c fuel (mcmcStep c s) else some (mcmcExit s)

/-- The function `searchMCMC` (lines 398-495) up to its `return`: the final
values of its variables. -/
def searchRun {σ T K α : Type} [DecidableEq K] [Zero α] [Add α] [Sub α] [Div α] [OfNat α 2] [LT α]
    [DecidableRel (fun a b : α => a < b)]
    (c : Collab σ T K α) (fuel : Nat) (initNull : Bool) (w : σ) :
    Option (SearchState σ T K α) :=
  mcmcLoop c fuel (searchInit c initNull w)

/-- The function `searchMCMC` (lines 398-495): it returns `toptree`. -/
def searchMCMC {σ T K α : Type} [DecidableEq K] [Zero α] [Add α] [Sub α] [Div α] [OfNat α 2] [LT α]
    [DecidableRel (fun a b : α => a < b)]
    (c : Collab σ T K α) (fuel : Nat) (initNull : Bool) (w : σ) : Option T :=
  (searchRun c fuel initNull w).map (fun s => s.toptree)

/-! ## A small search problem for examples -/

/-- State of a toy search problem: the live "tree" is a number, the proposer
moves to the next unused number and remembers the previous tree, and has a
budget of iterations; `lnUs` are the values `log(frand())` will take. -/
structure ToyWorld where
  tree : Nat
  prev : Nat
  next : Nat
  budget : Nat
  lnUs : List ℚ
deriving DecidableEq, Repr

/-- Score of toy tree `n`: an entry of a fixed table. -/
def toyScore (n : Nat) : ℚ := [-5, -3, -9, -1, -1, -2].getD n (-10)

/-- The collaborators of the toy search problem. -/
def toyCollab : Collab ToyWorld Nat Nat ℚ :=
  { getInitialTree := fun w => { w with tree := 0 }
    parsimony := fun w => w
    findLengths := fun w => (0, w)
    likelihood := fun w => (toyScore w.tree, w)
    copy := fun w => w.tree
    hashkey := fun w => w.tree
    more := fun w => decide (0 < w.budget)
    propose := fun w =>
      { w with tree := w.next, prev := w.tree, next := w.next + 1, budget := w.budget - 1 }
    revert := fun w => { w with tree := w.prev }
    logFrand := fun w => (w.lnUs.headD 0, { w with lnUs := w.lnUs.tail }) }

/-- A toy world with tree 0, five iterations and three prepared draws. -/
def toyStart : ToyWorld :=
  { tree := 0, prev := 0, next := 1, budget := 5, lnUs := [-1, -1 / 2, -3] }

/-- The search state of the toy problem when the loop is entered. -/
def toyInit : SearchState ToyWorld Nat Nat ℚ := searchInit toyCollab false toyStart

/-- A toy world whose proposer has no iterations left. -/
def toyDone : ToyWorld :=
  { tree := 0, prev := 0, next := 1, budget := 0, lnUs := [] }

/-- Collaborators of a second toy problem: every proposal is a structural no-op
(the tree and so its key stay the same), while the score drifts with the number
of proposals made so far. -/
def driftCollab : Collab ToyWorld Nat Nat ℚ :=
  { toyCollab with
    propose := fun w => { w with prev := w.tree, next := w.next + 1, budget := w.budget - 1 }
    likelihood := fun w => (-(w.next : ℚ), w) }

/-- The state of the drifting toy search after its first iteration. -/
def driftFirst : SearchState ToyWorld Nat Nat ℚ :=
  mcmcStep driftCollab (searchInit driftCollab false toyStart)

/-- Collaborators of a third toy problem, with scores of type `float`: the
fitter returns 0, the likelihood function the constant `k`, and `log(frand())`
is always `-1`. -/
def flatCollab (k : CFloat) : Collab ToyWorld Nat Nat CFloat :=
  { getInitialTree := toyCollab.getInitialTree
    parsimony := toyCollab.parsimony
    findLengths := fun w => (0, w)
    likelihood := fun w => (k, w)
    copy := toyCollab.copy
    hashkey := toyCollab.hashkey
    more := toyCollab.more
    propose := toyCollab.propose
    revert := toyCollab.revert
    logFrand := fun w => (CFloat.fin (-1), w) }

/-! ## Reading a result, and example trees -/

/-- A run that either returns a value satisfying `P` or stops only because the
supplied random draws ran out: no assertion fails and no pointer is misused. -/
def Safe {α : Type} (x : Except Fault α) (P : α → Prop) : Prop :=
  match x with
  | .ok r => P r
  | .error e => e = Fault.draws

/-- The 4-leaf caterpillar `root -> (L1, n1)`, `n1 -> (L2, n2)`, `n2 -> (L3, L4)`
with `L1 .. L4 = 0 .. 3`, `n2 = 4`, `n1 = 5`, `root = 6`. -/
def caterpillar4 : Tree :=
  { nodes := [⟨some 6, []⟩, ⟨some 5, []⟩, ⟨some 4, []⟩, ⟨some 4, []⟩,
      ⟨some 5, [2, 3]⟩, ⟨some 6, [1, 4]⟩, ⟨none, [0, 5]⟩]
    root := 6 }

/-- The balanced 4-leaf tree `root -> (n1, s)`, `n1 -> (L1, L2)`, `s -> (L3, L4)`
with `L1 .. L4 = 0 .. 3`, `n1 = 4`, `s = 5`, `root = 6`. -/
def balanced4 : Tree :=
  { nodes := [⟨some 4, []⟩, ⟨some 4, []⟩, ⟨some 5, []⟩, ⟨some 5, []⟩,
      ⟨some 6, [0, 1]⟩, ⟨some 6, [2, 3]⟩, ⟨none, [4, 5]⟩]
    root := 6 }

/-- The 3-leaf tree `root -> (L1, n1)`, `n1 -> (L2, L3)` with `L1 .. L3 = 0 .. 2`,
`n1 = 3`, `root = 4`. -/
def cherry3 : Tree :=
  { nodes := [⟨some 4, []⟩, ⟨some 3, []⟩, ⟨some 3, []⟩, ⟨some 4, [1, 2]⟩, ⟨none, [0, 3]⟩]
    root := 4 }

/-- The caterpillar after the two interchanges `(L2, L1)` and `(L4, L1)`. -/
def caterpillar4Proposed : Tree :=
  { nodes := [⟨some 4, []⟩, ⟨some 6, []⟩, ⟨some 4, []⟩, ⟨some 5, []⟩,
      ⟨some 5, [2, 0]⟩, ⟨some 6, [3, 4]⟩, ⟨none, [1, 5]⟩]
    root := 6 }

/-- A proposer without species tree after one proposal with the two
interchanges `(L2, L1)` and `(L4, L1)` on the caterpillar. -/
def proposerAfter : NniProposer Unit :=
  { nodea := some 1, nodeb := some 0, nodec := some 3, noded := some 0,
    oldroot1 := some 1, oldroot2 := some 5,
    stree := none, gene2species := [], niter := 10, iter := 1 }

/-- Draws that select the pivot `n1` and its first child, take the second NNI
with pivot `n2` and its second child, and take the re-rooting branch. -/
def drawsTwoNni : Rng := { ints := [5, 0, 4, 1], reals := [1 / 10, 1 / 2] }

/-- The 5-leaf tree `root -> (n1, s)`, `n1 -> (L1, L2)`, `s -> (n3, L5)`,
`n3 -> (L3, L4)` with `L1 .. L5 = 0 .. 4`, `n3 = 5`, `n1 = 6`, `s = 7`, `root = 8`. -/
def forked5 : Tree :=
  { nodes := [⟨some 6, []⟩, ⟨some 6, []⟩, ⟨some 5, []⟩, ⟨some 5, []⟩, ⟨some 7, []⟩,
      ⟨some 7, [2, 3]⟩, ⟨some 8, [0, 1]⟩, ⟨some 8, [5, 4]⟩, ⟨none, [6, 7]⟩]
    root := 8 }

/-- The caterpillar after the exchange of `L3` and `L2`. -/
def caterpillar4Nni : Tree :=
  { nodes := [⟨some 6, []⟩, ⟨some 4, []⟩, ⟨some 5, []⟩, ⟨some 4, []⟩,
      ⟨some 5, [1, 3]⟩, ⟨some 6, [2, 4]⟩, ⟨none, [0, 5]⟩]
    root := 6 }

/-- The tree `forked5` after the exchange of `L1` and `n3` across the root. -/
def forked5Nni : Tree :=
  { nodes := [⟨some 7, []⟩, ⟨some 6, []⟩, ⟨some 5, []⟩, ⟨some 5, []⟩, ⟨some 7, []⟩,
      ⟨some 6, [2, 3]⟩, ⟨some 8, [5, 1]⟩, ⟨some 8, [0, 4]⟩, ⟨none, [6, 7]⟩]
    root := 8 }

/-- The 2-leaf tree `root -> (L1, L2)` with `L1 = 0`, `L2 = 1`, `root = 2`. -/
def twoLeaves : Tree :=
  { nodes := [⟨some 2, []⟩, ⟨some 2, []⟩, ⟨none, [0, 1]⟩]
    root := 2 }

/-- A stand-in for `Tree::reroot` that only records its argument, as the new
value of the root pointer. -/
def markRoot (t : Tree) (n : Nat) : Except Fault Tree := .ok { t with root := n }

/-- A proposer state that has recorded `r1`, `r2` as the old children of the
root and no interchange. -/
def recordedRoots (r1 r2 : Nat) : NniProposer Unit :=
  { nodea := none, nodeb := none, nodec := none, noded := none,
    oldroot1 := some r1, oldroot2 := some r2,
    stree := none, gene2species := [], niter := 10, iter := 1 }

/-- Draws that select the pivot `n1` and its first child, skip the second NNI,
and are not below `rerootProb` in the re-rooting test (a draw of 1). -/
def drawsNoRecord : Rng := { ints := [5, 0], reals := [1 / 2, 1] }

/-- The caterpillar after the interchange `(L2, L1)`. -/
def caterpillar4Swapped : Tree :=
  { nodes := [⟨some 5, []⟩, ⟨some 6, []⟩, ⟨some 4, []⟩, ⟨some 4, []⟩,
      ⟨some 5, [2, 3]⟩, ⟨some 6, [0, 4]⟩, ⟨none, [1, 5]⟩]
    root := 6 }

/-- A proposer without species tree after one proposal with the interchange
`(L2, L1)` and no recorded root children. -/
def proposerNoRecord : NniProposer Unit :=
  { nodea := some 1, nodeb := some 0, nodec := none, noded := none,
    oldroot1 := none, oldroot2 := none,
    stree := none, gene2species := [], niter := 10, iter := 1 }
/-! ## Basic facts about the pointer structure -/

@[simp] theorem ok_bind {ε α β : Type} (x : α) (f : α → Except ε β) :
    (Except.ok x >>= f) = f x := rfl

@[simp] theorem error_bind {ε α β : Type} (e : ε) (f : α → Except ε β) :
    ((Except.error e : Except ε α) >>= f) = Except.error e := rfl

@[simp] theorem pure_eq_ok {ε α : Type} (x : α) : (pure x : Except ε α) = Except.ok x := rfl

namespace Tree

@[simp] theorem nnodes_setParent (t : Tree) (n : Nat) (p : Option Nat) :
    (t.setParent n p).nnodes = t.nnodes := by
  unfold setParent nnodes
  split <;> simp

@[simp] theorem root_setParent (t : Tree) (n : Nat) (p : Option Nat) :
    (t.setParent n p).root = t.root := by
  unfold setParent
  split <;> rfl

@[simp] theorem nnodes_setChild (t : Tree) (n i c : Nat) :
    (t.setChild n i c).nnodes = t.nnodes := by
  unfold setChild nnodes
  split <;> simp

@[simp] theorem root_setChild (t : Tree) (n i c : Nat) :
    (t.setChild n i c).root = t.root := by
  unfold setChild
  split <;> rfl

theorem par_setParent (t : Tree) (n m : Nat) (p : Option Nat) :
    (t.setParent n p).par m = if m = n ∧ n < t.nnodes then p else t.par m := by
  unfold setParent par nnodes
  cases h : t.nodes[n]? with
  | none =>
    have : ¬ n < t.nodes.length := by
      intro hlt
      simp [List.getElem?_eq_getElem hlt] at h
    simp [this]
  | some nd =>
    have hlt : n < t.nodes.length := by
      by_contra hge
      simp [List.getElem?_eq_none (not_lt.mp hge)] at h
    by_cases hm : m = n
    · subst hm
      simp [hlt]
    · have hnm : n ≠ m := fun e => hm e.symm
      simp [hm, List.getElem?_set_ne hnm]

@[simp] theorem kids_setParent (t : Tree) (n m : Nat) (p : Option Nat) :
    (t.setParent n p).kids m = t.kids m := by
  unfold setParent kids
  cases h : t.nodes[n]? with
  | none => simp
  | some nd =>
    by_cases hm : m = n
    · subst hm
      have hlt : m < t.nodes.length := by
        by_contra hge
        simp [List.getElem?_eq_none (not_lt.mp hge)] at h
      simp [hlt, h]
    · have hnm : n ≠ m := fun e => hm e.symm
      simp [List.getElem?_set_ne hnm]

@[simp] theorem par_setChild (t : Tree) (n i c m : Nat) :
    (t.setChild n i c).par m = t.par m := by
  unfold setChild par
  cases h : t.nodes[n]? with
  | none => simp
  | some nd =>
    by_cases hm : m = n
    · subst hm
      have hlt : m < t.nodes.length := by
        by_contra hge
        simp [List.getElem?_eq_none (not_lt.mp hge)] at h
      simp [hlt, h]
    · have hnm : n ≠ m := fun e => hm e.symm
      simp [List.getElem?_set_ne hnm]

theorem kids_setChild (t : Tree) (n i c m : Nat) :
    (t.setChild n i c).kids m = if m = n then (t.kids n).set i c else t.kids m := by
  unfold setChild kids
  cases h : t.nodes[n]? with
  | none =>
    by_cases hm : m = n
    · subst hm
      simp [h]
    · simp [hm]
  | some nd =>
    by_cases hm : m = n
    · subst hm
      have hlt : m < t.nodes.length := by
        by_contra hge
        simp [List.getElem?_eq_none (not_lt.mp hge)] at h
      simp [hlt]
    · have hnm : n ≠ m := fun e => hm e.symm
      simp [hm, List.getElem?_set_ne hnm]

theorem parentOf_eq {t : Tree} {n : Nat} (h : n < t.nnodes) :
    t.parentOf n = .ok (t.par n) := by
  unfold parentOf par
  unfold nnodes at h
  simp [List.getElem?_eq_getElem h]

theorem nchildren_eq {t : Tree} {n : Nat} (h : n < t.nnodes) :
    t.nchildren n = .ok (t.kids n).length := by
  unfold nchildren kids
  unfold nnodes at h
  simp [List.getElem?_eq_getElem h]

theorem isLeaf_eq {t : Tree} {n : Nat} (h : n < t.nnodes) :
    t.isLeaf n = .ok ((t.kids n).length == 0) := by
  unfold isLeaf kids
  unfold nnodes at h
  simp [List.getElem?_eq_getElem h]

theorem isRooted_eq {t : Tree} (h : t.root < t.nnodes) :
    t.isRooted = .ok ((t.kids t.root).length == 2) := by
  unfold isRooted kids
  unfold nnodes at h
  simp [List.getElem?_eq_getElem h]

theorem childAt_eq {t : Tree} {n i c : Nat} (h : (t.kids n)[i]? = some c) :
    t.childAt n i = .ok c := by
  unfold childAt
  unfold kids at h
  cases hn : t.nodes[n]? with
  | none => simp [hn] at h
  | some nd =>
    simp only [hn] at h
    simp [h]

/-- A node that has a parent or a child is a node of the tree. -/
theorem lt_of_par {t : Tree} {n p : Nat} (h : t.par n = some p) : n < t.nnodes := by
  unfold par at h
  unfold nnodes
  by_contra hge
  simp [List.getElem?_eq_none (not_lt.mp hge)] at h

theorem lt_of_mem_kids {t : Tree} {n c : Nat} (h : c ∈ t.kids n) : n < t.nnodes := by
  unfold kids at h
  unfold nnodes
  by_contra hge
  simp [List.getElem?_eq_none (not_lt.mp hge)] at h

/-- Two trees with the same root, the same number of nodes and the same parent
and children at every node are equal. -/
theorem ext_par_kids {t1 t2 : Tree} (hr : t1.root = t2.root) (hn : t1.nnodes = t2.nnodes)
    (hp : ∀ n, t1.par n = t2.par n) (hk : ∀ n, t1.kids n = t2.kids n) : t1 = t2 := by
  cases t1 with
  | mk nodes1 root1 =>
  cases t2 with
  | mk nodes2 root2 =>
  simp only at hr
  subst hr
  congr 1
  apply List.ext_getElem?
  intro n
  have hp' := hp n
  have hk' := hk n
  unfold par at hp'
  unfold kids at hk'
  unfold nnodes at hn
  simp only at hp' hk' hn
  by_cases hlt : n < nodes1.length
  · have hlt2 : n < nodes2.length := hn ▸ hlt
    simp only [List.getElem?_eq_getElem hlt, List.getElem?_eq_getElem hlt2] at hp' hk' ⊢
    congr 1
    cases h1 : nodes1[n] with
    | mk p1 k1 =>
    cases h2 : nodes2[n] with
    | mk p2 k2 =>
    simp only [h1, h2] at hp' hk'
    rw [hp', hk']
  · have hge2 : ¬ n < nodes2.length := hn ▸ hlt
    rw [List.getElem?_eq_none (not_lt.mp hlt), List.getElem?_eq_none (not_lt.mp hge2)]

end Tree

/-! ## The two-node interchange -/

/-- The tree after the four assignments of the two-node `proposeNni`, with
`n1`, `n2` the parents of `a`, `b` and `ia`, `ib` the slots of `a`, `b`. -/
theorem proposeNni_eq {t : Tree} {a b n1 n2 x y u v : Nat}
    (ha : t.par a = some n1) (hb : t.par b = some n2)
    (hadj : t.par n1 = some n2 ∨ t.par n2 = some n1)
    (hk1 : t.kids n1 = [x, y]) (hk2 : t.kids n2 = [u, v])
    (hax : a = x ∨ a = y) (hbu : b = u ∨ b = v) :
    proposeNni t a b = .ok
      ((((t.setParent a (some n2)).setParent b (some n1)).setChild n2
        (if u = b then 0 else 1) a).setChild n1 (if x = a then 0 else 1) b) := by
  have ha' : a < t.nnodes := Tree.lt_of_par ha
  have hb' : b < t.nnodes := Tree.lt_of_par hb
  have h1 : n1 < t.nnodes := Tree.lt_of_mem_kids (c := x) (by simp [hk1])
  have h2 : n2 < t.nnodes := Tree.lt_of_mem_kids (c := u) (by simp [hk2])
  have c10 : t.childAt n1 0 = .ok x := Tree.childAt_eq (by simp [hk1])
  have c11 : t.childAt n1 1 = .ok y := Tree.childAt_eq (by simp [hk1])
  have c20 : t.childAt n2 0 = .ok u := Tree.childAt_eq (by simp [hk2])
  have c21 : t.childAt n2 1 = .ok v := Tree.childAt_eq (by simp [hk2])
  have hca : t.childAt n1 (if x = a then 0 else 1) = .ok a := by
    by_cases hxa : x = a
    · simp [hxa, c10]
    · have hya : y = a := (hax.resolve_left (fun e => hxa e.symm)).symm
      simp [hxa, c11, hya]
  have hcb : t.childAt n2 (if u = b then 0 else 1) = .ok b := by
    by_cases hub : u = b
    · simp [hub, c20]
    · have hvb : v = b := (hbu.resolve_left (fun e => hub e.symm)).symm
      simp [hub, c21, hvb]
  unfold proposeNni
  by_cases hp : t.par n1 = some n2
  · simp [Tree.parentOf_eq ha', Tree.parentOf_eq hb', Tree.parentOf_eq h1, ha, hb, deref,
      assertThat, c10, c20, hca, hcb, hp]
  · have hq := hadj.resolve_left hp
    simp [Tree.parentOf_eq ha', Tree.parentOf_eq hb', Tree.parentOf_eq h1,
      Tree.parentOf_eq h2, ha, hb, deref, assertThat, c10, c20, hca, hcb, hp, hq]

/-! ### Children arrays under substitution of one node for another -/

theorem list_len_two {l : List Nat} (h : l.length = 2) : ∃ x y, l = [x, y] := by
  match l, h with
  | [x, y], _ => exact ⟨x, y, rfl⟩

theorem set_eq_map_subst {l : List Nat} {i a b : Nat} (hl : l.length = 2) (hnd : l.Nodup)
    (hi : l[i]? = some a) :
    l.set i b = l.map (fun c => if c = a then b else c) := by
  obtain ⟨x, y, rfl⟩ := list_len_two hl
  have hxy : x ≠ y := by
    intro e
    simp [e] at hnd
  match i, hi with
  | 0, hi =>
    simp only [List.getElem?_cons_zero, Option.some.injEq] at hi
    subst hi
    have : ¬ y = x := fun e => hxy e.symm
    simp [this]
  | 1, hi =>
    simp only [List.getElem?_cons_succ, List.getElem?_cons_zero, Option.some.injEq] at hi
    subst hi
    simp [hxy]
  | (k + 2), hi => simp at hi

theorem mem_map_subst {l : List Nat} {a b : Nat} (ha : a ∈ l) :
    b ∈ l.map (fun c => if c = a then b else c) := by
  rw [List.mem_map]
  exact ⟨a, ha, by simp⟩

theorem mem_map_subst_iff {l : List Nat} {a b c : Nat} (hb : b ∉ l) :
    c ∈ l.map (fun c => if c = a then b else c) ↔ (c = b ∧ a ∈ l) ∨ (c ∈ l ∧ c ≠ a) := by
  rw [List.mem_map]
  constructor
  · rintro ⟨d, hd, rfl⟩
    by_cases hda : d = a
    · subst hda
      simp [hd]
    · simp [hda, hd]
  · rintro (⟨rfl, ha⟩ | ⟨hc, hca⟩)
    · exact ⟨a, ha, by simp⟩
    · exact ⟨c, hc, by simp [hca]⟩

theorem nodup_map_subst {l : List Nat} {a b : Nat} (hnd : l.Nodup) (hb : b ∉ l) :
    (l.map (fun c => if c = a then b else c)).Nodup := by
  apply List.Nodup.map_on _ hnd
  intro c hc d hd hcd
  by_cases hca : c = a <;> by_cases hda : d = a
  · rw [hca, hda]
  · simp only [hca, hda, if_true, if_false] at hcd
    exact absurd (hcd ▸ hd) hb
  · simp only [hca, hda, if_true, if_false] at hcd
    exact absurd (hcd ▸ hc) hb
  · simpa [hca, hda] using hcd

theorem map_subst_undo {l : List Nat} {a b : Nat} (ha : a ∉ l) :
    (l.map (fun c => if c = b then a else c)).map (fun c => if c = a then b else c) = l := by
  rw [List.map_map]
  conv_rhs => rw [← List.map_id l]
  apply List.map_congr_left
  intro c hc
  have hca : c ≠ a := fun e => ha (e ▸ hc)
  by_cases hcb : c = b
  · simp [hcb]
  · simp [hcb, hca]

/-! ### One interchange -/

/-- One call of the two-node `proposeNni` on nodes `a`, `b` whose parents `n1`,
`n2` are distinct, joined by an edge and have two distinct children each: the
call returns, and the new tree differs from the old one by the exchange of `a`
and `b`, each taking the other's slot. -/
theorem proposeNni_step {t : Tree} {a b n1 n2 : Nat}
    (ha : t.par a = some n1) (hb : t.par b = some n2)
    (hadj : t.par n1 = some n2 ∨ t.par n2 = some n1)
    (hl1 : (t.kids n1).length = 2) (hl2 : (t.kids n2).length = 2)
    (hd1 : (t.kids n1).Nodup) (hd2 : (t.kids n2).Nodup)
    (hm1 : a ∈ t.kids n1) (hm2 : b ∈ t.kids n2) (hn : n1 ≠ n2) :
    ∃ t1, proposeNni t a b = .ok t1 ∧ t1.nnodes = t.nnodes ∧ t1.root = t.root ∧
      (∀ m, t1.par m = if m = b then some n1 else if m = a then some n2 else t.par m) ∧
      (∀ m, t1.kids m =
        if m = n1 then (t.kids n1).map (fun c => if c = a then b else c)
        else if m = n2 then (t.kids n2).map (fun c => if c = b then a else c)
        else t.kids m) := by
  have ha' : a < t.nnodes := Tree.lt_of_par ha
  have hb' : b < t.nnodes := Tree.lt_of_par hb
  have hn' : n2 ≠ n1 := fun e => hn e.symm
  obtain ⟨x, y, hk1⟩ := list_len_two hl1
  obtain ⟨u, v, hk2⟩ := list_len_two hl2
  have hax : a = x ∨ a = y := by simpa [hk1] using hm1
  have hbu : b = u ∨ b = v := by simpa [hk2] using hm2
  refine ⟨_, proposeNni_eq ha hb hadj hk1 hk2 hax hbu, by simp, by simp, ?_, ?_⟩
  · intro m
    simp only [Tree.par_setParent, Tree.par_setChild, Tree.nnodes_setParent, ha', hb',
      and_true]
  · intro m
    simp only [Tree.kids_setChild, Tree.kids_setParent]
    by_cases h1 : m = n1
    · subst h1
      simp only [if_true, hn, if_false]
      apply set_eq_map_subst hl1 hd1
      rw [hk1]
      by_cases hxa : x = a
      · simp [hxa]
      · have hya : y = a := (hax.resolve_left (fun e => hxa e.symm)).symm
        simp [hxa, hya]
    · by_cases h2 : m = n2
      · subst h2
        simp only [h1, if_false, if_true]
        apply set_eq_map_subst hl2 hd2
        rw [hk2]
        by_cases hub : u = b
        · simp [hub]
        · have hvb : v = b := (hbu.resolve_left (fun e => hub e.symm)).symm
          simp [hub, hvb]
      · simp [h1, h2]

/-- A second call of the two-node `proposeNni` with the same arguments undoes
the first, provided neither `a` nor `b` is an end of the edge `n1 - n2` and
neither is a child of the other's parent. -/
theorem proposeNni_undo {t t1 : Tree} {a b n1 n2 : Nat}
    (ha : t.par a = some n1) (hb : t.par b = some n2)
    (hadj : t.par n1 = some n2 ∨ t.par n2 = some n1)
    (hl1 : (t.kids n1).length = 2) (hl2 : (t.kids n2).length = 2)
    (hd1 : (t.kids n1).Nodup) (hd2 : (t.kids n2).Nodup)
    (hm1 : a ∈ t.kids n1) (hm2 : b ∈ t.kids n2) (hn : n1 ≠ n2)
    (hab : a ≠ b) (han1 : a ≠ n1) (han2 : a ≠ n2) (hbn1 : b ≠ n1) (hbn2 : b ≠ n2)
    (hak : a ∉ t.kids n2) (hbk : b ∉ t.kids n1)
    (h1 : proposeNni t a b = .ok t1) : proposeNni t1 a b = .ok t := by
  obtain ⟨t1', e1, hnn, hrt, hpar, hkids⟩ :=
    proposeNni_step ha hb hadj hl1 hl2 hd1 hd2 hm1 hm2 hn
  rw [h1] at e1
  cases e1
  have hn' : n2 ≠ n1 := fun e => hn e.symm
  have pa : t1.par a = some n2 := by rw [hpar]; simp [hab]
  have pb : t1.par b = some n1 := by rw [hpar]; simp
  have p1 : t1.par n1 = t.par n1 := by
    rw [hpar]; simp [Ne.symm han1, Ne.symm hbn1]
  have p2 : t1.par n2 = t.par n2 := by
    rw [hpar]; simp [Ne.symm han2, Ne.symm hbn2]
  have k1 : t1.kids n1 = (t.kids n1).map (fun c => if c = a then b else c) := by
    rw [hkids]; simp
  have k2 : t1.kids n2 = (t.kids n2).map (fun c => if c = b then a else c) := by
    rw [hkids]; simp [hn']
  obtain ⟨t2, e2, hnn2, hrt2, hpar2, hkids2⟩ :=
    proposeNni_step pa pb
      (by rw [p1, p2]; exact hadj.symm)
      (by rw [k2]; simpa using hl2) (by rw [k1]; simpa using hl1)
      (by rw [k2]; exact nodup_map_subst hd2 hak)
      (by rw [k1]; exact nodup_map_subst hd1 hbk)
      (by rw [k2]; exact mem_map_subst hm2)
      (by rw [k1]; exact mem_map_subst hm1) hn'
  rw [e2]
  congr 1
  apply Tree.ext_par_kids
  · rw [hrt2, hrt]
  · rw [hnn2, hnn]
  · intro m
    rw [hpar2, hpar]
    by_cases hmb : m = b
    · simp [hmb, hb]
    · by_cases hma : m = a
      · simp [hma, hab, ha]
      · simp [hmb, hma]
  · intro m
    rw [hkids2]
    by_cases hm2' : m = n2
    · subst hm2'
      simp only [if_true]
      rw [k2]
      exact map_subst_undo hak
    · by_cases hm1' : m = n1
      · subst hm1'
        simp only [hm2', if_false, if_true]
        rw [k1]
        exact map_subst_undo hbk
      · simp only [hm2', hm1', if_false]
        rw [hkids]
        simp [hm1', hm2']

/-! ## Consequences of the tree invariant -/

namespace Tree

theorem ancestor_succ {t : Tree} {n p : Nat} (k : Nat) (h : t.par n = some p) :
    t.ancestor (k + 1) n = t.ancestor k p := by
  simp [ancestor, h]

theorem ancestor_succ_none {t : Tree} {n : Nat} (k : Nat) (h : t.par n = none) :
    t.ancestor (k + 1) n = none := by
  simp [ancestor, h]

/-- No set of nodes that is closed under taking parents contains a node that
reaches the root: the root has no parent. -/
theorem no_closed_set {t : Tree} (hroot : t.par t.root = none) (C : Nat → Prop)
    (hC : ∀ m, C m → ∃ q, t.par m = some q ∧ C q) :
    ∀ k m, C m → t.ancestor k m ≠ some t.root := by
  intro k
  induction k with
  | zero =>
    intro m hm h
    simp only [ancestor, Option.some.injEq] at h
    obtain ⟨q, hq, _⟩ := hC m hm
    rw [h, hroot] at hq
    exact Option.noConfusion hq
  | succ k ih =>
    intro m hm h
    obtain ⟨q, hq, hCq⟩ := hC m hm
    rw [ancestor_succ k hq] at h
    exact ih q hCq h

namespace Valid

theorem mem_kids {t : Tree} (hv : t.Valid) {c p : Nat} (h : t.par c = some p) :
    c ∈ t.kids p := by
  have hc := hv.par_kids c (lt_of_par h) p h
  exact List.count_pos_iff.mp (by omega)

theorem par_of_mem {t : Tree} (hv : t.Valid) {c n : Nat} (h : c ∈ t.kids n) :
    t.par c = some n :=
  hv.kids_par n (lt_of_mem_kids h) c h

theorem len_two {t : Tree} (hv : t.Valid) {c n : Nat} (h : c ∈ t.kids n) :
    (t.kids n).length = 2 := by
  rcases hv.binary n (lt_of_mem_kids h) with h0 | h2
  · rw [List.length_eq_zero] at h0
    rw [h0] at h
    exact absurd h (List.not_mem_nil c)
  · exact h2

theorem nodup_kids {t : Tree} (hv : t.Valid) (n : Nat) : (t.kids n).Nodup := by
  by_cases h : n < t.nnodes
  · exact hv.nodup n h
  · have : t.kids n = [] := by
      unfold kids
      unfold nnodes at h
      simp [List.getElem?_eq_none (not_lt.mp h)]
    rw [this]
    exact List.nodup_nil

theorem par_ne_self {t : Tree} (hv : t.Valid) (n : Nat) : t.par n ≠ some n := by
  intro h
  obtain ⟨k, _, hk⟩ := hv.reach n (lt_of_par h)
  exact no_closed_set hv.root_par (fun m => m = n)
    (fun m hm => ⟨n, by rw [hm]; exact h, rfl⟩) k n rfl hk

theorem no_two_cycle {t : Tree} (hv : t.Valid) {n p : Nat} (h : t.par n = some p) :
    t.par p ≠ some n := by
  intro h'
  obtain ⟨k, _, hk⟩ := hv.reach n (lt_of_par h)
  refine no_closed_set hv.root_par (fun m => m = n ∨ m = p) ?_ k n (Or.inl rfl) hk
  rintro m (rfl | rfl)
  · exact ⟨p, h, Or.inr rfl⟩
  · exact ⟨n, h', Or.inl rfl⟩

end Valid

end Tree

/-! ## Bounding the distance to the root -/

namespace Tree

theorem ancestor_add (t : Tree) (i j n : Nat) :
    t.ancestor (i + j) n = (t.ancestor i n).bind (t.ancestor j) := by
  induction i generalizing n with
  | zero => simp [ancestor]
  | succ i ih =>
    cases hp : t.par n with
    | none =>
      rw [show i + 1 + j = (i + j) + 1 by omega, ancestor_succ_none _ hp,
        ancestor_succ_none _ hp]
      rfl
    | some p =>
      rw [show i + 1 + j = (i + j) + 1 by omega, ancestor_succ _ hp, ancestor_succ _ hp]
      exact ih p

theorem ancestor_lt {t : Tree} (hpar : ∀ x p, t.par x = some p → p < t.nnodes) :
    ∀ (i n x : Nat), n < t.nnodes → t.ancestor i n = some x → x < t.nnodes := by
  intro i
  induction i with
  | zero =>
    intro n x hn h
    simp only [ancestor, Option.some.injEq] at h
    exact h ▸ hn
  | succ i ih =>
    intro n x hn h
    cases hp : t.par n with
    | none =>
      rw [ancestor_succ_none _ hp] at h
      exact Option.noConfusion h
    | some p =>
      rw [ancestor_succ _ hp] at h
      exact ih p x (hpar n p hp) h

/-- A node that reaches `r` through parent pointers does so in fewer than
`nnodes` steps. -/
theorem reach_bound {t : Tree} (hpar : ∀ x p, t.par x = some p → p < t.nnodes)
    {n r : Nat} (hn : n < t.nnodes) :
    ∀ k, t.ancestor k n = some r → ∃ k' < t.nnodes, t.ancestor k' n = some r := by
  intro k
  induction k using Nat.strong_induction_on with
  | _ k ih =>
    intro h
    by_cases hk : k < t.nnodes
    · exact ⟨k, hk, h⟩
    · have hdef : ∀ i, i ≤ k → ∃ x, t.ancestor i n = some x := by
        intro i hi
        cases hx : t.ancestor i n with
        | none =>
          have := ancestor_add t i (k - i) n
          rw [show i + (k - i) = k by omega, h, hx] at this
          exact Option.noConfusion this
        | some x => exact ⟨x, rfl⟩
      have hc : (Finset.range t.nnodes).card < (Finset.range (k + 1)).card := by
        simp only [Finset.card_range]
        omega
      obtain ⟨i, hi, j, hj, hij, hf⟩ :=
        Finset.exists_ne_map_eq_of_card_lt_of_maps_to hc
          (f := fun i => (t.ancestor i n).getD 0)
          (by
            intro i hi
            simp only [Finset.coe_range, Set.mem_Iio, Finset.mem_range] at hi ⊢
            obtain ⟨x, hx⟩ := hdef i (by omega)
            rw [hx]
            exact ancestor_lt hpar i n x hn hx)
      simp only [Finset.mem_range] at hi hj
      -- shortcut between two equal nodes on the path
      have key : ∀ i j, i < j → j ≤ k →
          (t.ancestor i n).getD 0 = (t.ancestor j n).getD 0 →
          ∃ k' < t.nnodes, t.ancestor k' n = some r := by
        intro i j hlt hjk hf
        obtain ⟨x, hx⟩ := hdef i (by omega)
        obtain ⟨y, hy⟩ := hdef j hjk
        rw [hx, hy] at hf
        simp only [Option.getD_some] at hf
        have e1 := ancestor_add t j (k - j) n
        rw [show j + (k - j) = k by omega, h, hy] at e1
        have e2 := ancestor_add t i (k - j) n
        rw [hx, hf, ← e1] at e2
        exact ih (i + (k - j)) (by omega) e2
      rcases Nat.lt_or_gt_of_ne hij with hlt | hgt
      · exact key i j hlt (by omega) hf
      · exact key j i hgt (by omega) hf.symm

end Tree

/-! ## The interchange keeps the tree invariant -/

/-- Exchanging a child `a` of `n1` with the sibling `b` of `n1` (a child of
`n2`, the parent of `n1`) yields a valid tree again. -/
theorem valid_exchange {t t1 : Tree} {a b n1 n2 : Nat} (hv : t.Valid)
    (h12 : t.par n1 = some n2) (hm1 : a ∈ t.kids n1) (hm2 : b ∈ t.kids n2) (hbn1 : b ≠ n1)
    (hnn : t1.nnodes = t.nnodes) (hrt : t1.root = t.root)
    (hpar : ∀ m, t1.par m = if m = b then some n1 else if m = a then some n2 else t.par m)
    (hkids : ∀ m, t1.kids m =
        if m = n1 then (t.kids n1).map (fun c => if c = a then b else c)
        else if m = n2 then (t.kids n2).map (fun c => if c = b then a else c)
        else t.kids m) :
    t1.Valid := by
  have ha := hv.par_of_mem hm1
  have hb := hv.par_of_mem hm2
  have hn : n1 ≠ n2 := by
    rintro rfl
    exact hv.par_ne_self _ h12
  have hn' : n2 ≠ n1 := fun e => hn e.symm
  have hak : a ∉ t.kids n2 := fun h => hn (by
    have := hv.par_of_mem h
    rw [ha] at this
    exact Option.some.inj this)
  have hbk : b ∉ t.kids n1 := fun h => hn (by
    have := hv.par_of_mem h
    rw [hb] at this
    exact (Option.some.inj this).symm)
  have hab : a ≠ b := by
    rintro rfl
    rw [ha] at hb
    exact hn (Option.some.inj hb)
  have han1 : a ≠ n1 := by
    rintro rfl
    exact hv.par_ne_self _ ha
  have han2 : a ≠ n2 := by
    rintro rfl
    exact hv.no_two_cycle ha h12
  have hbn2 : b ≠ n2 := by
    rintro rfl
    exact hv.par_ne_self _ hb
  have k1 : t1.kids n1 = (t.kids n1).map (fun c => if c = a then b else c) := by
    rw [hkids]; simp
  have k2 : t1.kids n2 = (t.kids n2).map (fun c => if c = b then a else c) := by
    rw [hkids]; simp [hn']
  have ko : ∀ m, m ≠ n1 → m ≠ n2 → t1.kids m = t.kids m := by
    intro m h1 h2
    rw [hkids]; simp [h1, h2]
  have pa : t1.par a = some n2 := by rw [hpar]; simp [hab]
  have pb : t1.par b = some n1 := by rw [hpar]; simp
  have po : ∀ m, m ≠ a → m ≠ b → t1.par m = t.par m := by
    intro m h1 h2
    rw [hpar]; simp [h1, h2]
  have hra : t.root ≠ a := by
    intro e
    rw [← e, hv.root_par] at ha
    exact Option.noConfusion ha
  have hrb : t.root ≠ b := by
    intro e
    rw [← e, hv.root_par] at hb
    exact Option.noConfusion hb
  -- membership in the new children arrays
  have mem1 : ∀ c, c ∈ t1.kids n1 ↔ c = b ∨ (c ∈ t.kids n1 ∧ c ≠ a) := by
    intro c
    rw [k1, mem_map_subst_iff hbk]
    simp [hm1]
  have mem2 : ∀ c, c ∈ t1.kids n2 ↔ c = a ∨ (c ∈ t.kids n2 ∧ c ≠ b) := by
    intro c
    rw [k2, mem_map_subst_iff hak]
    simp [hm2]
  have nd : ∀ n, (t1.kids n).Nodup := by
    intro n
    by_cases h1 : n = n1
    · rw [h1, k1]
      exact nodup_map_subst (hv.nodup_kids n1) hbk
    · by_cases h2 : n = n2
      · rw [h2, k2]
        exact nodup_map_subst (hv.nodup_kids n2) hak
      · rw [ko n h1 h2]
        exact hv.nodup_kids n
  have kp : ∀ n c, c ∈ t1.kids n → t1.par c = some n := by
    intro n c hc
    by_cases h1 : n = n1
    · subst h1
      rcases (mem1 c).mp hc with rfl | ⟨hc', hca⟩
      · exact pb
      · have hcb : c ≠ b := fun e => hbk (e ▸ hc')
        rw [po c hca hcb]
        exact hv.par_of_mem hc'
    · by_cases h2 : n = n2
      · subst h2
        rcases (mem2 c).mp hc with rfl | ⟨hc', hcb⟩
        · exact pa
        · have hca : c ≠ a := fun e => hak (e ▸ hc')
          rw [po c hca hcb]
          exact hv.par_of_mem hc'
      · rw [ko n h1 h2] at hc
        have hpc := hv.par_of_mem hc
        have hca : c ≠ a := by
          rintro rfl
          rw [ha] at hpc
          exact h1 (Option.some.inj hpc).symm
        have hcb : c ≠ b := by
          rintro rfl
          rw [hb] at hpc
          exact h2 (Option.some.inj hpc).symm
        rw [po c hca hcb]
        exact hpc
  have pk : ∀ n p, t1.par n = some p → n ∈ t1.kids p := by
    intro n p hnp
    by_cases hnb : n = b
    · subst hnb
      rw [pb] at hnp
      rw [← Option.some.inj hnp]
      exact (mem1 n).mpr (Or.inl rfl)
    · by_cases hna : n = a
      · subst hna
        rw [pa] at hnp
        rw [← Option.some.inj hnp]
        exact (mem2 n).mpr (Or.inl rfl)
      · rw [po n hna hnb] at hnp
        have hmem := hv.mem_kids hnp
        by_cases h1 : p = n1
        · subst h1
          exact (mem1 n).mpr (Or.inr ⟨hmem, hna⟩)
        · by_cases h2 : p = n2
          · subst h2
            exact (mem2 n).mpr (Or.inr ⟨hmem, hnb⟩)
          · rw [ko p h1 h2]
            exact hmem
  have hparlt : ∀ x p, t1.par x = some p → p < t1.nnodes := fun x p h =>
    Tree.lt_of_mem_kids (pk x p h)
  -- every node still reaches the root
  have hreach : ∀ k n, t.ancestor k n = some t.root → ∃ k', t1.ancestor k' n = some t1.root := by
    intro k
    induction k using Nat.strong_induction_on with
    | _ k ih =>
      intro n h
      match k, ih, h with
      | 0, _, h =>
        simp only [Tree.ancestor, Option.some.injEq] at h
        exact ⟨0, by simp [Tree.ancestor, h, hrt]⟩
      | k + 1, ih, h =>
        cases hp : t.par n with
        | none =>
          rw [Tree.ancestor_succ_none _ hp] at h
          exact Option.noConfusion h
        | some p =>
          rw [Tree.ancestor_succ _ hp] at h
          by_cases hnb : n = b
          · subst hnb
            rw [hb] at hp
            have hp' := Option.some.inj hp
            subst hp'
            obtain ⟨k2, hk2⟩ := ih k (by omega) _ h
            have p1 : t1.par n1 = some n2 := by
              rw [po n1 (Ne.symm han1) (Ne.symm hbn1)]
              exact h12
            exact ⟨k2 + 1 + 1, by
              rw [Tree.ancestor_succ _ pb, Tree.ancestor_succ _ p1]
              exact hk2⟩
          · by_cases hna : n = a
            · subst hna
              rw [ha] at hp
              have hp' := Option.some.inj hp
              subst hp'
              match k, ih, h with
              | 0, _, h =>
                simp only [Tree.ancestor, Option.some.injEq] at h
                rw [h, hv.root_par] at h12
                exact Option.noConfusion h12
              | k + 1, ih, h =>
                rw [Tree.ancestor_succ _ h12] at h
                obtain ⟨k2, hk2⟩ := ih k (by omega) _ h
                exact ⟨k2 + 1, by
                  rw [Tree.ancestor_succ _ pa]
                  exact hk2⟩
            · obtain ⟨k2, hk2⟩ := ih k (by omega) _ h
              have pn : t1.par n = some p := by
                rw [po n hna hnb]
                exact hp
              exact ⟨k2 + 1, by
                rw [Tree.ancestor_succ _ pn]
                exact hk2⟩
  refine ⟨?_, ?_, ?_, ?_, ?_, ?_, ?_, ?_⟩
  · rw [hrt, hnn]
    exact hv.root_lt
  · rw [hrt, po _ hra hrb]
    exact hv.root_par
  · intro n hlt hnone
    rw [hnn] at hlt
    have hna : n ≠ a := by
      rintro rfl
      rw [pa] at hnone
      exact Option.noConfusion hnone
    have hnb : n ≠ b := by
      rintro rfl
      rw [pb] at hnone
      exact Option.noConfusion hnone
    rw [po n hna hnb] at hnone
    rw [hrt]
    exact hv.only_root n hlt hnone
  · intro n _ p hp
    exact List.count_eq_one_of_mem (nd p) (pk n p hp)
  · intro n _ c hc
    exact kp n c hc
  · intro n _
    exact nd n
  · intro n hlt
    rw [hnn] at hlt
    have hlen : (t1.kids n).length = (t.kids n).length := by
      by_cases h1 : n = n1
      · rw [h1, k1, List.length_map]
      · by_cases h2 : n = n2
        · rw [h2, k2, List.length_map]
        · rw [ko n h1 h2]
    rw [hlen]
    exact hv.binary n hlt
  · intro n hlt
    have hlt' : n < t.nnodes := hnn ▸ hlt
    obtain ⟨k, _, hk⟩ := hv.reach n hlt'
    obtain ⟨k', hk'⟩ := hreach k n hk
    exact Tree.reach_bound hparlt hlt k' hk'

/-- A second two-node interchange with the same arguments undoes the first,
whenever neither node is an end of the edge joining their parents. -/
theorem nni_twice_aux {t : Tree} {a b n1 n2 : Nat} (hv : t.Valid)
    (ha : t.par a = some n1) (hb : t.par b = some n2)
    (hadj : t.par n1 = some n2 ∨ t.par n2 = some n1)
    (han2 : a ≠ n2) (hbn1 : b ≠ n1) :
    ∃ t1, proposeNni t a b = .ok t1 ∧ proposeNni t1 a b = .ok t := by
  have hm1 := hv.mem_kids ha
  have hm2 := hv.mem_kids hb
  have hn : n1 ≠ n2 := by
    rintro rfl
    rcases hadj with h | h <;> exact hv.par_ne_self _ h
  have hak : a ∉ t.kids n2 := fun h => hn (by
    have := hv.par_of_mem h
    rw [ha] at this
    exact Option.some.inj this)
  have hbk : b ∉ t.kids n1 := fun h => hn (by
    have := hv.par_of_mem h
    rw [hb] at this
    exact (Option.some.inj this).symm)
  have hab : a ≠ b := by
    rintro rfl
    rw [ha] at hb
    exact hn (Option.some.inj hb)
  have han1 : a ≠ n1 := by
    rintro rfl
    exact hv.par_ne_self _ ha
  have hbn2 : b ≠ n2 := by
    rintro rfl
    exact hv.par_ne_self _ hb
  obtain ⟨t1, e1, _⟩ := proposeNni_step ha hb hadj (hv.len_two hm1) (hv.len_two hm2)
    (hv.nodup_kids n1) (hv.nodup_kids n2) hm1 hm2 hn
  exact ⟨t1, e1, proposeNni_undo ha hb hadj (hv.len_two hm1) (hv.len_two hm2)
    (hv.nodup_kids n1) (hv.nodup_kids n2) hm1 hm2 hn hab han1 han2 hbn1 hbn2 hak hbk e1⟩

/-! ## Runs that can only stop for lack of draws -/

theorem Safe.bind {α β : Type} {x : Except Fault α} {f : α → Except Fault β}
    {P : α → Prop} {Q : β → Prop} (hx : Safe x P) (hf : ∀ r, P r → Safe (f r) Q) :
    Safe (x >>= f) Q := by
  cases x with
  | error e =>
    simp only [Safe] at hx
    simpa [Safe] using hx
  | ok r => exact hf r hx

theorem Safe.mono {α : Type} {x : Except Fault α} {P Q : α → Prop} (hx : Safe x P)
    (h : ∀ r, P r → Q r) : Safe x Q := by
  cases x with
  | error e => exact hx
  | ok r => exact h r hx

theorem Safe.of_ok {α : Type} {x : Except Fault α} {P : α → Prop} (hx : Safe x P) {r : α}
    (h : x = .ok r) : P r := by
  subst h
  exact hx

theorem Safe.of_error {α : Type} {x : Except Fault α} {P : α → Prop} (hx : Safe x P)
    {e : Fault} (h : x = .error e) : e = Fault.draws := by
  subst h
  exact hx

theorem irand_safe (max : Nat) (hmax : 0 < max) (g : Rng) :
    Safe (irand max g) (fun r => r.1 < max) := by
  unfold irand
  cases g.ints with
  | nil => rfl
  | cons r rs => exact Nat.mod_lt r hmax

theorem frand_safe (g : Rng) : Safe (frand g) (fun _ => True) := by
  unfold frand
  cases g.reals with
  | nil => rfl
  | cons u us => trivial

/-- The sampling loop returns only an internal node that has a parent. -/
theorem pickPivot_safe {t : Tree} (hv : t.Valid) (ints : List Nat) :
    Safe (pickPivot t ints)
      (fun r => (t.kids r.1).length ≠ 0 ∧ ∃ p, t.par r.1 = some p) := by
  induction ints with
  | nil => rfl
  | cons r rs ih =>
    have hpos : 0 < t.nnodes := Nat.lt_of_le_of_lt (Nat.zero_le _) hv.root_lt
    have hlt : r % t.nnodes < t.nnodes := Nat.mod_lt r hpos
    unfold pickPivot
    simp only [Tree.isLeaf_eq hlt, Tree.parentOf_eq hlt, ok_bind]
    by_cases hleaf : (t.kids (r % t.nnodes)).length = 0
    · simpa [hleaf] using ih
    · cases hp : t.par (r % t.nnodes) with
      | none => simpa [hleaf, hp] using ih
      | some p =>
        simp only [beq_iff_eq, hleaf, Bool.false_eq_true, if_false, reduceCtorEq,
          pure_eq_ok]
        exact ⟨hleaf, p, hp⟩

/-- What `proposeRandomNni` returns on a valid tree: `node1` is an internal node
with parent `node2`, `a` is a child of `node1` and `b` is the sibling of
`node1`. -/
theorem proposeRandomNni_safe {t : Tree} (hv : t.Valid) (g : Rng) :
    Safe (proposeRandomNni t g)
      (fun r => t.par r.1.node1 = some r.1.node2 ∧ r.1.a ∈ t.kids r.1.node1 ∧
        r.1.b ∈ t.kids r.1.node2 ∧ r.1.b ≠ r.1.node1) := by
  unfold proposeRandomNni
  refine Safe.bind (pickPivot_safe hv g.ints) ?_
  rintro ⟨n1, ints⟩ ⟨hlen, n2, hp⟩
  have h1 : n1 < t.nnodes := Tree.lt_of_par hp
  have hlen2 : (t.kids n1).length = 2 := (hv.binary n1 h1).resolve_left hlen
  obtain ⟨x, y, hk1⟩ := list_len_two hlen2
  have hm := hv.mem_kids hp
  obtain ⟨u, v, hk2⟩ := list_len_two (hv.len_two hm)
  have hnd := hv.nodup_kids n2
  rw [hk2] at hm hnd
  simp only [Tree.parentOf_eq h1, hp, deref, ok_bind]
  refine Safe.bind (irand_safe 2 (by omega) _) ?_
  rintro ⟨i, g'⟩ hi
  simp only at hi
  have c20 : t.childAt n2 0 = .ok u := Tree.childAt_eq (by simp [hk2])
  have c21 : t.childAt n2 1 = .ok v := Tree.childAt_eq (by simp [hk2])
  have huv : u ≠ v := by
    intro e
    simp [e] at hnd
  have hmem_a : ∀ a, (t.kids n1)[i]? = some a → a ∈ t.kids n1 := fun a h =>
    List.getElem?_mem h
  have hai : ∃ a, (t.kids n1)[i]? = some a := by
    rw [hk1]
    match i, hi with
    | 0, _ => exact ⟨x, rfl⟩
    | 1, _ => exact ⟨y, rfl⟩
  obtain ⟨a, ha⟩ := hai
  simp only [Tree.childAt_eq ha, ok_bind, c20]
  by_cases hu : u = n1
  · simp only [hu, if_true, c21, ok_bind, pure_eq_ok]
    refine ⟨hp, hmem_a a ha, by simp [hk2], ?_⟩
    exact fun e => huv (hu.trans e.symm)
  · simp only [hu, if_false, c20, ok_bind, pure_eq_ok]
    exact ⟨hp, hmem_a a ha, by simp [hk2], hu⟩

/-! ## The proposer -/

/-- The interchange chosen by `proposeRandomNni`: it returns, it is undone by a
second call with the same arguments, and it keeps the tree valid with the same
nodes, root and numbers of children. -/
theorem nni_sibling_step {t : Tree} {a b n1 n2 : Nat} (hv : t.Valid)
    (h12 : t.par n1 = some n2) (hm1 : a ∈ t.kids n1) (hm2 : b ∈ t.kids n2)
    (hbn1 : b ≠ n1) :
    ∃ t1, proposeNni t a b = .ok t1 ∧ proposeNni t1 a b = .ok t ∧ t1.Valid ∧
      t1.nnodes = t.nnodes ∧ t1.root = t.root ∧
      ∀ n, (t1.kids n).length = (t.kids n).length := by
  have ha := hv.par_of_mem hm1
  have hb := hv.par_of_mem hm2
  have hn : n1 ≠ n2 := by
    rintro rfl
    exact hv.par_ne_self _ h12
  have han2 : a ≠ n2 := by
    rintro rfl
    exact hv.no_two_cycle ha h12
  obtain ⟨t1, e1, hnn, hrt, hpar, hkids⟩ :=
    proposeNni_step ha hb (Or.inl h12) (hv.len_two hm1) (hv.len_two hm2)
      (hv.nodup_kids n1) (hv.nodup_kids n2) hm1 hm2 hn
  obtain ⟨t1', e1', e2⟩ := nni_twice_aux hv ha hb (Or.inl h12) han2 hbn1
  rw [e1] at e1'
  cases e1'
  refine ⟨t1, e1, e2, valid_exchange hv h12 hm1 hm2 hbn1 hnn hrt hpar hkids, hnn, hrt, ?_⟩
  intro n
  rw [hkids]
  by_cases h1 : n = n1
  · simp [h1]
  · by_cases h2 : n = n2
    · have hn' : n2 ≠ n1 := Ne.symm hn
      simp [h2, hn']
    · simp [h1, h2]

/-- What `revert` does after a proposal without re-rooting by reconciliation:
the recorded root children make the `reroot` call a trivial one, then the
recorded interchanges are undone, the second one first. -/
theorem revert_eq {S : Type} (reroot : Tree → Nat → Except Fault Tree)
    (hreroot : ∀ (t : Tree) (n : Nat), n ∈ t.kids t.root → reroot t n = .ok t)
    {p : NniProposer S} {t t1 t2 : Tree} {a b : Nat} (hv2 : t2.Valid)
    (hroot : p.oldroot1 = none ∨ ∃ r0 r1, p.oldroot1 = some r0 ∧ p.oldroot2 = some r1 ∧
      r0 ∈ t2.kids t2.root ∧ r1 ∈ t2.kids t2.root)
    (hsecond : (p.nodec = none ∧ t2 = t1) ∨
      ∃ c d, p.nodec = some c ∧ p.noded = some d ∧ proposeNni t2 c d = .ok t1)
    (hna : p.nodea = some a) (hnb : p.nodeb = some b) (hfirst : proposeNni t1 a b = .ok t) :
    NniProposer.revert reroot p t2 = .ok t := by
  unfold NniProposer.revert NniProposer.revertNni
  rcases hroot with h | ⟨r0, r1, h0, h1, hr0, hr1⟩
  · rcases hsecond with ⟨hc, e⟩ | ⟨c, d, hc, hd, e⟩
    · simp only [h, hc, hna, hnb, deref, ok_bind, pure_eq_ok, e, hfirst]
    · simp only [h, hc, hd, hna, hnb, deref, ok_bind, pure_eq_ok, e, hfirst]
  · have hp0 := hv2.par_of_mem hr0
    simp only [h0, h1, Tree.parentOf_eq (Tree.lt_of_par hp0), hp0, ok_bind, deref]
    have hr0' := hreroot t2 r0 hr0
    have hr1' := hreroot t2 r1 hr1
    rcases hsecond with ⟨hc, e⟩ | ⟨c, d, hc, hd, e⟩
    · subst e
      split <;>
        simp only [hr0', hr1', hc, hna, hnb, deref, ok_bind, pure_eq_ok, hfirst]
    · split <;>
        simp only [hr0', hr1', hc, hd, hna, hnb, deref, ok_bind, pure_eq_ok, e, hfirst]

/-- The optional second interchange of `propose`. -/
theorem proposeSecond_safe {S : Type} {p : NniProposer S} {t1 : Tree} (hv1 : t1.Valid)
    (g : Rng) :
    Safe (NniProposer.proposeSecond p t1 g) (fun r =>
      r.2.1.Valid ∧ r.2.1.nnodes = t1.nnodes ∧ r.2.1.root = t1.root ∧
      (∀ n, (r.2.1.kids n).length = (t1.kids n).length) ∧
      r.1.nodea = p.nodea ∧ r.1.nodeb = p.nodeb ∧ r.1.iter = p.iter ∧
      r.1.niter = p.niter ∧ r.1.stree = p.stree ∧
      ((r.1.nodec = p.nodec ∧ r.2.1 = t1) ∨
        ∃ c d, r.1.nodec = some c ∧ r.1.noded = some d ∧
          proposeNni r.2.1 c d = .ok t1)) := by
  unfold NniProposer.proposeSecond
  refine Safe.bind (frand_safe g) ?_
  rintro ⟨u, g2⟩ _
  simp only
  split
  · refine Safe.bind (proposeRandomNni_safe hv1 g2) ?_
    rintro ⟨ch, g3⟩ ⟨h12, hm1, hm2, hbn⟩
    obtain ⟨t2, e2, u2, hv2, hnn2, hrt2, hlen2⟩ := nni_sibling_step hv1 h12 hm1 hm2 hbn
    simp only at e2 u2
    simp only [e2, ok_bind, pure_eq_ok]
    exact ⟨hv2, hnn2, hrt2, hlen2, rfl, rfl, rfl, rfl, rfl, Or.inr ⟨_, _, rfl, rfl, u2⟩⟩
  · exact ⟨hv1, rfl, rfl, fun _ => rfl, rfl, rfl, rfl, rfl, rfl, Or.inl ⟨rfl, rfl⟩⟩

/-- The end of `propose` when no species tree is configured: the tree is left
as it is and the two children of the root are recorded. -/
theorem proposeReroot_safe {S : Type} (reconRoot : Tree → S → List Int → Except Fault Tree)
    {p : NniProposer S} {t2 : Tree} (hv2 : t2.Valid) (hs : p.stree = none)
    (hk : (t2.kids t2.root).length = 2) (g : Rng) :
    Safe (NniProposer.proposeReroot reconRoot p t2 g) (fun r =>
      r.2.1 = t2 ∧ r.1.nodea = p.nodea ∧ r.1.nodeb = p.nodeb ∧ r.1.nodec = p.nodec ∧
      r.1.noded = p.noded ∧ r.1.iter = p.iter ∧ r.1.niter = p.niter ∧
      (r.1.oldroot1 = none ∨ ∃ r0 r1, r.1.oldroot1 = some r0 ∧ r.1.oldroot2 = some r1 ∧
        r0 ∈ t2.kids t2.root ∧ r1 ∈ t2.kids t2.root)) := by
  unfold NniProposer.proposeReroot
  refine Safe.bind (frand_safe g) ?_
  rintro ⟨u, g2⟩ _
  have hassert : t2.assertTree = true := by
    unfold Tree.assertTree
    exact decide_eq_true hv2
  obtain ⟨x, y, hxy⟩ := list_len_two hk
  have c0 : t2.childAt t2.root 0 = .ok x := Tree.childAt_eq (by simp [hxy])
  have c1 : t2.childAt t2.root 1 = .ok y := Tree.childAt_eq (by simp [hxy])
  simp only
  split
  · simp only [c0, c1, ok_bind, hs, pure_eq_ok, hassert, assertThat, if_true]
    exact ⟨rfl, rfl, rfl, rfl, rfl, rfl, rfl,
      Or.inr ⟨x, y, rfl, rfl, by simp [hxy], by simp [hxy]⟩⟩
  · simp only [ok_bind, pure_eq_ok, hassert, assertThat, if_true]
    exact ⟨rfl, rfl, rfl, rfl, rfl, rfl, rfl, Or.inl rfl⟩

/-- The postcondition of `propose` used below: what the proposer recorded and
how the new tree relates to the old one. -/
theorem propose_safe {S : Type} (reconRoot : Tree → S → List Int → Except Fault Tree)
    {p : NniProposer S} {t : Tree} (hv : t.Valid) (hs : p.stree = none) (g : Rng) :
    Safe (NniProposer.propose reconRoot p t g) (fun r =>
      r.2.1.Valid ∧ r.2.1.nnodes = t.nnodes ∧ r.2.1.root = t.root ∧
      (∀ n, (r.2.1.kids n).length = (t.kids n).length) ∧
      r.1.iter = p.iter + 1 ∧ r.1.niter = p.niter ∧
      (r.1.oldroot1 = none ∨ ∃ r0 r1, r.1.oldroot1 = some r0 ∧ r.1.oldroot2 = some r1 ∧
        r0 ∈ r.2.1.kids r.2.1.root ∧ r1 ∈ r.2.1.kids r.2.1.root) ∧
      ∃ t1 a b, r.1.nodea = some a ∧ r.1.nodeb = some b ∧ proposeNni t1 a b = .ok t ∧
        ((r.1.nodec = none ∧ r.2.1 = t1) ∨
          ∃ c d, r.1.nodec = some c ∧ r.1.noded = some d ∧
            proposeNni r.2.1 c d = .ok t1)) := by
  unfold NniProposer.propose
  refine Safe.bind (proposeRandomNni_safe hv g) ?_
  rintro ⟨ch, g1⟩ ⟨h12, hm1, hm2, hbn⟩
  obtain ⟨t1, e1, u1, hv1, hnn1, hrt1, hlen1⟩ := nni_sibling_step hv h12 hm1 hm2 hbn
  simp only at e1 u1 h12 hm1
  simp only [e1, ok_bind]
  refine Safe.bind (proposeSecond_safe hv1 g1) ?_
  rintro ⟨p2, t2, g2⟩ ⟨hv2, hnn2, hrt2, hlen2, hna, hnb, hit, hnit, hst, hsec⟩
  simp only at hv2 hnn2 hrt2 hlen2 hna hnb hit hnit hst hsec ⊢
  have hroot2 : (t2.kids t2.root).length = 2 := by
    rw [hlen2, hrt2, hlen1, hrt1]
    have hm := hv.mem_kids h12
    have hn2 := hv.len_two hm
    -- the parent of the pivot reaches the root, whose children array is not empty
    rcases hv.binary t.root hv.root_lt with h0 | h2
    · exfalso
      have hch : ∀ k n, (t.kids n).length = 2 → t.ancestor k n ≠ some t.root := by
        intro k n hn e
        cases k with
        | zero =>
          simp only [Tree.ancestor, Option.some.injEq] at e
          rw [e, h0] at hn
          exact absurd hn (by decide)
        | succ k =>
          cases hp : t.par n with
          | none =>
            have := hv.only_root n (by
              by_contra hge
              have : t.kids n = [] := by
                unfold Tree.kids
                unfold Tree.nnodes at hge
                simp [List.getElem?_eq_none (not_lt.mp hge)]
              rw [this] at hn
              exact absurd hn (by decide)) hp
            rw [this, h0] at hn
            exact absurd hn (by decide)
          | some q =>
            -- the root is a proper ancestor, so it has a child
            have hanc := Tree.ancestor_add t k 1 n
            rw [e] at hanc
            cases hx : t.ancestor k n with
            | none =>
              rw [hx] at hanc
              exact Option.noConfusion hanc
            | some x =>
              rw [hx] at hanc
              simp only [Option.some_bind] at hanc
              cases hpx : t.par x with
              | none =>
                rw [Tree.ancestor_succ_none _ hpx] at hanc
                exact Option.noConfusion hanc
              | some r =>
                rw [Tree.ancestor_succ _ hpx] at hanc
                simp only [Tree.ancestor, Option.some.injEq] at hanc
                have hmem := hv.mem_kids hpx
                rw [← hanc] at hmem
                rw [List.length_eq_zero] at h0
                rw [h0] at hmem
                exact absurd hmem (List.not_mem_nil _)
      obtain ⟨k, _, hk⟩ := hv.reach ch.node2 (Tree.lt_of_mem_kids hm)
      exact hch k _ hn2 hk
    · exact h2
  refine Safe.mono (proposeReroot_safe reconRoot hv2 (hst.trans hs) hroot2 g2) ?_
  rintro ⟨p3, t3, g3⟩ ⟨e3, hna3, hnb3, hnc3, hnd3, hit3, hnit3, hold⟩
  simp only at e3 hna3 hnb3 hnc3 hnd3 hit3 hnit3 hold ⊢
  subst e3
  refine ⟨hv2, hnn2.trans hnn1, hrt2.trans hrt1, fun n => (hlen2 n).trans (hlen1 n),
    hit3.trans hit, hnit3.trans hnit, hold, t1, ch.a, ch.b, hna3.trans hna, hnb3.trans hnb,
    u1, ?_⟩
  rcases hsec with ⟨hc, e⟩ | ⟨c, d, hc, hd, e⟩
  · exact Or.inl ⟨hnc3.trans hc, e⟩
  · exact Or.inr ⟨c, d, hnc3.trans hc, hnd3.trans hd, e⟩

/-! ## The single-edge interchange -/

/-- The tail of the four-argument `proposeNni` performs the four assignments of
the exchange of `c` (a child of `n1`) with the node in slot `i` of `n2`. -/
theorem nniExchange_eq {t : Tree} {n1 n2 c i b x y : Nat}
    (hk1 : t.kids n1 = [x, y]) (hcx : c = x ∨ c = y)
    (hb : (t.kids n2)[i]? = some b) (hc' : c < t.nnodes) (hb' : b < t.nnodes) :
    nniExchange t n1 n2 c i = .ok
      ((((t.setParent c (some n2)).setParent b (some n1)).setChild n2 i c).setChild n1
        (if x = c then 0 else 1) b) := by
  have c10 : t.childAt n1 0 = .ok x := Tree.childAt_eq (by simp [hk1])
  have c11 : t.childAt n1 1 = .ok y := Tree.childAt_eq (by simp [hk1])
  have cb1 : (t.setParent c (some n2)).childAt n2 i = .ok b :=
    Tree.childAt_eq (by simpa using hb)
  have cb2 : ((t.setParent c (some n2)).setParent b (some n1)).childAt n2 i = .ok b :=
    Tree.childAt_eq (by simpa using hb)
  have pb : (t.setParent c (some n2)).parentOf b
      = .ok ((t.setParent c (some n2)).par b) :=
    Tree.parentOf_eq (by simpa using hb')
  unfold nniExchange
  by_cases hxc : x = c
  · simp [c10, hxc, assertThat, Tree.parentOf_eq hc', cb1, cb2, pb]
  · have hyc : y = c := (hcx.resolve_left (fun e => hxc e.symm)).symm
    simp [c10, c11, hxc, hyc, assertThat, Tree.parentOf_eq hc', cb1, cb2, pb]

/-- The exchange performed by the tail of the four-argument `proposeNni`, in
terms of parents and children. -/
theorem nniExchange_step {t : Tree} {n1 n2 c i b : Nat}
    (hl1 : (t.kids n1).length = 2) (hl2 : (t.kids n2).length = 2)
    (hd1 : (t.kids n1).Nodup) (hd2 : (t.kids n2).Nodup)
    (hm1 : c ∈ t.kids n1) (hb : (t.kids n2)[i]? = some b) (hn : n1 ≠ n2)
    (hc' : c < t.nnodes) (hb' : b < t.nnodes) :
    ∃ t1, nniExchange t n1 n2 c i = .ok t1 ∧ t1.nnodes = t.nnodes ∧ t1.root = t.root ∧
      (∀ m, t1.par m = if m = b then some n1 else if m = c then some n2 else t.par m) ∧
      (∀ m, t1.kids m =
        if m = n1 then (t.kids n1).map (fun d => if d = c then b else d)
        else if m = n2 then (t.kids n2).map (fun d => if d = b then c else d)
        else t.kids m) := by
  obtain ⟨x, y, hk1⟩ := list_len_two hl1
  have hcx : c = x ∨ c = y := by simpa [hk1] using hm1
  refine ⟨_, nniExchange_eq hk1 hcx hb hc' hb', by simp, by simp, ?_, ?_⟩
  · intro m
    simp only [Tree.par_setParent, Tree.par_setChild, Tree.nnodes_setParent, hc', hb',
      and_true]
  · intro m
    simp only [Tree.kids_setChild, Tree.kids_setParent]
    by_cases h1 : m = n1
    · subst h1
      simp only [if_true, hn, if_false]
      apply set_eq_map_subst hl1 hd1
      rw [hk1]
      by_cases hxc : x = c
      · simp [hxc]
      · have hyc : y = c := (hcx.resolve_left (fun e => hxc e.symm)).symm
        simp [hxc, hyc]
    · by_cases h2 : m = n2
      · subst h2
        simp only [h1, if_false, if_true]
        exact set_eq_map_subst hl2 hd2 hb
      · simp [h1, h2]

/-- A list of two distinct entries in which `b` occurs and `n` is the other
entry: the slot of `b` is the one the code computes from slot 0. -/
theorem other_slot {l : List Nat} {n b : Nat} (hl : l.length = 2) (hd : l.Nodup)
    (hn : n ∈ l) (hb : b ∈ l) (hbn : b ≠ n) :
    ∃ u, l[0]? = some u ∧ l[if u = n then 1 else 0]? = some b := by
  obtain ⟨u, v, rfl⟩ := list_len_two hl
  have huv : u ≠ v := by
    intro e
    simp [e] at hd
  refine ⟨u, rfl, ?_⟩
  simp only [List.mem_cons, List.mem_singleton, List.not_mem_nil, or_false] at hn hb
  by_cases hu : u = n
  · have : b = v := by
      rcases hb with h | h
      · exact absurd (h.trans hu) hbn
      · exact h
    simp [hu, this]
  · have hnv : n = v := hn.resolve_left (fun e => hu e.symm)
    have : b = u := by
      rcases hb with h | h
      · exact h
      · exact absurd (h.trans hnv.symm) hbn
    simp [hu, this]

/-- The four-argument `proposeNni` on an edge `node1 - node2` below the root,
with the two ends given in either order: it exchanges `c` with the uncle. -/
theorem proposeNniEdge_inner {t : Tree} {node1 node2 c uncle : Nat} (hv : t.Valid)
    (hp : t.par node1 = some node2) (hnr : node2 ≠ t.root)
    (hc : c ∈ t.kids node1) (hu : uncle ∈ t.kids node2) (hun : uncle ≠ node1) :
    ∃ t1, proposeNniEdge t node1 node2 c = .ok t1 ∧
      proposeNniEdge t node2 node1 c = .ok t1 ∧
      t1.nnodes = t.nnodes ∧ t1.root = t.root ∧
      (∀ m, t1.par m = if m = uncle then some node1 else if m = c then some node2
        else t.par m) ∧
      (∀ m, t1.kids m =
        if m = node1 then (t.kids node1).map (fun d => if d = c then uncle else d)
        else if m = node2 then (t.kids node2).map (fun d => if d = uncle then c else d)
        else t.kids m) := by
  have h1 : node1 < t.nnodes := Tree.lt_of_par hp
  have h2 : node2 < t.nnodes := Tree.lt_of_mem_kids hu
  have hpc := hv.par_of_mem hc
  have hpu := hv.par_of_mem hu
  have hn : node1 ≠ node2 := by
    rintro rfl
    exact hv.par_ne_self _ hp
  have hm := hv.mem_kids hp
  obtain ⟨u0, hu0, hslot⟩ :=
    other_slot (hv.len_two hu) (hv.nodup_kids node2) hm hu hun
  obtain ⟨t1, e1, hnn, hrt, hpar, hkids⟩ :=
    nniExchange_step (hv.len_two hc) (hv.len_two hu) (hv.nodup_kids node1)
      (hv.nodup_kids node2) hc hslot hn (Tree.lt_of_par hpc) (Tree.lt_of_par hpu)
  have c20 : t.childAt node2 0 = .ok u0 := Tree.childAt_eq hu0
  have hp2 : t.par node2 ≠ some node1 := hv.no_two_cycle hp
  have hcond : ¬ t.par node1 = some t.root := by
    intro h
    rw [hp] at h
    exact hnr (Option.some.inj h)
  have huncle : nniUncle t node1 node2 c = .ok t1 := by
    unfold nniUncle
    simp only [Tree.parentOf_eq h1, ok_bind, hcond, if_false, pure_eq_ok,
      Bool.false_eq_true, c20]
    exact e1
  refine ⟨t1, ?_, ?_, hnn, hrt, hpar, hkids⟩
  · unfold proposeNniEdge
    simp [Tree.parentOf_eq h1, hp, assertThat, Tree.isRooted_eq hv.root_lt, hnr, huncle]
  · unfold proposeNniEdge
    simp [Tree.parentOf_eq h1, Tree.parentOf_eq h2, hp, hp2, assertThat,
      Tree.isRooted_eq hv.root_lt, hnr, huncle]

/-- The four-argument `proposeNni` called on the root edge of `node1` in a
rooted tree: the edge is redirected to the other child `s` of the root, and the
call gives up when `s` is not internal. -/
theorem proposeNniEdge_redirect {t : Tree} {node1 s c : Nat} (hv : t.Valid)
    (h1 : t.par node1 = some t.root) (hs : s ∈ t.kids t.root) (hsn : s ≠ node1) :
    proposeNniEdge t node1 t.root c
      = if (t.kids s).length < 2 then .ok t else nniUncle t node1 s c := by
  have hn1 : node1 < t.nnodes := Tree.lt_of_par h1
  have hm := hv.mem_kids h1
  have hs' : s < t.nnodes := Tree.lt_of_par (hv.par_of_mem hs)
  have hlr := hv.len_two hs
  obtain ⟨u0, hu0, hslot⟩ := other_slot hlr (hv.nodup_kids t.root) hm hs hsn
  have cr0 : t.childAt t.root 0 = .ok u0 := Tree.childAt_eq hu0
  unfold proposeNniEdge
  by_cases h : u0 = node1
  · simp only [h, if_true] at hslot
    have cr1 : t.childAt t.root 1 = .ok s := Tree.childAt_eq hslot
    simp [Tree.parentOf_eq hn1, h1, assertThat, Tree.isRooted_eq hv.root_lt, hlr, cr0,
      cr1, h, Tree.nchildren_eq hs']
  · simp only [h, if_false] at hslot
    rw [hu0] at hslot
    have hus : u0 = s := Option.some.inj hslot
    simp [Tree.parentOf_eq hn1, h1, assertThat, Tree.isRooted_eq hv.root_lt, hlr, cr0,
      hus, hsn, Tree.nchildren_eq hs']

/-! ## One iteration of the search loop, case by case -/

/-- The tree state after the acceptance test of an iteration started in `s`:
the scored state, advanced by the draw of `frand` when the test needed it. -/
theorem mcmcIter_accept_best {σ T K α : Type} [DecidableEq K] [Zero α] [Add α] [Sub α] [Div α] [OfNat α 2] [LT α]
    [DecidableRel (fun a b : α => a < b)]
    (c : Collab σ T K α) (s : SearchState σ T K α)
    (h : s.logl < newScore c s ∨ lnU c s < newScore c s - s.logl + s.speed)
    (hb : s.toplogl < newScore c s) :
    mcmcIter c s =
      { world := if s.logl < newScore c s then scoredWorld c s
          else (c.logFrand (scoredWorld c s)).2
        toptree := c.copy (if s.logl < newScore c s then scoredWorld c s
          else (c.logFrand (scoredWorld c s)).2)
        toplogl := newScore c s
        logl := newScore c s
        nextlogl := some (newScore c s)
        speed := 0
        hashtrees := tablePut s.hashtrees (c.hashkey (c.propose s.world))
          (some (c.copy (scoredWorld c s)), newScore c s)
        calls := s.calls ++ ([Call.propose, Call.hashkey, Call.findLengths,
          Call.likelihood, Call.copy]
          ++ (if s.logl < newScore c s then [] else [Call.frand]) ++ [Call.copy]) } := by
  by_cases h1 : s.logl < newScore c s
  · simp only [newScore, scoredWorld] at h1 hb ⊢
    simp [mcmcIter, h1, hb]
  · have h2 := h.resolve_left h1
    simp only [newScore, scoredWorld, lnU] at h1 h2 hb ⊢
    simp [mcmcIter, h1, h2, hb]

theorem mcmcIter_accept_other {σ T K α : Type} [DecidableEq K] [Zero α] [Add α] [Sub α] [Div α] [OfNat α 2] [LT α]
    [DecidableRel (fun a b : α => a < b)]
    (c : Collab σ T K α) (s : SearchState σ T K α)
    (h : s.logl < newScore c s ∨ lnU c s < newScore c s - s.logl + s.speed)
    (hb : ¬ s.toplogl < newScore c s) :
    mcmcIter c s =
      { world := if s.logl < newScore c s then scoredWorld c s
          else (c.logFrand (scoredWorld c s)).2
        toptree := s.toptree
        toplogl := s.toplogl
        logl := newScore c s
        nextlogl := some (newScore c s)
        speed := s.speed / 2
        hashtrees := tablePut s.hashtrees (c.hashkey (c.propose s.world))
          (some (c.copy (scoredWorld c s)), newScore c s)
        calls := s.calls ++ ([Call.propose, Call.hashkey, Call.findLengths,
          Call.likelihood, Call.copy]
          ++ (if s.logl < newScore c s then [] else [Call.frand])) } := by
  by_cases h1 : s.logl < newScore c s
  · simp only [newScore, scoredWorld] at h1 hb ⊢
    simp [mcmcIter, h1, hb]
  · have h2 := h.resolve_left h1
    simp only [newScore, scoredWorld, lnU] at h1 h2 hb ⊢
    simp [mcmcIter, h1, h2, hb]

theorem mcmcIter_reject {σ T K α : Type} [DecidableEq K] [Zero α] [Add α] [Sub α] [Div α] [OfNat α 2] [LT α]
    [DecidableRel (fun a b : α => a < b)]
    (c : Collab σ T K α) (s : SearchState σ T K α)
    (h1 : ¬ s.logl < newScore c s)
    (h2 : ¬ lnU c s < newScore c s - s.logl + s.speed) :
    mcmcIter c s =
      { world := c.revert (c.logFrand (scoredWorld c s)).2
        toptree := s.toptree
        toplogl := s.toplogl
        logl := s.logl
        nextlogl := some (newScore c s)
        speed := s.speed
        hashtrees := tablePut s.hashtrees (c.hashkey (c.propose s.world))
          (some (c.copy (scoredWorld c s)), newScore c s)
        calls := s.calls ++ [Call.propose, Call.hashkey, Call.findLengths,
          Call.likelihood, Call.copy, Call.frand, Call.revert] } := by
  simp only [newScore, scoredWorld, lnU] at h1 h2 ⊢
  simp [mcmcIter, h1, h2]

/-! ## Runs of the search loop -/

/-- What one turn of the loop does to the scores and the best tree, for a state
in which the current score does not exceed the best score. -/
theorem mcmcStep_cases {σ T K α : Type} [DecidableEq K] [LinearOrderedField α]
    (c : Collab σ T K α) (s : SearchState σ T K α) (hinv : s.logl ≤ s.toplogl) :
    (s.toplogl < newScore c s ∧ (mcmcStep c s).toplogl = newScore c s ∧
      (mcmcStep c s).logl = newScore c s ∧
      (mcmcStep c s).toptree = c.copy (mcmcStep c s).world) ∨
    (newScore c s ≤ s.toplogl ∧ (mcmcStep c s).toplogl = s.toplogl ∧
      (mcmcStep c s).toptree = s.toptree ∧
      ((mcmcStep c s).logl = newScore c s ∨ (mcmcStep c s).logl = s.logl)) := by
  have hstep : mcmcStep c s = mcmcIter c { s with calls := s.calls ++ [Call.more] } := rfl
  by_cases hb : s.toplogl < newScore c s
  · left
    have h1 : s.logl < newScore c s := lt_of_le_of_lt hinv hb
    rw [hstep, mcmcIter_accept_best c { s with calls := s.calls ++ [Call.more] }
      (Or.inl h1) hb]
    exact ⟨hb, rfl, rfl, rfl⟩
  · right
    by_cases hacc : s.logl < newScore c s ∨ lnU c s < newScore c s - s.logl + s.speed
    · rw [hstep, mcmcIter_accept_other c { s with calls := s.calls ++ [Call.more] }
        hacc hb]
      exact ⟨not_lt.mp hb, rfl, rfl, Or.inl rfl⟩
    · rw [not_or] at hacc
      rw [hstep, mcmcIter_reject c { s with calls := s.calls ++ [Call.more] }
        hacc.1 hacc.2]
      exact ⟨not_lt.mp hb, rfl, rfl, Or.inr rfl⟩

/-- At every iteration boundary the current score is at most the best score. -/
theorem logl_le_toplogl {σ T K α : Type} [DecidableEq K] [LinearOrderedField α]
    (c : Collab σ T K α) (initNull : Bool) (w : σ) (k : Nat) :
    ((mcmcStep c)^[k] (searchInit c initNull w)).logl
      ≤ ((mcmcStep c)^[k] (searchInit c initNull w)).toplogl := by
  induction k with
  | zero => exact le_refl _
  | succ k ih =>
    rw [Function.iterate_succ_apply']
    rcases mcmcStep_cases c _ ih with ⟨_, h1, h2, _⟩ | ⟨h0, h1, _, h2 | h2⟩
    · rw [h1, h2]
    · rw [h1, h2]
      exact h0
    · rw [h1, h2]
      exact ih

/-- The loop, given enough fuel, stops at the first iteration boundary at which
`more` returns false. -/
theorem mcmcLoop_iterate {σ T K α : Type} [DecidableEq K] [Zero α] [Add α] [Sub α] [Div α] [OfNat α 2] [LT α]
    [DecidableRel (fun a b : α => a < b)]
    (c : Collab σ T K α) (n : Nat) :
    ∀ (fuel : Nat) (s : SearchState σ T K α), n ≤ fuel →
      (∀ k < n, c.more ((mcmcStep c)^[k] s).world = true) →
      c.more ((mcmcStep c)^[n] s).world = false →
      mcmcLoop c fuel s = some (mcmcExit ((mcmcStep c)^[n] s)) := by
  induction n with
  | zero =>
    intro fuel s _ _ hdone
    simp only [Function.iterate_zero, id_eq] at hdone
    cases fuel with
    | zero => simp [mcmcLoop, hdone]
    | succ f => simp [mcmcLoop, hdone]
  | succ n ih =>
    intro fuel s hfuel hmore hdone
    cases fuel with
    | zero => omega
    | succ f =>
      have h0 : c.more s.world = true := hmore 0 (by omega)
      simp only [mcmcLoop, h0, if_true]
      rw [Function.iterate_succ_apply] at hdone
      rw [Function.iterate_succ_apply]
      apply ih f (mcmcStep c s) (by omega) _ hdone
      intro k hk
      have := hmore (k + 1) (by omega)
      rwa [Function.iterate_succ_apply] at this

/-- The best score and the best tree after `m` iterations: the best score is the
largest of the initial score and the scores computed so far, and the best tree
is the copy made at the first iteration that reached it. -/
theorem best_invariant {σ T K α : Type} [DecidableEq K] [LinearOrderedField α]
    (c : Collab σ T K α) (initNull : Bool) (w : σ) (m : Nat) :
    (searchInit c initNull w).logl ≤ ((mcmcStep c)^[m] (searchInit c initNull w)).toplogl ∧
    (∀ k < m, newScore c ((mcmcStep c)^[k] (searchInit c initNull w))
      ≤ ((mcmcStep c)^[m] (searchInit c initNull w)).toplogl) ∧
    ((((mcmcStep c)^[m] (searchInit c initNull w)).toplogl = (searchInit c initNull w).logl ∧
      ((mcmcStep c)^[m] (searchInit c initNull w)).toptree
        = c.copy (searchInit c initNull w).world ∧
      ∀ k < m, newScore c ((mcmcStep c)^[k] (searchInit c initNull w))
        ≤ (searchInit c initNull w).logl) ∨
     ∃ k < m, newScore c ((mcmcStep c)^[k] (searchInit c initNull w))
        = ((mcmcStep c)^[m] (searchInit c initNull w)).toplogl ∧
      (searchInit c initNull w).logl
        < ((mcmcStep c)^[m] (searchInit c initNull w)).toplogl ∧
      (∀ j < k, newScore c ((mcmcStep c)^[j] (searchInit c initNull w))
        < ((mcmcStep c)^[m] (searchInit c initNull w)).toplogl) ∧
      ((mcmcStep c)^[m] (searchInit c initNull w)).toptree
        = c.copy ((mcmcStep c)^[k + 1] (searchInit c initNull w)).world) := by
  induction m with
  | zero =>
    refine ⟨le_refl _, fun k hk => absurd hk (Nat.not_lt_zero k), Or.inl ⟨rfl, rfl, ?_⟩⟩
    intro k hk
    exact absurd hk (Nat.not_lt_zero k)
  | succ m ih =>
    obtain ⟨i2, i3, i4⟩ := ih
    have hstep := mcmcStep_cases c _ (logl_le_toplogl c initNull w m)
    rw [Function.iterate_succ_apply']
    rcases hstep with ⟨hb, h1, _, h3⟩ | ⟨hb, h1, h3, _⟩
    · -- a new best tree
      rw [h1]
      refine ⟨le_of_lt (lt_of_le_of_lt i2 hb), ?_, Or.inr ⟨m, Nat.lt_succ_self m, rfl,
        lt_of_le_of_lt i2 hb, fun j hj => lt_of_le_of_lt (i3 j hj) hb, ?_⟩⟩
      · intro k hk
        rcases Nat.lt_succ_iff_lt_or_eq.mp hk with hlt | rfl
        · exact le_of_lt (lt_of_le_of_lt (i3 k hlt) hb)
        · exact le_refl _
      · rw [h3, Function.iterate_succ_apply']
    · -- the best tree is kept
      rw [h1, h3]
      refine ⟨i2, ?_, ?_⟩
      · intro k hk
        rcases Nat.lt_succ_iff_lt_or_eq.mp hk with hlt | rfl
        · exact i3 k hlt
        · exact hb
      · rcases i4 with ⟨e1, e2, e3⟩ | ⟨k, hk, e1, e2, e3, e4⟩
        · refine Or.inl ⟨e1, e2, ?_⟩
          intro k hk
          rcases Nat.lt_succ_iff_lt_or_eq.mp hk with hlt | rfl
          · exact e3 k hlt
          · rw [← e1]
            exact hb
        · exact Or.inr ⟨k, Nat.lt_succ_of_lt hk, e1, e2, e3, e4⟩

/-! ## The cache, the tolerance and the trace of calls -/

theorem tableGet_tablePut {T K α : Type} [DecidableEq K] [Zero α]
    (table : List (K × (Option T × α))) (key : K) (e : Option T × α) :
    tableGet (tablePut table key e) key = e := by
  simp [tableGet, tablePut, List.lookup]

/-- The acceptance rule never makes the tolerance differ from 0, halved or kept. -/
theorem mcmcStep_speed {σ T K α : Type} [DecidableEq K] [Zero α] [Add α] [Sub α] [Div α] [OfNat α 2] [LT α]
    [DecidableRel (fun a b : α => a < b)]
    (c : Collab σ T K α) (s : SearchState σ T K α) :
    (mcmcStep c s).speed = 0 ∨ (mcmcStep c s).speed = s.speed / 2 ∨
      (mcmcStep c s).speed = s.speed := by
  have hstep : mcmcStep c s = mcmcIter c { s with calls := s.calls ++ [Call.more] } := rfl
  by_cases hacc : s.logl < newScore c s ∨ lnU c s < newScore c s - s.logl + s.speed
  · by_cases hb : s.toplogl < newScore c s
    · rw [hstep, mcmcIter_accept_best c { s with calls := s.calls ++ [Call.more] } hacc hb]
      exact Or.inl rfl
    · rw [hstep, mcmcIter_accept_other c { s with calls := s.calls ++ [Call.more] } hacc hb]
      exact Or.inr (Or.inl rfl)
  · rw [not_or] at hacc
    rw [hstep, mcmcIter_reject c { s with calls := s.calls ++ [Call.more] } hacc.1 hacc.2]
    exact Or.inr (Or.inr rfl)

/-- The tolerance is 0 at every iteration boundary. -/
theorem speed_eq_zero {σ T K α : Type} [DecidableEq K] [LinearOrderedField α]
    (c : Collab σ T K α) (initNull : Bool) (w : σ) (k : Nat) :
    ((mcmcStep c)^[k] (searchInit c initNull w)).speed = 0 := by
  induction k with
  | zero => rfl
  | succ k ih =>
    rw [Function.iterate_succ_apply']
    rcases mcmcStep_speed c ((mcmcStep c)^[k] (searchInit c initNull w)) with h | h | h
    · exact h
    · rw [h, ih, zero_div]
    · rw [h, ih]

/-- One turn of the loop in which the proposal is accepted: the calls made and
the tree state left. -/
theorem mcmcStep_accepted {σ T K α : Type} [DecidableEq K] [Zero α] [Add α] [Sub α] [Div α] [OfNat α 2] [LT α]
    [DecidableRel (fun a b : α => a < b)]
    (c : Collab σ T K α) (s : SearchState σ T K α)
    (hacc : s.logl < newScore c s ∨ lnU c s < newScore c s - s.logl + s.speed) :
    (mcmcStep c s).logl = newScore c s ∧
    (mcmcStep c s).world = (if s.logl < newScore c s then scoredWorld c s
      else (c.logFrand (scoredWorld c s)).2) ∧
    (mcmcStep c s).calls.count Call.propose = s.calls.count Call.propose + 1 ∧
    (mcmcStep c s).calls.count Call.revert = s.calls.count Call.revert := by
  have hstep : mcmcStep c s = mcmcIter c { s with calls := s.calls ++ [Call.more] } := rfl
  by_cases hb : s.toplogl < newScore c s
  · rw [hstep, mcmcIter_accept_best c { s with calls := s.calls ++ [Call.more] } hacc hb]
    refine ⟨rfl, rfl, ?_, ?_⟩ <;>
    · simp only [List.count_append]
      split <;> simp
  · rw [hstep, mcmcIter_accept_other c { s with calls := s.calls ++ [Call.more] } hacc hb]
    refine ⟨rfl, rfl, ?_, ?_⟩ <;>
    · simp only [List.count_append]
      split <;> simp

/-- One turn of the loop in which the proposal is rejected. -/
theorem mcmcStep_rejected {σ T K α : Type} [DecidableEq K] [Zero α] [Add α] [Sub α] [Div α] [OfNat α 2] [LT α]
    [DecidableRel (fun a b : α => a < b)]
    (c : Collab σ T K α) (s : SearchState σ T K α)
    (h1 : ¬ s.logl < newScore c s)
    (h2 : ¬ lnU c s < newScore c s - s.logl + s.speed) :
    (mcmcStep c s).logl = s.logl ∧
    (mcmcStep c s).world = c.revert (c.logFrand (scoredWorld c s)).2 ∧
    (mcmcStep c s).calls.count Call.propose = s.calls.count Call.propose + 1 ∧
    (mcmcStep c s).calls.count Call.revert = s.calls.count Call.revert + 1 := by
  have hstep : mcmcStep c s = mcmcIter c { s with calls := s.calls ++ [Call.more] } := rfl
  rw [hstep, mcmcIter_reject c { s with calls := s.calls ++ [Call.more] } h1 h2]
  refine ⟨rfl, rfl, ?_, ?_⟩ <;> simp [List.count_append]


/-! ## Constant scores -/

/-- A run in which the fitter returns 0, the likelihood function the constant
`k0` and `log(frand())` is below 0, for any score arithmetic in which
`0 + k0 = k0`, `k0 - k0 + 0 = 0`, `k0` is not below itself and `0 / 2 = 0`:
at every iteration boundary the current and the best score are `k0`, the best
tree is the initial copy, the tolerance is 0, and every proposal so far was
accepted. -/
theorem constant_scores_iterates {σ T K α : Type} [DecidableEq K] [Zero α] [Add α] [Sub α]
    [Div α] [OfNat α 2] [LT α] [DecidableRel (fun a b : α => a < b)]
    (c : Collab σ T K α) (initNull : Bool) (w : σ) (k0 : α)
    (hadd : (0 : α) + k0 = k0) (hsub : k0 - k0 + 0 = 0) (hirr : ¬ k0 < k0)
    (hhalf : (0 : α) / 2 = 0)
    (hfit : ∀ v, (c.findLengths v).1 = 0) (hlik : ∀ v, (c.likelihood v).1 = k0)
    (hU : ∀ v, (c.logFrand v).1 < 0) (k : Nat) :
    ((mcmcStep c)^[k] (searchInit c initNull w)).logl = k0 ∧
    ((mcmcStep c)^[k] (searchInit c initNull w)).toplogl = k0 ∧
    ((mcmcStep c)^[k] (searchInit c initNull w)).toptree
      = c.copy (searchInit c initNull w).world ∧
    ((mcmcStep c)^[k] (searchInit c initNull w)).speed = 0 ∧
    ((mcmcStep c)^[k] (searchInit c initNull w)).calls.count Call.propose = k ∧
    ((mcmcStep c)^[k] (searchInit c initNull w)).calls.count Call.revert = 0 := by
  have hnew : ∀ s : SearchState σ T K α, newScore c s = k0 := by
    intro s
    simp only [newScore, hfit, hlik, hadd]
  have h0 : (searchInit c initNull w).logl = k0 := by
    simp only [searchInit, hfit, hlik, hadd]
  induction k with
  | zero =>
    refine ⟨h0, h0, rfl, rfl, ?_, ?_⟩
    · simp only [Function.iterate_zero, id_eq, searchInit]
      cases initNull <;> decide
    · simp only [Function.iterate_zero, id_eq, searchInit]
      cases initNull <;> decide
  | succ k ih =>
    obtain ⟨i1, i2, i3, i4, i5, i6⟩ := ih
    have hacc : ((mcmcStep c)^[k] (searchInit c initNull w)).logl
          < newScore c ((mcmcStep c)^[k] (searchInit c initNull w)) ∨
        lnU c ((mcmcStep c)^[k] (searchInit c initNull w))
          < newScore c ((mcmcStep c)^[k] (searchInit c initNull w))
            - ((mcmcStep c)^[k] (searchInit c initNull w)).logl
            + ((mcmcStep c)^[k] (searchInit c initNull w)).speed := by
      right
      rw [hnew, i1, i4, hsub]
      exact hU _
    have hb : ¬ ((mcmcStep c)^[k] (searchInit c initNull w)).toplogl
        < newScore c ((mcmcStep c)^[k] (searchInit c initNull w)) := by
      rw [hnew, i2]
      exact hirr
    rw [Function.iterate_succ_apply']
    obtain ⟨a1, _, a3, a4⟩ := mcmcStep_accepted c _ hacc
    have hstep : mcmcStep c ((mcmcStep c)^[k] (searchInit c initNull w))
        = mcmcIter c { ((mcmcStep c)^[k] (searchInit c initNull w)) with
            calls := ((mcmcStep c)^[k] (searchInit c initNull w)).calls ++ [Call.more] } :=
      rfl
    have hother := mcmcIter_accept_other c
      { ((mcmcStep c)^[k] (searchInit c initNull w)) with
        calls := ((mcmcStep c)^[k] (searchInit c initNull w)).calls ++ [Call.more] } hacc hb
    refine ⟨a1.trans (hnew _), ?_, ?_, ?_, a3.trans (by rw [i5]), a4.trans i6⟩
    · rw [hstep, hother]
      exact i2
    · rw [hstep, hother]
      exact i3
    · rw [hstep, hother]
      show ((mcmcStep c)^[k] (searchInit c initNull w)).speed / 2 = 0
      rw [i4, hhalf]

namespace CFloat

theorem zero_add_fin (q : ℚ) : (0 : CFloat) + fin q = fin q := by
  show add (fin 0) (fin q) = fin q
  simp [add]

theorem fin_sub_self (q : ℚ) : fin q - fin q + 0 = (0 : CFloat) := by
  show add (sub (fin q) (fin q)) (fin 0) = fin 0
  simp [add, sub, neg]

theorem fin_lt_irrefl (q : ℚ) : ¬ fin q < fin q := by
  show ¬ lt (fin q) (fin q) = true
  simp [lt]

theorem zero_half : (0 : CFloat) / 2 = 0 := by
  show div (fin 0) (fin 2) = fin 0
  simp [div]

end CFloat

/-- A turn of the loop begins with the call of `more` that let it in, followed
by the call of `propose`. -/
theorem mcmcStep_calls_start {σ T K α : Type} [DecidableEq K] [Zero α] [Add α] [Sub α]
    [Div α] [OfNat α 2] [LT α] [DecidableRel (fun a b : α => a < b)]
    (c : Collab σ T K α) (s : SearchState σ T K α) :
    ∃ rest, (mcmcStep c s).calls = s.calls ++ (Call.more :: Call.propose :: rest) := by
  have hstep : mcmcStep c s = mcmcIter c { s with calls := s.calls ++ [Call.more] } := rfl
  by_cases hacc : s.logl < newScore c s ∨ lnU c s < newScore c s - s.logl + s.speed
  · by_cases hb : s.toplogl < newScore c s
    · rw [hstep, mcmcIter_accept_best c { s with calls := s.calls ++ [Call.more] } hacc hb]
      refine ⟨[Call.hashkey, Call.findLengths, Call.likelihood, Call.copy]
        ++ (if s.logl < newScore c s then [] else [Call.frand]) ++ [Call.copy], ?_⟩
      simp only [List.append_assoc, List.cons_append, List.nil_append]
      rfl
    · rw [hstep, mcmcIter_accept_other c { s with calls := s.calls ++ [Call.more] } hacc hb]
      refine ⟨[Call.hashkey, Call.findLengths, Call.likelihood, Call.copy]
        ++ (if s.logl < newScore c s then [] else [Call.frand]), ?_⟩
      simp only [List.append_assoc, List.cons_append, List.nil_append]
      rfl
  · rw [not_or] at hacc
    rw [hstep, mcmcIter_reject c { s with calls := s.calls ++ [Call.more] } hacc.1 hacc.2]
    refine ⟨[Call.hashkey, Call.findLengths, Call.likelihood, Call.copy, Call.frand,
      Call.revert], ?_⟩
    simp only [List.append_assoc, List.cons_append, List.nil_append]
/-! ## What a returning call of `propose` went through -/

theorem bind_eq_ok {ε α β : Type} {x : Except ε α} {f : α → Except ε β} {b : β}
    (h : (x >>= f) = .ok b) : ∃ a, x = .ok a ∧ f a = .ok b := by
  cases x with
  | error e => exact Except.noConfusion h
  | ok a => exact ⟨a, rfl, h⟩

theorem frand_inv {g g1 : Rng} {u : ℚ} (h : frand g = .ok (u, g1)) :
    u ∈ g.reals ∧ (∀ v ∈ g1.reals, v ∈ g.reals) ∧ g1.ints = g.ints := by
  unfold frand at h
  cases hr : g.reals with
  | nil =>
    rw [hr] at h
    exact Except.noConfusion h
  | cons x xs =>
    rw [hr] at h
    have h' := Prod.mk.inj (Except.ok.inj h)
    rw [← h'.1, ← h'.2]
    exact ⟨List.mem_cons_self _ _, fun v hv => List.mem_cons_of_mem _ hv, rfl⟩

theorem irand_inv {m : Nat} {g g1 : Rng} {i : Nat} (h : irand m g = .ok (i, g1)) :
    g1.reals = g.reals := by
  unfold irand at h
  cases hr : g.ints with
  | nil =>
    rw [hr] at h
    exact Except.noConfusion h
  | cons x xs =>
    rw [hr] at h
    have h' := Prod.mk.inj (Except.ok.inj h)
    rw [← h'.2]

theorem proposeRandomNni_reals {t : Tree} {g g1 : Rng} {ch : NniChoice}
    (h : proposeRandomNni t g = .ok (ch, g1)) : g1.reals = g.reals := by
  unfold proposeRandomNni at h
  obtain ⟨⟨choice, ints⟩, _, h⟩ := bind_eq_ok h
  obtain ⟨p, _, h⟩ := bind_eq_ok h
  obtain ⟨node2, _, h⟩ := bind_eq_ok h
  obtain ⟨⟨i, g2⟩, hi, h⟩ := bind_eq_ok h
  obtain ⟨a, _, h⟩ := bind_eq_ok h
  obtain ⟨c0, _, h⟩ := bind_eq_ok h
  simp only at h
  split at h
  · obtain ⟨b, _, h⟩ := bind_eq_ok h
    have h' := Prod.mk.inj (Except.ok.inj h)
    rw [← h'.2]
    exact (irand_inv hi).trans rfl
  · obtain ⟨b, _, h⟩ := bind_eq_ok h
    have h' := Prod.mk.inj (Except.ok.inj h)
    rw [← h'.2]
    exact (irand_inv hi).trans rfl

/-- A returning second-interchange step keeps the counters and the species tree
of the proposer and draws only from the supply it was given. -/
theorem proposeSecond_inv {S : Type} {p p1 : NniProposer S} {t t1 : Tree} {g g1 : Rng}
    (h : NniProposer.proposeSecond p t g = .ok (p1, t1, g1)) :
    p1.iter = p.iter ∧ p1.niter = p.niter ∧ p1.stree = p.stree ∧
    p1.nodea = p.nodea ∧ p1.nodeb = p.nodeb ∧ (∀ v ∈ g1.reals, v ∈ g.reals) := by
  unfold NniProposer.proposeSecond at h
  obtain ⟨⟨u, g2⟩, hu, h⟩ := bind_eq_ok h
  obtain ⟨_, hsub, _⟩ := frand_inv hu
  simp only at h
  split at h
  · obtain ⟨⟨ch, g3⟩, hch, h⟩ := bind_eq_ok h
    obtain ⟨t2, _, h⟩ := bind_eq_ok h
    have h' := Prod.mk.inj (Except.ok.inj h)
    have h'' := Prod.mk.inj h'.2
    rw [← h'.1, ← h''.2]
    refine ⟨rfl, rfl, rfl, rfl, rfl, ?_⟩
    intro v hv
    rw [proposeRandomNni_reals hch] at hv
    exact hsub v hv
  · have h' := Prod.mk.inj (Except.ok.inj h)
    have h'' := Prod.mk.inj h'.2
    rw [← h'.1, ← h''.2]
    exact ⟨rfl, rfl, rfl, rfl, rfl, hsub⟩

/-- A returning last step of `propose`: the counters and the recorded
interchanges are kept; without species tree the tree is kept too, and the two
children of the root are recorded when the draw is below `rerootProb`. -/
theorem proposeReroot_inv {S : Type} {reconRoot : Tree → S → List Int → Except Fault Tree}
    {p p1 : NniProposer S} {t t1 : Tree} {g g1 : Rng}
    (h : NniProposer.proposeReroot reconRoot p t g = .ok (p1, t1, g1)) :
    p1.iter = p.iter ∧ p1.niter = p.niter ∧ p1.nodea = p.nodea ∧ p1.nodeb = p.nodeb ∧
    p1.nodec = p.nodec ∧ p1.noded = p.noded ∧
    (p.stree = none → t1 = t ∧
      ((∀ v ∈ g.reals, v < rerootProb) →
        ∃ r0 r1, t.childAt t.root 0 = .ok r0 ∧ t.childAt t.root 1 = .ok r1 ∧
          p1.oldroot1 = some r0 ∧ p1.oldroot2 = some r1)) := by
  unfold NniProposer.proposeReroot at h
  obtain ⟨⟨u, g2⟩, hu, h⟩ := bind_eq_ok h
  obtain ⟨hmem, _, _⟩ := frand_inv hu
  simp only at h
  split at h
  · obtain ⟨r0, hr0, h⟩ := bind_eq_ok h
    obtain ⟨r1, hr1, h⟩ := bind_eq_ok h
    cases hs : p.stree with
    | none =>
      rw [hs] at h
      simp only [pure_eq_ok, ok_bind] at h
      obtain ⟨_, _, h⟩ := bind_eq_ok h
      have e := Prod.mk.inj (Except.ok.inj h)
      have e' := Prod.mk.inj e.2
      rw [← e.1, ← e'.1]
      exact ⟨rfl, rfl, rfl, rfl, rfl, rfl,
        fun _ => ⟨rfl, fun _ => ⟨r0, r1, hr0, hr1, rfl, rfl⟩⟩⟩
    | some s =>
      rw [hs] at h
      simp only [pure_eq_ok, ok_bind] at h
      obtain ⟨t3, _, h⟩ := bind_eq_ok h
      obtain ⟨_, _, h⟩ := bind_eq_ok h
      have e := Prod.mk.inj (Except.ok.inj h)
      rw [← e.1]
      exact ⟨rfl, rfl, rfl, rfl, rfl, rfl, fun hn => Option.noConfusion hn⟩
  · rename_i hlt
    simp only [pure_eq_ok, ok_bind] at h
    obtain ⟨_, _, h⟩ := bind_eq_ok h
    have e := Prod.mk.inj (Except.ok.inj h)
    have e' := Prod.mk.inj e.2
    rw [← e.1, ← e'.1]
    exact ⟨rfl, rfl, rfl, rfl, rfl, rfl,
      fun _ => ⟨rfl, fun hall => absurd (hall u hmem) hlt⟩⟩

/-- The steps of a returning call of `propose`. -/
theorem propose_inv {S : Type} {reconRoot : Tree → S → List Int → Except Fault Tree}
    {p p1 : NniProposer S} {t t1 : Tree} {g g1 : Rng}
    (h : NniProposer.propose reconRoot p t g = .ok (p1, t1, g1)) :
    ∃ ch g2 t2 p3 t3 g3, proposeRandomNni t g = .ok (ch, g2) ∧
      proposeNni t ch.a ch.b = .ok t2 ∧
      NniProposer.proposeSecond
        { p with iter := p.iter + 1, nodea := some ch.a, nodeb := some ch.b,
                 nodec := none, noded := none } t2 g2 = .ok (p3, t3, g3) ∧
      NniProposer.proposeReroot reconRoot p3 t3 g3 = .ok (p1, t1, g1) := by
  unfold NniProposer.propose at h
  obtain ⟨⟨ch, g2⟩, hch, h⟩ := bind_eq_ok h
  obtain ⟨t2, ht2, h⟩ := bind_eq_ok h
  obtain ⟨⟨p3, t3, g3⟩, h3, h⟩ := bind_eq_ok h
  exact ⟨ch, g2, t2, p3, t3, g3, hch, ht2, h3, h⟩

/-- Every returning call of `propose` adds exactly one to `iter` and keeps
`niter`, whatever the tree and the draws. -/
theorem propose_iter {S : Type} {reconRoot : Tree → S → List Int → Except Fault Tree}
    {p p1 : NniProposer S} {t t1 : Tree} {g g1 : Rng}
    (h : NniProposer.propose reconRoot p t g = .ok (p1, t1, g1)) :
    p1.iter = p.iter + 1 ∧ p1.niter = p.niter := by
  obtain ⟨ch, g2, t2, p3, t3, g3, _, _, h3, h4⟩ := propose_inv h
  obtain ⟨a1, a2, _⟩ := proposeSecond_inv h3
  obtain ⟨b1, b2, _⟩ := proposeReroot_inv h4
  exact ⟨b1.trans a1, b2.trans a2⟩

/-! ## More on the proposer -/

/-- Without species tree the last step of `propose` never calls `reconRoot`. -/
theorem proposeReroot_noStree {S : Type}
    (r1 r2 : Tree → S → List Int → Except Fault Tree)
    (p : NniProposer S) (t : Tree) (g : Rng) (hs : p.stree = none) :
    NniProposer.proposeReroot r1 p t g = NniProposer.proposeReroot r2 p t g := by
  unfold NniProposer.proposeReroot
  simp only [hs]

theorem propose_noStree {S : Type}
    (r1 r2 : Tree → S → List Int → Except Fault Tree)
    (p : NniProposer S) (t : Tree) (g : Rng) (hs : p.stree = none) :
    NniProposer.propose r1 p t g = NniProposer.propose r2 p t g := by
  unfold NniProposer.propose
  cases h1 : proposeRandomNni t g with
  | error e => rfl
  | ok r1' =>
    simp only [ok_bind]
    cases h2 : proposeNni t r1'.1.a r1'.1.b with
    | error e => rfl
    | ok t2 =>
      simp only [ok_bind]
      cases h3 : NniProposer.proposeSecond
          { p with iter := p.iter + 1, nodea := some r1'.1.a, nodeb := some r1'.1.b,
                   nodec := none, noded := none } t2 r1'.2 with
      | error e => rfl
      | ok r3 =>
        obtain ⟨p3, t3, g3⟩ := r3
        simp only [ok_bind]
        have hst := (proposeSecond_inv h3).2.2.1
        exact proposeReroot_noStree r1 r2 p3 t3 g3 (hst.trans hs)

/-- On a tree in which every node is a leaf or has no parent, the sampling loop
of `proposeRandomNni` is still running when any supply of draws is used up. -/
theorem pickPivot_starved {t : Tree} (hv : t.Valid)
    (hnone : ∀ n < t.nnodes, t.kids n = [] ∨ t.par n = none) (ints : List Nat) :
    pickPivot t ints = .error Fault.draws := by
  induction ints with
  | nil => rfl
  | cons r rs ih =>
    have hpos : 0 < t.nnodes := Nat.lt_of_le_of_lt (Nat.zero_le _) hv.root_lt
    have hlt : r % t.nnodes < t.nnodes := Nat.mod_lt r hpos
    unfold pickPivot
    simp only [Tree.isLeaf_eq hlt, Tree.parentOf_eq hlt, ok_bind]
    rcases hnone _ hlt with h | h
    · simpa [h] using ih
    · by_cases hleaf : (t.kids (r % t.nnodes)).length = 0
      · simpa [hleaf] using ih
      · simpa [hleaf, h] using ih

theorem propose_starved {S : Type} (reconRoot : Tree → S → List Int → Except Fault Tree)
    {t : Tree} (hv : t.Valid) (hnone : ∀ n < t.nnodes, t.kids n = [] ∨ t.par n = none)
    (p : NniProposer S) (g : Rng) :
    NniProposer.propose reconRoot p t g = .error Fault.draws := by
  unfold NniProposer.propose proposeRandomNni
  rw [pickPivot_starved hv hnone]
  rfl


/-! ## The draws of a returning call of `propose` -/

theorem frand_cons {g g1 : Rng} {u : ℚ} (h : frand g = .ok (u, g1)) :
    g.reals = u :: g1.reals := by
  unfold frand at h
  cases hr : g.reals with
  | nil =>
    rw [hr] at h
    exact Except.noConfusion h
  | cons x xs =>
    rw [hr] at h
    have h' := Prod.mk.inj (Except.ok.inj h)
    rw [← h'.1, ← h'.2]

/-- A returning second-interchange step makes exactly one draw of `frand`. -/
theorem proposeSecond_draw {S : Type} {p p1 : NniProposer S} {t t1 : Tree} {g g1 : Rng}
    (h : NniProposer.proposeSecond p t g = .ok (p1, t1, g1)) :
    ∃ u0, g.reals = u0 :: g1.reals := by
  unfold NniProposer.proposeSecond at h
  obtain ⟨⟨u, g2⟩, hu, h⟩ := bind_eq_ok h
  have hc := frand_cons hu
  simp only at h
  split at h
  · obtain ⟨⟨ch, g3⟩, hch, h⟩ := bind_eq_ok h
    obtain ⟨t2, _, h⟩ := bind_eq_ok h
    have h' := Prod.mk.inj (Except.ok.inj h)
    have h'' := Prod.mk.inj h'.2
    refine ⟨u, ?_⟩
    rw [hc, ← h''.2]
    exact congrArg _ (proposeRandomNni_reals hch).symm
  · have h' := Prod.mk.inj (Except.ok.inj h)
    have h'' := Prod.mk.inj h'.2
    refine ⟨u, ?_⟩
    rw [hc, ← h''.2]

/-- A returning last step of `propose` without species tree makes exactly one
draw `u` of `frand` and keeps the tree; it records the two children of the root
when `u < rerootProb`, and clears the record otherwise. -/
theorem proposeReroot_draw {S : Type} {reconRoot : Tree → S → List Int → Except Fault Tree}
    {p p1 : NniProposer S} {t t1 : Tree} {g g1 : Rng}
    (h : NniProposer.proposeReroot reconRoot p t g = .ok (p1, t1, g1))
    (hs : p.stree = none) :
    ∃ u, g.reals = u :: g1.reals ∧ t1 = t ∧
      (u < rerootProb →
        ∃ r0 r1, t.childAt t.root 0 = .ok r0 ∧ t.childAt t.root 1 = .ok r1 ∧
          p1.oldroot1 = some r0 ∧ p1.oldroot2 = some r1) ∧
      (¬ u < rerootProb → p1.oldroot1 = none ∧ p1.oldroot2 = none) := by
  unfold NniProposer.proposeReroot at h
  obtain ⟨⟨u, g2⟩, hu, h⟩ := bind_eq_ok h
  have hc := frand_cons hu
  refine ⟨u, ?_⟩
  simp only at h
  split at h
  · rename_i hlt
    obtain ⟨r0, hr0, h⟩ := bind_eq_ok h
    obtain ⟨r1, hr1, h⟩ := bind_eq_ok h
    rw [hs] at h
    simp only [pure_eq_ok, ok_bind] at h
    obtain ⟨_, _, h⟩ := bind_eq_ok h
    have e := Prod.mk.inj (Except.ok.inj h)
    have e' := Prod.mk.inj e.2
    rw [← e.1, ← e'.1, ← e'.2]
    exact ⟨hc, rfl, fun _ => ⟨r0, r1, hr0, hr1, rfl, rfl⟩, fun hn => absurd hlt hn⟩
  · rename_i hlt
    simp only [pure_eq_ok, ok_bind] at h
    obtain ⟨_, _, h⟩ := bind_eq_ok h
    have e := Prod.mk.inj (Except.ok.inj h)
    have e' := Prod.mk.inj e.2
    rw [← e.1, ← e'.1, ← e'.2]
    exact ⟨hc, rfl, fun hl => absurd hl hlt, fun _ => ⟨rfl, rfl⟩⟩
/-! ## Leaf bipartitions under an exchange next to the root -/

namespace Tree

theorem ancestor_of_root {t : Tree} {r m : Nat} (hr : t.par r = none) :
    ∀ k, t.ancestor k r = some m → m = r := by
  intro k h
  cases k with
  | zero =>
    simp only [ancestor, Option.some.injEq] at h
    exact h.symm
  | succ k =>
    rw [ancestor_succ_none _ hr] at h
    exact Option.noConfusion h

theorem ancestor_of_top {t : Tree} {n r m : Nat} (hn : t.par n = some r)
    (hr : t.par r = none) : ∀ k, t.ancestor k n = some m → m = n ∨ m = r := by
  intro k h
  cases k with
  | zero =>
    simp only [ancestor, Option.some.injEq] at h
    exact Or.inl h.symm
  | succ k =>
    rw [ancestor_succ _ hn] at h
    exact Or.inr (ancestor_of_root hr k h)

/-- The last step of a path of parent pointers. -/
theorem ancestor_pred {t : Tree} {l r : Nat} (k : Nat)
    (h : t.ancestor (k + 1) l = some r) :
    ∃ x, t.ancestor k l = some x ∧ t.par x = some r := by
  rw [ancestor_add t k 1 l] at h
  cases hx : t.ancestor k l with
  | none =>
    rw [hx] at h
    exact Option.noConfusion h
  | some x =>
    rw [hx] at h
    simp only [Option.some_bind] at h
    cases hp : t.par x with
    | none =>
      rw [ancestor_succ_none _ hp] at h
      exact Option.noConfusion h
    | some p =>
      rw [ancestor_succ _ hp] at h
      simp only [ancestor, Option.some.injEq] at h
      exact ⟨x, rfl, by rw [← h]; exact hp⟩

theorem Valid.par_lt {t : Tree} (hv : t.Valid) :
    ∀ x p, t.par x = some p → p < t.nnodes :=
  fun _ _ h => lt_of_mem_kids (hv.mem_kids h)

/-- On a valid tree the bound on the number of steps in `below` is no
restriction. -/
theorem Valid.below_iff {t : Tree} (hv : t.Valid) {n l : Nat} (hl : l < t.nnodes) :
    t.below n l ↔ ∃ k, t.ancestor k l = some n :=
  ⟨fun ⟨k, _, h⟩ => ⟨k, h⟩, fun ⟨k, h⟩ => reach_bound hv.par_lt hl k h⟩

/-- Every node other than the root lies below exactly one of the two children of
the root. -/
theorem Valid.below_root_child {t : Tree} (hv : t.Valid) {r1 r2 l : Nat}
    (h1 : r1 ∈ t.kids t.root) (h2 : r2 ∈ t.kids t.root) (hne : r1 ≠ r2)
    (hl : l < t.nnodes) (hlr : l ≠ t.root) :
    t.below r1 l ↔ ¬ t.below r2 l := by
  have p1 := hv.par_of_mem h1
  have p2 := hv.par_of_mem h2
  rw [hv.below_iff hl, hv.below_iff hl]
  constructor
  · rintro ⟨i, hi⟩ ⟨j, hj⟩
    rcases Nat.le_total i j with hij | hij
    · have e := ancestor_add t i (j - i) l
      rw [show i + (j - i) = j by omega, hj, hi] at e
      simp only [Option.some_bind] at e
      rcases ancestor_of_top p1 hv.root_par _ e.symm with h | h
      · exact hne h.symm
      · rw [h] at p2
        rw [hv.root_par] at p2
        exact Option.noConfusion p2
    · have e := ancestor_add t j (i - j) l
      rw [show j + (i - j) = i by omega, hj, hi] at e
      simp only [Option.some_bind] at e
      rcases ancestor_of_top p2 hv.root_par _ e.symm with h | h
      · exact hne h
      · rw [h] at p1
        rw [hv.root_par] at p1
        exact Option.noConfusion p1
  · intro hnot
    obtain ⟨k, _, hk⟩ := hv.reach l hl
    cases k with
    | zero =>
      simp only [ancestor, Option.some.injEq] at hk
      exact absurd hk hlr
    | succ k =>
      obtain ⟨x, hx, hp⟩ := ancestor_pred k hk
      have hm := hv.mem_kids hp
      obtain ⟨u, v, huv⟩ := list_len_two (hv.len_two h1)
      rw [huv] at hm h1 h2
      simp only [List.mem_cons, List.mem_singleton, List.not_mem_nil, or_false] at hm h1 h2
      have hx12 : x = r1 ∨ x = r2 := by
        rcases hm with rfl | rfl <;> rcases h1 with rfl | rfl <;> rcases h2 with rfl | rfl
        all_goals first | exact Or.inl rfl | exact Or.inr rfl | exact absurd rfl hne
      rcases hx12 with rfl | rfl
      · exact ⟨k, hx⟩
      · exact absurd ⟨k, hx⟩ hnot

/-- Paths of parent pointers that end in a node other than `n1` and the root are
the same before and after the exchange of a child `a` of `n1` with the sibling
`b` of `n1`, when the parent of `n1` is the root. -/
theorem ancestor_exchange {t t1 : Tree} {a b n1 m : Nat}
    (ha : t.par a = some n1) (hb : t.par b = some t.root) (h1 : t.par n1 = some t.root)
    (hr : t.par t.root = none) (hbn : b ≠ n1) (han : a ≠ n1)
    (hpar : ∀ x, t1.par x = if x = b then some n1 else if x = a then some t.root
      else t.par x)
    (hm1 : m ≠ n1) (hmr : m ≠ t.root) :
    ∀ k l, t.ancestor k l = some m ↔ t1.ancestor k l = some m := by
  have hra : t.root ≠ a := by
    rintro e
    rw [← e, hr] at ha
    exact Option.noConfusion ha
  have hrb : t.root ≠ b := by
    rintro e
    rw [← e, hr] at hb
    exact Option.noConfusion hb
  have q1 : t1.par n1 = some t.root := by
    rw [hpar]
    simp [Ne.symm hbn, Ne.symm han, h1]
  have qr : t1.par t.root = none := by
    rw [hpar]
    simp [hra, hrb, hr]
  have qa : t1.par a = some t.root := by
    rw [hpar]
    by_cases hab : a = b
    · rw [hab, hb] at ha
      have e : t.root = n1 := Option.some.inj ha
      rw [← e, hr] at h1
      exact Option.noConfusion h1
    · simp [hab]
  have qb : t1.par b = some n1 := by
    rw [hpar]
    simp
  intro k
  induction k with
  | zero =>
    intro l
    simp [ancestor]
  | succ k ih =>
    intro l
    by_cases hla : l = a
    · subst hla
      rw [ancestor_succ _ ha, ancestor_succ _ qa]
      constructor
      · intro h
        rcases ancestor_of_top h1 hr _ h with e | e
        · exact absurd e hm1
        · exact absurd e hmr
      · intro h
        exact absurd (ancestor_of_root qr _ h) hmr
    · by_cases hlb : l = b
      · subst hlb
        rw [ancestor_succ _ hb, ancestor_succ _ qb]
        constructor
        · intro h
          exact absurd (ancestor_of_root hr _ h) hmr
        · intro h
          rcases ancestor_of_top q1 qr _ h with e | e
          · exact absurd e hm1
          · exact absurd e hmr
      · have hp : t1.par l = t.par l := by
          rw [hpar]
          simp [hla, hlb]
        cases hx : t.par l with
        | none =>
          rw [ancestor_succ_none _ hx, ancestor_succ_none _ (hp.trans hx)]
        | some p =>
          rw [ancestor_succ _ hx, ancestor_succ _ (hp.trans hx)]
          exact ih p

end Tree

/-- The exchange of a child `a` of `node1` with the sibling `b` of `node1`, when
`node1` is a child of the root, keeps the unrooted topology: the call returns a
valid tree with the same nodes, root and leaves, in which `a` hangs from the
root and `b` from `node1`, and whose non-root subtrees induce the same set of
leaf bipartitions. -/
theorem root_exchange_unrooted {t : Tree} {a b n1 : Nat} (hv : t.Valid)
    (h1 : t.par n1 = some t.root) (hm1 : a ∈ t.kids n1) (hm2 : b ∈ t.kids t.root)
    (hbn : b ≠ n1) :
    ∃ t1, proposeNni t a b = .ok t1 ∧ t1.Valid ∧ t1.root = t.root ∧
      t1.par a = some t.root ∧ t1.par b = some n1 ∧ t.sameUnrooted t1 := by
  have ha := hv.par_of_mem hm1
  have hb := hv.par_of_mem hm2
  have hn : n1 ≠ t.root := by
    intro e
    rw [e] at h1
    exact hv.par_ne_self _ h1
  have han : a ≠ n1 := by
    intro e
    rw [e] at ha
    exact hv.par_ne_self _ ha
  have har : a ≠ t.root := by
    intro e
    rw [e, hv.root_par] at ha
    exact Option.noConfusion ha
  have hbr : b ≠ t.root := by
    intro e
    rw [e, hv.root_par] at hb
    exact Option.noConfusion hb
  have hab : a ≠ b := by
    intro e
    rw [e, hb] at ha
    exact hn (Option.some.inj ha).symm
  obtain ⟨t1, e1, hnn, hrt, hpar, hkids⟩ :=
    proposeNni_step ha hb (Or.inl h1) (hv.len_two hm1) (hv.len_two hm2)
      (hv.nodup_kids n1) (hv.nodup_kids t.root) hm1 hm2 hn
  have hv1 : t1.Valid := valid_exchange hv h1 hm1 hm2 hbn hnn hrt hpar hkids
  have qa : t1.par a = some t.root := by
    rw [hpar]
    simp [hab]
  have qb : t1.par b = some n1 := by
    rw [hpar]
    simp
  have q1 : t1.par n1 = some t.root := by
    rw [hpar]
    simp [Ne.symm hbn, Ne.symm han, h1]
  have hn1 : n1 < t.nnodes := Tree.lt_of_par h1
  have ha' : a < t.nnodes := Tree.lt_of_par ha
  have hb' : b < t.nnodes := Tree.lt_of_par hb
  -- the leaves are the same
  have hleaf : ∀ l, t1.kids l = [] ↔ t.kids l = [] := by
    intro l
    rw [hkids]
    by_cases c1 : l = n1
    · subst c1
      simp
    · by_cases c2 : l = t.root
      · rw [c2]
        simp [Ne.symm hn]
      · simp [c1, c2]
  -- subtrees of the nodes other than `n1` and the root keep their leaves
  have hsame : ∀ m, m ≠ n1 → m ≠ t.root → ∀ l < t.nnodes,
      (t.below m l ↔ t1.below m l) := by
    intro m c1 c2 l hl
    rw [hv.below_iff hl, hv1.below_iff (by rw [hnn]; exact hl)]
    constructor
    · rintro ⟨k, hk⟩
      exact ⟨k, (Tree.ancestor_exchange ha hb h1 hv.root_par hbn han hpar c1 c2 k l).mp hk⟩
    · rintro ⟨k, hk⟩
      exact ⟨k, (Tree.ancestor_exchange ha hb h1 hv.root_par hbn han hpar c1 c2 k l).mpr hk⟩
  have hrootleaf : ∀ l, t.kids l = [] → l ≠ t.root := by
    intro l h0 e
    rw [e] at h0
    rw [h0] at hm2
    exact List.not_mem_nil _ hm2
  refine ⟨t1, e1, hv1, hrt, qa, qb, hnn, fun l _ => hleaf l, ?_, ?_⟩
  · intro n hlt hnr
    by_cases c1 : n = n1
    · subst c1
      refine ⟨b, by rw [hnn]; exact hb', by rw [hrt]; exact hbr, Or.inr ?_⟩
      intro l hl h0
      rw [← hsame b hbn hbr l hl]
      exact hv.below_root_child (hv.mem_kids h1) hm2 (Ne.symm hbn) hl (hrootleaf l h0)
    · refine ⟨n, by rw [hnn]; exact hlt, by rw [hrt]; exact hnr, Or.inl ?_⟩
      intro l hl _
      exact hsame n c1 hnr l hl
  · intro m hlt hmr
    rw [hnn] at hlt
    rw [hrt] at hmr
    by_cases c1 : m = n1
    · subst c1
      refine ⟨a, ha', har, Or.inr ?_⟩
      intro l hl h0
      rw [hsame a han har l hl]
      have hq1 : m ∈ t1.kids t1.root := by
        rw [hrt]
        exact hv1.mem_kids q1
      have hqa : a ∈ t1.kids t1.root := by
        rw [hrt]
        exact hv1.mem_kids qa
      exact hv1.below_root_child hqa hq1 han (by rw [hnn]; exact hl)
        (by rw [hrt]; exact hrootleaf l h0)
    · refine ⟨m, hlt, hmr, Or.inl ?_⟩
      intro l hl _
      exact hsame m c1 hmr l hl

/-! ## Claims about the interchange and the proposer -/

/-- C1.  For every valid binary tree, every proposer state with no species tree
configured and every supply of random draws (also those for which the second
NNI is performed), with `Tree::reroot` at a child of the root leaving the tree
as it is: a run of `propose` can stop early only because the draws ran out, and
whenever `propose` returns, the following `revert` returns the tree that was
passed to `propose`, with the same root and the same parent and ordered children
at every node. -/
theorem propose_revert_restores {S : Type}
    (reconRoot : Tree → S → List Int → Except Fault Tree)
    (reroot : Tree → Nat → Except Fault Tree)
    (hreroot : ∀ (t : Tree) (n : Nat), n ∈ t.kids t.root → reroot t n = .ok t)
    (p : NniProposer S) (t : Tree) (g : Rng) (hv : t.Valid) (hs : p.stree = none) :
    (∀ e, NniProposer.propose reconRoot p t g = .error e → e = Fault.draws) ∧
    ∀ p' t' g', NniProposer.propose reconRoot p t g = .ok (p', t', g') →
      NniProposer.revert reroot p' t' = .ok t := by
  have h := propose_safe reconRoot hv hs g
  refine ⟨fun e he => h.of_error he, ?_⟩
  intro p' t' g' hok
  obtain ⟨hv', _, _, _, _, _, hold, t1, a, b, hna, hnb, hfirst, hsec⟩ := h.of_ok hok
  exact revert_eq reroot hreroot hv' hold hsec hna hnb hfirst

/-- Witness for C1: on the caterpillar, with draws that select the pivot `n1`
and then, for the second NNI, the pivot `n2`. -/
theorem propose_revert_restores_witness :
    caterpillar4.Valid ∧
    NniProposer.propose (fun t (_ : Unit) _ => .ok t) (NniProposer.new none [] 10)
      caterpillar4 drawsTwoNni = .ok (proposerAfter, caterpillar4Proposed, ⟨[], []⟩) ∧
    NniProposer.revert (fun t _ => .ok t) proposerAfter caterpillar4Proposed
      = .ok caterpillar4 :=
  ⟨by decide, by with_unfolding_all decide,
    (propose_revert_restores (fun t (_ : Unit) _ => .ok t) (fun t _ => .ok t)
      (fun _ _ _ => rfl) (NniProposer.new none [] 10) caterpillar4 drawsTwoNni
      (by decide) rfl).2 proposerAfter caterpillar4Proposed ⟨[], []⟩
      (by with_unfolding_all decide)⟩

/-- C2 (as amended).  In a valid binary tree, let `a` and `b` be nodes whose
parents `n1` and `n2` are joined by a tree edge, with neither `a` nor `b` itself
an end of that edge.  Then the two-node `proposeNni(tree, a, b)` returns, and a
second call with the same `a` and `b` returns the original tree: every node has
the parent and the children it had before the first call. -/
theorem proposeNni_twice_restores (t : Tree) (a b n1 n2 : Nat) (hv : t.Valid)
    (ha : t.par a = some n1) (hb : t.par b = some n2)
    (hadj : t.par n1 = some n2 ∨ t.par n2 = some n1)
    (han2 : a ≠ n2) (hbn1 : b ≠ n1) :
    ∃ t1, proposeNni t a b = .ok t1 ∧ proposeNni t1 a b = .ok t :=
  nni_twice_aux hv ha hb hadj han2 hbn1

/-- Witness for C2 (as amended): on the caterpillar, `a = L3` (child of `n2`) and
`b = L2` (child of `n1`, the parent of `n2`). -/
theorem proposeNni_twice_restores_witness :
    caterpillar4.Valid ∧ caterpillar4.par 2 = some 4 ∧ caterpillar4.par 1 = some 5 ∧
    caterpillar4.par 4 = some 5 ∧
    proposeNni caterpillar4 2 1 = .ok caterpillar4Nni ∧
    proposeNni caterpillar4Nni 2 1 = .ok caterpillar4 := by
  obtain ⟨t1, e1, e2⟩ := proposeNni_twice_restores caterpillar4 2 1 4 5
    (by decide) (by decide) (by decide) (by decide) (by decide) (by decide)
  have h : proposeNni caterpillar4 2 1 = .ok caterpillar4Nni := by decide
  have e : t1 = caterpillar4Nni := Except.ok.inj (e1.symm.trans h)
  rw [e] at e2
  exact ⟨by decide, by decide, by decide, by decide, h, e2⟩

/-- C2 as stated fails when `b` is the parent of `a`: on `cherry3` with `a = L2`
and `b = n1`, the parents of `a` and `b` are `n1` and the root, which are joined
by an edge; the first call returns a structure in which `n1` is its own parent
and its own child, and the second call stops at the adjacency assertion. -/
theorem proposeNni_twice_counterexample :
    cherry3.Valid ∧ cherry3.par 1 = some 3 ∧ cherry3.par 3 = some 4 ∧
    proposeNni cherry3 1 3 = .ok
      { nodes := [⟨some 4, []⟩, ⟨some 4, []⟩, ⟨some 3, []⟩, ⟨some 3, [3, 2]⟩,
          ⟨none, [0, 1]⟩]
        root := 4 } ∧
    (proposeNni cherry3 1 3 >>= fun t1 => proposeNni t1 1 3) = .error Fault.assertion :=
  ⟨by decide, by decide, by decide, by rfl, by rfl⟩

/-- C3.  For every valid binary tree, every proposer state with no species tree
configured and every supply of random draws: a run of `propose` can stop early
only because the draws ran out (no assertion fails), and whenever it returns,
the tree is again a valid binary tree with the same nodes, the same root, the
same number of children at every node (so the same leaves); the root is the
only node without a parent, every other node occurs exactly once in its
parent's children, and no children array has a duplicate. -/
theorem propose_keeps_valid {S : Type}
    (reconRoot : Tree → S → List Int → Except Fault Tree)
    (p : NniProposer S) (t : Tree) (g : Rng) (hv : t.Valid) (hs : p.stree = none) :
    (∀ e, NniProposer.propose reconRoot p t g = .error e → e = Fault.draws) ∧
    ∀ p' t' g', NniProposer.propose reconRoot p t g = .ok (p', t', g') →
      t'.Valid ∧ t'.nnodes = t.nnodes ∧ t'.root = t.root ∧
      (∀ n, (t'.kids n).length = (t.kids n).length) ∧
      (∀ n < t'.nnodes, t'.par n = none ↔ n = t'.root) ∧
      (∀ n < t'.nnodes, ∀ q, t'.par n = some q → (t'.kids q).count n = 1) ∧
      (∀ n, (t'.kids n).Nodup) := by
  have h := propose_safe reconRoot hv hs g
  refine ⟨fun e he => h.of_error he, ?_⟩
  intro p' t' g' hok
  obtain ⟨hv', hnn, hrt, hlen, _⟩ := h.of_ok hok
  refine ⟨hv', hnn, hrt, hlen, ?_, ?_, fun n => hv'.nodup_kids n⟩
  · intro n hn
    constructor
    · exact hv'.only_root n hn
    · rintro rfl
      exact hv'.root_par
  · intro n hn q hq
    exact hv'.par_kids n hn q hq

/-- Witness for C3: one proposal with two interchanges on the caterpillar. -/
theorem propose_keeps_valid_witness :
    caterpillar4.Valid ∧
    NniProposer.propose (fun t (_ : Unit) _ => .ok t) (NniProposer.new none [] 10)
      caterpillar4 drawsTwoNni = .ok (proposerAfter, caterpillar4Proposed, ⟨[], []⟩) ∧
    caterpillar4Proposed.Valid :=
  ⟨by decide, by with_unfolding_all decide,
    ((propose_keeps_valid (fun t (_ : Unit) _ => .ok t) (NniProposer.new none [] 10)
      caterpillar4 drawsTwoNni (by decide) rfl).2
      proposerAfter caterpillar4Proposed ⟨[], []⟩ (by with_unfolding_all decide)).1⟩

/-! ## Claims about the single-edge form -/

/-- C4.  In a valid binary tree let `node1` be a child of `node2`, the edge not
being a root edge of a rooted tree, let `c` be a child of `node1` and `uncle`
the other child of `node2`.  The single-edge `proposeNni(tree, node1, node2, c)`
returns (with the two ends in either order, and with the same result); in the
new tree `c` has parent `node2` and sits in the slot of `node2`'s children that
held `uncle`, `uncle` has parent `node1` and sits in the slot of `node1`'s
children that held `c`, and nothing else changes: the parents of all other
nodes, the children of all other nodes, the number of nodes, the root and the
number of children of every node (hence the set of leaves). -/
theorem proposeNniEdge_exchanges (t : Tree) (node1 node2 c uncle : Nat) (hv : t.Valid)
    (hp : t.par node1 = some node2)
    (hedge : ¬ (t.isRooted = .ok true ∧ node2 = t.root))
    (hc : c ∈ t.kids node1) (hu : uncle ∈ t.kids node2) (hun : uncle ≠ node1) :
    ∃ t1, proposeNniEdge t node1 node2 c = .ok t1 ∧
      proposeNniEdge t node2 node1 c = .ok t1 ∧
      t1.nnodes = t.nnodes ∧ t1.root = t.root ∧
      t1.par c = some node2 ∧ t1.par uncle = some node1 ∧
      (∃ i j, (t.kids node2)[i]? = some uncle ∧ (t.kids node1)[j]? = some c ∧
        t1.kids node2 = (t.kids node2).set i c ∧
        t1.kids node1 = (t.kids node1).set j uncle) ∧
      (∀ m, m ≠ c → m ≠ uncle → t1.par m = t.par m) ∧
      (∀ m, m ≠ node1 → m ≠ node2 → t1.kids m = t.kids m) ∧
      (∀ m, (t1.kids m).length = (t.kids m).length) := by
  have hnr : node2 ≠ t.root := by
    intro e
    apply hedge
    refine ⟨?_, e⟩
    rw [Tree.isRooted_eq hv.root_lt, ← e, hv.len_two hu]
    rfl
  have hn : node1 ≠ node2 := by
    rintro rfl
    exact hv.par_ne_self _ hp
  have hn' : node2 ≠ node1 := Ne.symm hn
  have hcu : c ≠ uncle := by
    rintro rfl
    have h1 := hv.par_of_mem hc
    rw [hv.par_of_mem hu] at h1
    exact hn (Option.some.inj h1).symm
  obtain ⟨t1, e1, e2, hnn, hrt, hpar, hkids⟩ := proposeNniEdge_inner hv hp hnr hc hu hun
  obtain ⟨i, hi⟩ := List.mem_iff_getElem?.mp hu
  obtain ⟨j, hj⟩ := List.mem_iff_getElem?.mp hc
  refine ⟨t1, e1, e2, hnn, hrt, ?_, ?_, ⟨i, j, hi, hj, ?_, ?_⟩, ?_, ?_, ?_⟩
  · rw [hpar]
    simp [hcu]
  · rw [hpar]
    simp
  · rw [hkids, set_eq_map_subst (hv.len_two hu) (hv.nodup_kids node2) hi]
    simp [hn']
  · rw [hkids, set_eq_map_subst (hv.len_two hc) (hv.nodup_kids node1) hj]
    simp
  · intro m h1 h2
    rw [hpar]
    simp [h1, h2]
  · intro m h1 h2
    rw [hkids]
    simp [h1, h2]
  · intro m
    rw [hkids]
    by_cases h1 : m = node1
    · simp [h1]
    · by_cases h2 : m = node2
      · simp [h2, hn']
      · simp [h1, h2]

/-- Witness for C4: on the 4-leaf caterpillar the call on the edge `n2 - n1`
with `c = L3` exchanges `L3` and `L2`. -/
theorem proposeNniEdge_exchanges_witness :
    caterpillar4.Valid ∧ caterpillar4.par 4 = some 5 ∧
    proposeNniEdge caterpillar4 4 5 2 = .ok caterpillar4Nni ∧
    proposeNniEdge caterpillar4 5 4 2 = .ok caterpillar4Nni ∧
    caterpillar4Nni.par 2 = some 5 ∧ caterpillar4Nni.par 1 = some 4 ∧
    caterpillar4.kids 5 = [1, 4] ∧ caterpillar4Nni.kids 5 = [2, 4] ∧
    caterpillar4.kids 4 = [2, 3] ∧ caterpillar4Nni.kids 4 = [1, 3] := by
  obtain ⟨t1, e1, e2, _, _, h1, h2, _⟩ :=
    proposeNniEdge_exchanges caterpillar4 4 5 2 1 (by decide) (by decide) (by decide)
      (by decide) (by decide) (by decide)
  have h : proposeNniEdge caterpillar4 4 5 2 = .ok caterpillar4Nni := by decide
  have e : t1 = caterpillar4Nni := Except.ok.inj (e1.symm.trans h)
  rw [e] at e2 h1 h2
  exact ⟨by decide, by decide, h, e2, h1, h2, by decide, by decide, by decide, by decide⟩

/-- C5 (as amended).  In a valid rooted binary tree let `node1` be a child of
the root, `s` the other child of the root, `s` internal, and `c` a child of
`node1`.  The single-edge `proposeNni(tree, node1, root, c)` is redirected to
the edge between the two root children.  If some child of `s` is internal, it
performs the interchange with the first child `U` of `s`: afterwards `c` has
parent `s` and sits in slot 0 of `s`, `U` has parent `node1` and sits in the
slot that held `c`, and nothing else changes.  If both children of `s` are
leaves, the call returns the tree unchanged. -/
theorem proposeNniEdge_root_edge (t : Tree) (node1 s c : Nat) (hv : t.Valid)
    (h1 : t.par node1 = some t.root) (hs : s ∈ t.kids t.root) (hsn : s ≠ node1)
    (hsi : t.kids s ≠ []) (hc : c ∈ t.kids node1) :
    ((∃ k ∈ t.kids s, t.kids k ≠ []) →
      ∃ t1 U, (t.kids s)[0]? = some U ∧ proposeNniEdge t node1 t.root c = .ok t1 ∧
        t1.par c = some s ∧ t1.par U = some node1 ∧
        t1.kids s = (t.kids s).set 0 c ∧
        (∃ j, (t.kids node1)[j]? = some c ∧ t1.kids node1 = (t.kids node1).set j U) ∧
        (∀ m, m ≠ c → m ≠ U → t1.par m = t.par m) ∧
        (∀ m, m ≠ node1 → m ≠ s → t1.kids m = t.kids m) ∧
        t1.nnodes = t.nnodes ∧ t1.root = t.root) ∧
    ((∀ k ∈ t.kids s, t.kids k = []) → proposeNniEdge t node1 t.root c = .ok t) := by
  have hn1 : node1 < t.nnodes := Tree.lt_of_par h1
  have hm := hv.mem_kids h1
  have hps := hv.par_of_mem hs
  have hs' : s < t.nnodes := Tree.lt_of_par hps
  have hpc := hv.par_of_mem hc
  have hlr := hv.len_two hs
  have hls : (t.kids s).length = 2 := by
    rcases hv.binary s hs' with h0 | h2
    · exact absurd (List.length_eq_zero.mp h0) hsi
    · exact h2
  obtain ⟨x, y, hks⟩ := list_len_two hls
  have hx : x ∈ t.kids s := by simp [hks]
  have hy : y ∈ t.kids s := by simp [hks]
  have hx' : x < t.nnodes := Tree.lt_of_par (hv.par_of_mem hx)
  have hy' : y < t.nnodes := Tree.lt_of_par (hv.par_of_mem hy)
  have cs0 : t.childAt s 0 = .ok x := Tree.childAt_eq (by simp [hks])
  have cs1 : t.childAt s 1 = .ok y := Tree.childAt_eq (by simp [hks])
  have hedge : proposeNniEdge t node1 t.root c = nniUncle t node1 s c := by
    rw [proposeNniEdge_redirect hv h1 hs hsn, hls]
    rfl
  have hn : node1 ≠ s := Ne.symm hsn
  constructor
  · rintro ⟨k, hk, hki⟩
    have hxc : x < t.nnodes := hx'
    obtain ⟨t1, e1, hnn, hrt, hpar, hkids⟩ :=
      nniExchange_step (hv.len_two hc) hls (hv.nodup_kids node1) (hv.nodup_kids s) hc
        (show (t.kids s)[0]? = some x by simp [hks]) hn (Tree.lt_of_par hpc) hx'
    have hcx : c ≠ x := by
      rintro rfl
      rw [hv.par_of_mem hx] at hpc
      exact hn (Option.some.inj hpc).symm
    have huncle : nniUncle t node1 s c = .ok t1 := by
      unfold nniUncle
      simp only [Tree.parentOf_eq hn1, Tree.parentOf_eq hs', ok_bind, h1, hps, if_true,
        pure_eq_ok, decide_True, cs0, cs1, Tree.nchildren_eq hx', Tree.nchildren_eq hy']
      by_cases hkx : (t.kids x).length < 2
      · have hky : ¬ (t.kids y).length < 2 := by
          intro hlt
          have hk' : k = x ∨ k = y := by simpa [hks] using hk
          have hx0 : t.kids x = [] := by
            rcases hv.binary x hx' with h0 | h2
            · exact List.length_eq_zero.mp h0
            · omega
          have hy0 : t.kids y = [] := by
            rcases hv.binary y hy' with h0 | h2
            · exact List.length_eq_zero.mp h0
            · omega
          rcases hk' with rfl | rfl
          · exact hki hx0
          · exact hki hy0
        simp only [hkx, hky, if_true, if_false]
        exact e1
      · simp only [hkx, if_false]
        exact e1
    obtain ⟨j, hj⟩ := List.mem_iff_getElem?.mp hc
    refine ⟨t1, x, by simp [hks], hedge.trans huncle, ?_, ?_, ?_, ⟨j, hj, ?_⟩, ?_, ?_,
      hnn, hrt⟩
    · rw [hpar]
      simp [hcx]
    · rw [hpar]
      simp
    · rw [hkids, set_eq_map_subst hls (hv.nodup_kids s)
        (show (t.kids s)[0]? = some x by simp [hks])]
      simp [hsn]
    · rw [hkids, set_eq_map_subst (hv.len_two hc) (hv.nodup_kids node1) hj]
      simp
    · intro m hm1 hm2
      rw [hpar]
      simp [hm1, hm2]
    · intro m hm1 hm2
      rw [hkids]
      simp [hm1, hm2]
  · intro hall
    rw [hedge]
    unfold nniUncle
    simp [Tree.parentOf_eq hn1, Tree.parentOf_eq hs', h1, hps, cs0, cs1,
      Tree.nchildren_eq hx', Tree.nchildren_eq hy', hall x hx, hall y hy]

/-- Witness for C5 (as amended): on `forked5` the call on the root edge of `n1`
with `c = L1` exchanges `L1` with `n3`, the first child of `s`. -/
theorem proposeNniEdge_root_edge_witness :
    forked5.Valid ∧ forked5.kids forked5.root = [6, 7] ∧ forked5.kids 7 = [5, 4] ∧
    forked5.kids 5 = [2, 3] ∧
    proposeNniEdge forked5 6 8 0 = .ok forked5Nni ∧
    forked5Nni.par 0 = some 7 ∧ forked5Nni.par 5 = some 6 := by
  obtain ⟨t1, U, h0, h1, h2, h3, _⟩ :=
    (proposeNniEdge_root_edge forked5 6 7 0 (by decide) (by decide) (by decide)
      (by decide) (by decide) (by decide)).1 ⟨5, by decide, by decide⟩
  have h : proposeNniEdge forked5 6 8 0 = .ok forked5Nni := by decide
  have e : t1 = forked5Nni := Except.ok.inj (h1.symm.trans h)
  have eU : U = 5 := by
    have : (forked5.kids 7)[0]? = some 5 := by decide
    rw [this] at h0
    exact (Option.some.inj h0).symm
  rw [e] at h2 h3
  rw [eU] at h3
  exact ⟨by decide, by decide, by decide, by decide, h, h2, h3⟩

/-- C5 as stated fails on the balanced 4-leaf tree: both children of the root
are internal, yet the call on the root edge of `n1` with `c = L1` returns the
tree unchanged, so `c` still has parent `n1` and not the other root child `s`. -/
theorem proposeNniEdge_root_edge_counterexample :
    balanced4.Valid ∧ balanced4.kids balanced4.root = [4, 5] ∧
    balanced4.kids 4 = [0, 1] ∧ balanced4.kids 5 = [2, 3] ∧
    proposeNniEdge balanced4 4 6 0 = .ok balanced4 ∧ balanced4.par 0 = some 4 :=
  ⟨by decide, by decide, by decide, by decide, by decide, by decide⟩

/-- C6.  In a valid rooted binary tree let `node1` be a child of the root whose
sibling `s` (the other child of the root) is a leaf, and `c` a child of `node1`.
The single-edge `proposeNni(tree, node1, root, c)` returns the tree unchanged:
no parent and no children array is modified. -/
theorem proposeNniEdge_leaf_sibling (t : Tree) (node1 s c : Nat) (hv : t.Valid)
    (h1 : t.par node1 = some t.root) (hs : s ∈ t.kids t.root) (hsn : s ≠ node1)
    (hleaf : t.kids s = []) (_hc : c ∈ t.kids node1) :
    proposeNniEdge t node1 t.root c = .ok t := by
  rw [proposeNniEdge_redirect hv h1 hs hsn, hleaf]
  rfl

/-- Witness for C6: on the caterpillar the root edge of `n1`, whose sibling `L1`
is a leaf. -/
theorem proposeNniEdge_leaf_sibling_witness :
    caterpillar4.Valid ∧ proposeNniEdge caterpillar4 5 6 1 = .ok caterpillar4 :=
  ⟨by decide,
    proposeNniEdge_leaf_sibling caterpillar4 5 0 1 (by decide) (by decide) (by decide)
      (by decide) (by decide) (by decide)⟩

/-! ## Claims about the MCMC driver -/

/-- C7.  In an iteration of `searchMCMC` started in state `s`, with `newScore`
the score computed for the proposal and `lnU` the value of `log(frand())`: if
`newScore > logl`, or `newScore - logl + speed > lnU`, the proposal is accepted.
`revert` is not called (the tree state is the one that was scored, advanced only
by the draw when one was made), `logl` becomes `newScore`, and exactly when
`newScore > toplogl` the best tree becomes a copy of the live tree, `toplogl`
becomes `newScore` and `speed` is set to 0; otherwise the best tree and
`toplogl` are kept and `speed` is halved. -/
theorem mcmcIter_accept {σ T K α : Type} [DecidableEq K] [LinearOrderedField α]
    (c : Collab σ T K α) (s : SearchState σ T K α)
    (h : newScore c s > s.logl ∨ newScore c s - s.logl + s.speed > lnU c s) :
    (mcmcIter c s).logl = newScore c s ∧
    (mcmcIter c s).nextlogl = some (newScore c s) ∧
    (mcmcIter c s).world
      = (if newScore c s > s.logl then scoredWorld c s
         else (c.logFrand (scoredWorld c s)).2) ∧
    (∃ cs, (mcmcIter c s).calls = s.calls ++ cs ∧ Call.revert ∉ cs) ∧
    (newScore c s > s.toplogl →
      (mcmcIter c s).toptree = c.copy (mcmcIter c s).world ∧
      (mcmcIter c s).toplogl = newScore c s ∧ (mcmcIter c s).speed = 0) ∧
    (¬ newScore c s > s.toplogl →
      (mcmcIter c s).toptree = s.toptree ∧ (mcmcIter c s).toplogl = s.toplogl ∧
      (mcmcIter c s).speed = s.speed / 2) := by
  by_cases hb : s.toplogl < newScore c s
  · rw [mcmcIter_accept_best c s h hb]
    refine ⟨rfl, rfl, rfl, ⟨_, rfl, ?_⟩, fun _ => ⟨rfl, rfl, rfl⟩, fun hn => absurd hb hn⟩
    split <;> simp
  · rw [mcmcIter_accept_other c s h hb]
    refine ⟨rfl, rfl, rfl, ⟨_, rfl, ?_⟩, fun hn => absurd hn hb, fun _ => ⟨rfl, rfl, rfl⟩⟩
    split <;> simp

/-- Witness for C7: the first iteration of the toy search improves on the
initial score `-5` with the score `-3`. -/
theorem mcmcIter_accept_witness :
    (newScore toyCollab toyInit > toyInit.logl ∨
      newScore toyCollab toyInit - toyInit.logl + toyInit.speed > lnU toyCollab toyInit) ∧
    (mcmcIter toyCollab toyInit).logl = newScore toyCollab toyInit ∧
    newScore toyCollab toyInit = -3 :=
  ⟨by with_unfolding_all decide,
    (mcmcIter_accept toyCollab toyInit (by with_unfolding_all decide)).1,
    by with_unfolding_all decide⟩

/-- C8.  In an iteration of `searchMCMC` started in state `s` in which the
acceptance condition is false (`newScore <= logl` and
`newScore - logl + speed <= lnU`), `revert` is called exactly once, on the tree
state left by scoring and the draw, and `logl`, `toplogl`, the best tree and
`speed` keep their values. -/
theorem mcmcIter_reject_frame {σ T K α : Type} [DecidableEq K] [LinearOrderedField α]
    (c : Collab σ T K α) (s : SearchState σ T K α)
    (h1 : newScore c s ≤ s.logl) (h2 : newScore c s - s.logl + s.speed ≤ lnU c s) :
    (mcmcIter c s).world = c.revert (c.logFrand (scoredWorld c s)).2 ∧
    (∃ cs, (mcmcIter c s).calls = s.calls ++ cs ∧ cs.count Call.revert = 1) ∧
    (mcmcIter c s).logl = s.logl ∧ (mcmcIter c s).toplogl = s.toplogl ∧
    (mcmcIter c s).toptree = s.toptree ∧ (mcmcIter c s).speed = s.speed := by
  rw [mcmcIter_reject c s (not_lt.mpr h1) (not_lt.mpr h2)]
  exact ⟨rfl, ⟨_, rfl, by decide⟩, rfl, rfl, rfl, rfl⟩

/-- Witness for C8: the second iteration of the toy search proposes a tree of
score `-9` against the current `-3` with `log(frand()) = -1` and is rejected. -/
theorem mcmcIter_reject_frame_witness :
    newScore toyCollab (mcmcStep toyCollab toyInit) = -9 ∧
    (mcmcStep toyCollab toyInit).logl = -3 ∧
    (mcmcIter toyCollab (mcmcStep toyCollab toyInit)).world
      = toyCollab.revert
          (toyCollab.logFrand (scoredWorld toyCollab (mcmcStep toyCollab toyInit))).2 ∧
    (mcmcIter toyCollab (mcmcStep toyCollab toyInit)).logl = -3 :=
  ⟨by with_unfolding_all decide, by with_unfolding_all decide,
    (mcmcIter_reject_frame toyCollab (mcmcStep toyCollab toyInit)
      (by with_unfolding_all decide) (by with_unfolding_all decide)).1,
    by with_unfolding_all decide⟩

/-- C9.  For every run of `searchMCMC` (any collaborators, any initial tree,
scores exact numbers): the states at the iteration boundaries are the iterates
of the loop turn on the state left by the initialisation, and at every one of
them the best score `toplogl` is at least the current score `logl` and is not
decreased by the next turn. -/
theorem toplogl_monotone {σ T K α : Type} [DecidableEq K] [LinearOrderedField α]
    (c : Collab σ T K α) (initNull : Bool) (w : σ) (k : Nat) :
    ((mcmcStep c)^[k] (searchInit c initNull w)).logl
      ≤ ((mcmcStep c)^[k] (searchInit c initNull w)).toplogl ∧
    ((mcmcStep c)^[k] (searchInit c initNull w)).toplogl
      ≤ ((mcmcStep c)^[k + 1] (searchInit c initNull w)).toplogl := by
  have hinv := logl_le_toplogl c initNull w k
  refine ⟨hinv, ?_⟩
  rw [Function.iterate_succ_apply']
  rcases mcmcStep_cases c _ hinv with ⟨hb, h1, _, _⟩ | ⟨_, h1, _, _⟩
  · rw [h1]
    exact le_of_lt hb
  · rw [h1]

/-- C10.  Let a run of `searchMCMC` make `n` iterations (`more` is true at the
first `n` iteration boundaries and false at the next one).  With enough fuel the
model returns; the final best score `toplogl` is the maximum of the initial
score and of the scores computed for the `n` proposals, accepted or rejected;
the returned tree is the copy of the initial tree if no proposal scored above
the initial score, and otherwise the copy of the live tree made in the first
iteration whose proposal reached that maximum. -/
theorem searchMCMC_returns_best {σ T K α : Type} [DecidableEq K] [LinearOrderedField α]
    (c : Collab σ T K α) (initNull : Bool) (w : σ) (n fuel : Nat) (hfuel : n ≤ fuel)
    (hmore : ∀ k < n, c.more ((mcmcStep c)^[k] (searchInit c initNull w)).world = true)
    (hdone : c.more ((mcmcStep c)^[n] (searchInit c initNull w)).world = false) :
    ∃ sf, searchRun c fuel initNull w = some sf ∧
      searchMCMC c fuel initNull w = some sf.toptree ∧
      (searchInit c initNull w).logl ≤ sf.toplogl ∧
      (∀ k < n, newScore c ((mcmcStep c)^[k] (searchInit c initNull w)) ≤ sf.toplogl) ∧
      (sf.toplogl = (searchInit c initNull w).logl ∨
        ∃ k < n, newScore c ((mcmcStep c)^[k] (searchInit c initNull w)) = sf.toplogl) ∧
      ((∀ k < n, newScore c ((mcmcStep c)^[k] (searchInit c initNull w))
          ≤ (searchInit c initNull w).logl) →
        sf.toptree = c.copy (searchInit c initNull w).world) ∧
      (∀ k < n, newScore c ((mcmcStep c)^[k] (searchInit c initNull w)) = sf.toplogl →
        (searchInit c initNull w).logl < sf.toplogl →
        (∀ j < k, newScore c ((mcmcStep c)^[j] (searchInit c initNull w)) < sf.toplogl) →
        sf.toptree = c.copy ((mcmcStep c)^[k + 1] (searchInit c initNull w)).world) := by
  have hrun : searchRun c fuel initNull w
      = some (mcmcExit ((mcmcStep c)^[n] (searchInit c initNull w))) :=
    mcmcLoop_iterate c n fuel _ hfuel hmore hdone
  obtain ⟨i2, i3, i4⟩ := best_invariant c initNull w n
  refine ⟨_, hrun, by simp [searchMCMC, hrun], i2, i3, ?_, ?_, ?_⟩
  · rcases i4 with ⟨e1, _, _⟩ | ⟨k, hk, e1, _⟩
    · exact Or.inl e1
    · exact Or.inr ⟨k, hk, e1⟩
  · intro hall
    rcases i4 with ⟨_, e2, _⟩ | ⟨k, hk, e1, e2, _⟩
    · exact e2
    · exact absurd (e1 ▸ hall k hk) (not_le.mpr e2)
  · intro k hk hmax hgt hfirst
    rcases i4 with ⟨e1, _, _⟩ | ⟨k', hk', e1, _, e3, e4⟩
    · exact absurd e1 (ne_of_gt hgt)
    · have hkk : k = k' := by
        rcases Nat.lt_trichotomy k k' with h | h | h
        · exact absurd hmax (ne_of_lt (e3 k h))
        · exact h
        · exact absurd e1 (ne_of_lt (hfirst k' h))
      rw [hkk]
      exact e4

/-- Witness for C10: the toy search makes five iterations with the scores
`-3, -9, -1, -1, -2` after the initial `-5`; it ends with best score `-1` and
returns tree 3, the copy made in the third iteration. -/
theorem searchMCMC_returns_best_witness :
    searchMCMC toyCollab 7 false toyStart = some 3 ∧
    (searchRun toyCollab 7 false toyStart).map (fun s => s.toplogl) = some (-1) ∧
    newScore toyCollab ((mcmcStep toyCollab)^[2] toyInit) = -1 ∧
    toyCollab.copy ((mcmcStep toyCollab)^[3] toyInit).world = 3 := by
  obtain ⟨sf, h1, h2, _, _, _, _, h7⟩ := searchMCMC_returns_best toyCollab false toyStart 5 7
    (by decide) (by with_unfolding_all decide) (by with_unfolding_all decide)
  have e : searchRun toyCollab 7 false toyStart
      = some (mcmcExit ((mcmcStep toyCollab)^[5] toyInit)) := by
    with_unfolding_all rfl
  have e' : sf = mcmcExit ((mcmcStep toyCollab)^[5] toyInit) :=
    Option.some.inj (h1.symm.trans e)
  have htop : sf.toplogl = -1 := by
    rw [e']
    with_unfolding_all decide
  have htree := h7 2 (by decide) (by rw [htop]; with_unfolding_all decide)
    (by rw [htop]; with_unfolding_all decide)
    (by rw [htop]; with_unfolding_all decide)
  have hcopy : toyCollab.copy ((mcmcStep toyCollab)^[3] toyInit).world = 3 := by
    with_unfolding_all decide
  refine ⟨?_, ?_, by with_unfolding_all decide, hcopy⟩
  · rw [h2, htree]
    exact congrArg some hcopy
  · rw [h1]
    exact congrArg some htop

/-- C11.  Let an initial tree be supplied and let `more()` be false when the loop
is first reached (a proposer with budget 0).  Then `searchMCMC` returns (for
any fuel), it calls neither `propose` nor `revert`, the live tree has only been
passed to `parsimony`, `findLengths` and `likelihood`, and the tree returned is
the copy of it; if these three calls keep the topology `topo` of the live tree
and a copy has the topology of its original, the topology of the live tree is
unchanged and the returned tree has the topology of the initial tree. -/
theorem searchMCMC_zero_budget {σ T K α X : Type} [DecidableEq K] [LinearOrderedField α]
    (c : Collab σ T K α) (w : σ) (fuel : Nat) (topo : σ → X) (topoT : T → X)
    (hpars : ∀ v, topo (c.parsimony v) = topo v)
    (hfit : ∀ v, topo (c.findLengths v).2 = topo v)
    (hlik : ∀ v, topo (c.likelihood v).2 = topo v)
    (hcopy : ∀ v, topoT (c.copy v) = topo v)
    (hmore : c.more (searchInit c false w).world = false) :
    ∃ sf, searchRun c fuel false w = some sf ∧
      searchMCMC c fuel false w = some sf.toptree ∧
      Call.propose ∉ sf.calls ∧ Call.revert ∉ sf.calls ∧
      sf.world = (c.likelihood (c.findLengths (c.parsimony w)).2).2 ∧
      sf.toptree = c.copy sf.world ∧
      topo sf.world = topo w ∧ topoT sf.toptree = topo w := by
  have hrun : searchRun c fuel false w = some (mcmcExit (searchInit c false w)) :=
    mcmcLoop_iterate c 0 fuel _ (Nat.zero_le _) (fun k hk => absurd hk (Nat.not_lt_zero k))
      hmore
  have htopo : topo (c.likelihood (c.findLengths (c.parsimony w)).2).2 = topo w := by
    rw [hlik, hfit, hpars]
  refine ⟨_, hrun, by simp [searchMCMC, hrun], ?_, ?_, rfl, rfl, htopo, ?_⟩
  · simp [mcmcExit, searchInit]
  · simp [mcmcExit, searchInit]
  · exact (hcopy _).trans htopo

/-- Witness for C11: the toy search with budget 0 returns tree 0, the initial
tree, after the calls `parsimony, findLengths, likelihood, copy, more`. -/
theorem searchMCMC_zero_budget_witness :
    toyCollab.more (searchInit toyCollab false toyDone).world = false ∧
    searchMCMC toyCollab 0 false toyDone = some 0 ∧
    (searchRun toyCollab 0 false toyDone).map (fun s => s.calls)
      = some [Call.parsimony, Call.findLengths, Call.likelihood, Call.copy, Call.more] := by
  obtain ⟨sf, h1, h2, _, _, _, _, _, h8⟩ :=
    searchMCMC_zero_budget toyCollab toyDone 0 (fun v => v.tree) (fun t => t)
      (fun _ => rfl) (fun _ => rfl) (fun _ => rfl) (fun _ => rfl)
      (by with_unfolding_all decide)
  refine ⟨by with_unfolding_all decide, ?_, by with_unfolding_all decide⟩
  rw [h2]
  exact congrArg some h8

/-- C12 (as amended).  Let the scores be values of the C type `float`, let the
fitter always return 0, the likelihood function always the same finite constant
`q`, and every draw lie in `(0, 1)`, so that `log(frand()) < 0`.  For a run of
`n` iterations (any `n`, any starting tree) and enough fuel, `searchMCMC`
returns; every proposal was accepted (`n` calls of `propose`, none of
`revert`), the current and the best score at the end are the initial score `q`,
and the tree returned is the copy of the initial tree.  (The only arithmetic the
run performs is `0 + q`, `q - q + 0` and `0 / 2`, which `float` computes
exactly.) -/
theorem searchMCMC_constant_scores {σ T K : Type} [DecidableEq K]
    (c : Collab σ T K CFloat) (initNull : Bool) (w : σ) (q : ℚ) (n fuel : Nat)
    (hfuel : n ≤ fuel)
    (hfit : ∀ v, (c.findLengths v).1 = 0)
    (hlik : ∀ v, (c.likelihood v).1 = CFloat.fin q)
    (hU : ∀ v, (c.logFrand v).1 < 0)
    (hmore : ∀ k < n, c.more ((mcmcStep c)^[k] (searchInit c initNull w)).world = true)
    (hdone : c.more ((mcmcStep c)^[n] (searchInit c initNull w)).world = false) :
    ∃ sf, searchRun c fuel initNull w = some sf ∧
      searchMCMC c fuel initNull w = some (c.copy (searchInit c initNull w).world) ∧
      sf.calls.count Call.propose = n ∧ Call.revert ∉ sf.calls ∧
      (searchInit c initNull w).logl = CFloat.fin q ∧ sf.logl = CFloat.fin q ∧
      sf.toplogl = CFloat.fin q := by
  have hrun : searchRun c fuel initNull w
      = some (mcmcExit ((mcmcStep c)^[n] (searchInit c initNull w))) :=
    mcmcLoop_iterate c n fuel _ hfuel hmore hdone
  have hinv := constant_scores_iterates c initNull w (CFloat.fin q)
    (CFloat.zero_add_fin q) (CFloat.fin_sub_self q) (CFloat.fin_lt_irrefl q)
    CFloat.zero_half hfit hlik hU
  obtain ⟨h0, _, _, _, _, _⟩ := hinv 0
  obtain ⟨i1, i2, i3, _, i5, i6⟩ := hinv n
  refine ⟨_, hrun, by simp [searchMCMC, hrun, mcmcExit, i3], ?_, ?_, h0, i1, i2⟩
  · simp only [mcmcExit, List.count_append, i5]
    rfl
  · rw [← List.count_eq_zero]
    simp only [mcmcExit, List.count_append, i6]
    rfl

/-- Witness for C12 (as amended): five iterations of the flat toy search with
the constant `-4`; it returns tree 0, the initial tree. -/
theorem searchMCMC_constant_scores_witness :
    searchMCMC (flatCollab (CFloat.fin (-4))) 5 false toyStart = some 0 ∧
    (searchRun (flatCollab (CFloat.fin (-4))) 5 false toyStart).map
        (fun s => (s.calls.count Call.propose, s.calls.count Call.revert)) = some (5, 0) ∧
    (searchRun (flatCollab (CFloat.fin (-4))) 5 false toyStart).map (fun s => s.toplogl)
      = some (CFloat.fin (-4)) := by
  obtain ⟨sf, h1, h2, h3, h4, _, _, h7⟩ :=
    searchMCMC_constant_scores (flatCollab (CFloat.fin (-4))) false toyStart (-4) 5 5
      (le_refl _) (fun _ => rfl) (fun _ => rfl)
      (fun _ => by
        show CFloat.lt (CFloat.fin (-1)) (CFloat.fin 0) = true
        with_unfolding_all decide)
      (by with_unfolding_all decide) (by with_unfolding_all decide)
  refine ⟨h2, ?_, ?_⟩
  · rw [h1]
    have h5 : sf.calls.count Call.revert = 0 := List.count_eq_zero.mpr h4
    simp only [Option.map_some', h3, h5]
  · rw [h1]
    exact congrArg some h7

/-- C12 as stated fails when the constant is not finite.  With scores of type
`float`, the fitter returning 0, `log(frand()) = -1` and the likelihood function
constantly `-inf` (or constantly NaN), the test `nextlogl > logl` is false and
`nextlogl - logl + speed` is NaN, which is not above `log(frand())`: each of the
five proposals of the toy search is rejected and `revert` is called five
times. -/
theorem constant_scores_counterexample :
    (searchRun (flatCollab CFloat.ninf) 5 false toyStart).map
        (fun s => (s.calls.count Call.propose, s.calls.count Call.revert)) = some (5, 5) ∧
    CFloat.ninf - CFloat.ninf + 0 = CFloat.nan ∧
    (searchRun (flatCollab CFloat.nan) 5 false toyStart).map
        (fun s => (s.calls.count Call.propose, s.calls.count Call.revert)) = some (5, 5) :=
  ⟨by with_unfolding_all decide, by with_unfolding_all decide,
    by with_unfolding_all decide⟩

/-- C13 (as amended).  In every iteration of `searchMCMC`, whether or not the key
of the proposed tree is already in the cache, the fitter and the likelihood
function are called, the new score is the sum of what they return, and the
cache entry of the key is overwritten with a copy of the live tree and the new
score. -/
theorem mcmcIter_always_rescores {σ T K α : Type} [DecidableEq K] [LinearOrderedField α]
    (c : Collab σ T K α) (s : SearchState σ T K α) :
    (mcmcIter c s).nextlogl = some (newScore c s) ∧
    (∃ cs, (mcmcIter c s).calls = s.calls ++ cs ∧ Call.findLengths ∈ cs ∧
      Call.likelihood ∈ cs) ∧
    tableGet (mcmcIter c s).hashtrees (c.hashkey (c.propose s.world))
      = (some (c.copy (scoredWorld c s)), newScore c s) := by
  by_cases hacc : s.logl < newScore c s ∨ lnU c s < newScore c s - s.logl + s.speed
  · by_cases hb : s.toplogl < newScore c s
    · rw [mcmcIter_accept_best c s hacc hb]
      exact ⟨rfl, ⟨_, rfl, by simp, by simp⟩, tableGet_tablePut _ _ _⟩
    · rw [mcmcIter_accept_other c s hacc hb]
      exact ⟨rfl, ⟨_, rfl, by simp, by simp⟩, tableGet_tablePut _ _ _⟩
  · rw [not_or] at hacc
    rw [mcmcIter_reject c s hacc.1 hacc.2]
    exact ⟨rfl, ⟨_, rfl, by simp, by simp⟩, tableGet_tablePut _ _ _⟩

/-- C13 as stated fails in the second iteration of the drifting toy search: the
key `0` of the proposed tree is in the cache with the score `-2` stored by the
first iteration, yet the fitter and the likelihood function are called again,
the new score is `-3`, and the stored entry is replaced. -/
theorem cache_hit_counterexample :
    tableGet driftFirst.hashtrees (driftCollab.hashkey (driftCollab.propose driftFirst.world))
      = (some 0, -2) ∧
    (mcmcIter driftCollab driftFirst).nextlogl = some (-3) ∧
    (mcmcIter driftCollab driftFirst).calls = driftFirst.calls ++
      [Call.propose, Call.hashkey, Call.findLengths, Call.likelihood, Call.copy,
        Call.frand, Call.revert] ∧
    tableGet (mcmcIter driftCollab driftFirst).hashtrees
      (driftCollab.hashkey (driftCollab.propose driftFirst.world)) = (some 0, -3) :=
  ⟨by with_unfolding_all decide, by with_unfolding_all decide,
    by with_unfolding_all decide, by with_unfolding_all decide⟩

/-- C19.  At the start of every iteration of `searchMCMC` (at every iterate of
the loop turn on the state left by the initialisation) the tolerance `speed` is
0, so the acceptance test is equivalent to
`newScore > logl ∨ newScore - logl > log(frand())`: when that holds the proposal
is accepted (`logl` becomes `newScore`, no `revert`), and when it fails the
proposal is rejected (`revert` is called once more). -/
theorem speed_always_zero {σ T K α : Type} [DecidableEq K] [LinearOrderedField α]
    (c : Collab σ T K α) (initNull : Bool) (w : σ) (k : Nat) :
    ((mcmcStep c)^[k] (searchInit c initNull w)).speed = 0 ∧
    ((newScore c ((mcmcStep c)^[k] (searchInit c initNull w))
          > ((mcmcStep c)^[k] (searchInit c initNull w)).logl ∨
        newScore c ((mcmcStep c)^[k] (searchInit c initNull w))
          - ((mcmcStep c)^[k] (searchInit c initNull w)).logl
          + ((mcmcStep c)^[k] (searchInit c initNull w)).speed
          > lnU c ((mcmcStep c)^[k] (searchInit c initNull w))) ↔
      (newScore c ((mcmcStep c)^[k] (searchInit c initNull w))
          > ((mcmcStep c)^[k] (searchInit c initNull w)).logl ∨
        newScore c ((mcmcStep c)^[k] (searchInit c initNull w))
          - ((mcmcStep c)^[k] (searchInit c initNull w)).logl
          > lnU c ((mcmcStep c)^[k] (searchInit c initNull w)))) ∧
    ((newScore c ((mcmcStep c)^[k] (searchInit c initNull w))
          > ((mcmcStep c)^[k] (searchInit c initNull w)).logl ∨
        newScore c ((mcmcStep c)^[k] (searchInit c initNull w))
          - ((mcmcStep c)^[k] (searchInit c initNull w)).logl
          > lnU c ((mcmcStep c)^[k] (searchInit c initNull w))) →
      ((mcmcStep c)^[k + 1] (searchInit c initNull w)).logl
        = newScore c ((mcmcStep c)^[k] (searchInit c initNull w)) ∧
      ((mcmcStep c)^[k + 1] (searchInit c initNull w)).calls.count Call.revert
        = ((mcmcStep c)^[k] (searchInit c initNull w)).calls.count Call.revert) ∧
    (¬ (newScore c ((mcmcStep c)^[k] (searchInit c initNull w))
          > ((mcmcStep c)^[k] (searchInit c initNull w)).logl ∨
        newScore c ((mcmcStep c)^[k] (searchInit c initNull w))
          - ((mcmcStep c)^[k] (searchInit c initNull w)).logl
          > lnU c ((mcmcStep c)^[k] (searchInit c initNull w))) →
      ((mcmcStep c)^[k + 1] (searchInit c initNull w)).logl
        = ((mcmcStep c)^[k] (searchInit c initNull w)).logl ∧
      ((mcmcStep c)^[k + 1] (searchInit c initNull w)).calls.count Call.revert
        = ((mcmcStep c)^[k] (searchInit c initNull w)).calls.count Call.revert + 1) := by
  have hsp := speed_eq_zero c initNull w k
  rw [Function.iterate_succ_apply']
  generalize (mcmcStep c)^[k] (searchInit c initNull w) = s at hsp ⊢
  refine ⟨hsp, by rw [hsp, add_zero], ?_, ?_⟩
  · intro h
    have hacc : s.logl < newScore c s ∨ lnU c s < newScore c s - s.logl + s.speed := by
      rw [hsp, add_zero]
      exact h
    obtain ⟨a1, _, _, a4⟩ := mcmcStep_accepted c s hacc
    exact ⟨a1, a4⟩
  · intro h
    rw [not_or] at h
    have h2 : ¬ lnU c s < newScore c s - s.logl + s.speed := by
      rw [hsp, add_zero]
      exact h.2
    obtain ⟨a1, _, _, a4⟩ := mcmcStep_rejected c s h.1 h2
    exact ⟨a1, a4⟩

/-- C14 (the code at the failing input).  The counting of the claim holds:
`more()` is true exactly when `iter < niter`, and every returning call of
`propose` adds one to `iter` and keeps `niter`; so a fresh proposer with budget
1 answers true before the first iteration.  Whenever `more()` is true the loop of
`searchMCMC` runs its body once more, and the first call of the body is
`propose` on the tree as it is.  But on the valid tree with a root and two leaf
children that call is still inside the sampling loop of `proposeRandomNni` when
any supply of draws is used up: it never returns, whatever the re-rooting, so
the first iteration is never completed and `searchMCMC` does not return. -/
theorem searchMCMC_budget_starved :
    twoLeaves.Valid ∧
    (∀ p : NniProposer Unit, p.more = true ↔ p.iter < p.niter) ∧
    (∀ (reconRoot : Tree → Unit → List Int → Except Fault Tree) (p p1 : NniProposer Unit)
      (t t1 : Tree) (g g1 : Rng), NniProposer.propose reconRoot p t g = .ok (p1, t1, g1) →
        p1.iter = p.iter + 1 ∧ p1.niter = p.niter) ∧
    (NniProposer.new (none : Option Unit) [] 1).more = true ∧
    (∀ (σ T K : Type) [DecidableEq K] (c : Collab σ T K CFloat)
      (s : SearchState σ T K CFloat) (fuel : Nat), c.more s.world = true →
        mcmcLoop c (fuel + 1) s = mcmcLoop c fuel (mcmcStep c s) ∧
        ∃ rest, (mcmcStep c s).calls = s.calls ++ (Call.more :: Call.propose :: rest)) ∧
    ∀ (reconRoot : Tree → Unit → List Int → Except Fault Tree) (g : Rng),
      NniProposer.propose reconRoot (NniProposer.new none [] 1) twoLeaves g
        = .error Fault.draws := by
  refine ⟨by decide, fun p => by simp [NniProposer.more],
    fun _ _ _ _ _ _ _ h => propose_iter h, by decide, ?_,
    fun reconRoot g => propose_starved reconRoot (by decide) (by decide) _ g⟩
  intro σ T K _ c s fuel hmore
  exact ⟨by simp [mcmcLoop, hmore], mcmcStep_calls_start c s⟩

/-- C15 (as amended).  Let the proposer hold the recorded root children `r1`
(`oldroot1`) and `r2` (`oldroot2`), in a valid tree in which one of them is now
the parent of the other.  Then `revert` first calls `Tree::reroot`, and only
then undoes the recorded interchanges; the argument of the call is the one of
`r1`, `r2` whose parent is the other (the lower end of the branch `r1 - r2`):
`r1` when `r1->parent == r2`, and `r2` when `r2->parent == r1`. -/
theorem revert_reroot_argument {S : Type} (reroot : Tree → Nat → Except Fault Tree)
    (p : NniProposer S) (t : Tree) (r1 r2 : Nat) (hv : t.Valid)
    (h1 : p.oldroot1 = some r1) (h2 : p.oldroot2 = some r2) :
    (t.par r1 = some r2 →
      NniProposer.revert reroot p t = reroot t r1 >>= NniProposer.revertNni p) ∧
    (t.par r2 = some r1 →
      NniProposer.revert reroot p t = reroot t r2 >>= NniProposer.revertNni p) := by
  constructor
  · intro h
    unfold NniProposer.revert
    simp only [h1, h2, Tree.parentOf_eq (Tree.lt_of_par h), h, ok_bind, if_true]
  · intro h
    have hne : ¬ t.par r1 = some r2 := hv.no_two_cycle h
    have hlt : r1 < t.nnodes := Tree.lt_of_mem_kids (hv.mem_kids h)
    unfold NniProposer.revert
    simp only [h1, h2, Tree.parentOf_eq hlt, hne, ok_bind, if_false, deref]

/-- Witness for C15 (as amended): in the caterpillar `n1` is the parent of `n2`;
with `oldroot1 = n1` and `oldroot2 = n2` the argument passed is `n2`. -/
theorem revert_reroot_argument_witness :
    caterpillar4.Valid ∧ caterpillar4.par 4 = some 5 ∧
    NniProposer.revert markRoot (recordedRoots 5 4) caterpillar4
      = markRoot caterpillar4 4 >>= NniProposer.revertNni (recordedRoots 5 4) :=
  ⟨by decide, by decide,
    (revert_reroot_argument markRoot (recordedRoots 5 4) caterpillar4 5 4 (by decide)
      rfl rfl).2 (by decide)⟩

/-- C15 as stated fails on the caterpillar with `oldroot1 = n2`, `oldroot2 = n1`:
`n1` is now the parent of `n2`, yet the node passed to `reroot` (here a stand-in
that stores its argument in the root pointer) is `n2`, not `n1`. -/
theorem revert_reroot_counterexample :
    caterpillar4.Valid ∧ caterpillar4.par 4 = some 5 ∧
    NniProposer.revert markRoot (recordedRoots 4 5) caterpillar4
      = .ok { caterpillar4 with root := 4 } ∧
    NniProposer.revert markRoot (recordedRoots 4 5) caterpillar4
      ≠ .ok { caterpillar4 with root := 5 } :=
  ⟨by decide, by decide, by decide, by decide⟩

/-- C16 (as amended).  With no species tree configured, `propose` on a valid tree
never calls the reconciliation re-rooting (its outcome does not depend on it)
and leaves the rooting as the interchanges left it.  A returning call makes two
draws of `frand()`, `u0` for the second interchange and `u` for the re-rooting
test.  When `u < rerootProb = 1` it still records the two children `r0`, `r1`
of the root in `oldroot1`, `oldroot2`, and the following `revert` calls
`Tree::reroot` once, at `r1`, a child of the root, and then undoes the recorded
interchanges, the second one first.  When `u` is not below `rerootProb` it
records nothing, and the following `revert` makes no call of `Tree::reroot` and
only undoes the recorded interchanges, the second one first. -/
theorem propose_records_root_children {S : Type}
    (reconRoot : Tree → S → List Int → Except Fault Tree)
    (reroot : Tree → Nat → Except Fault Tree)
    (p : NniProposer S) (t : Tree) (g : Rng) (hv : t.Valid) (hs : p.stree = none) :
    (∀ other : Tree → S → List Int → Except Fault Tree,
      NniProposer.propose other p t g = NniProposer.propose reconRoot p t g) ∧
    ∀ p1 t1 g1, NniProposer.propose reconRoot p t g = .ok (p1, t1, g1) →
      ∃ u0 u, g.reals = u0 :: u :: g1.reals ∧
        (u < rerootProb →
          ∃ r0 r1, t1.kids t1.root = [r0, r1] ∧
            p1.oldroot1 = some r0 ∧ p1.oldroot2 = some r1 ∧
            NniProposer.revert reroot p1 t1
              = reroot t1 r1 >>= NniProposer.revertNni p1) ∧
        (¬ u < rerootProb →
          p1.oldroot1 = none ∧ p1.oldroot2 = none ∧
          NniProposer.revert reroot p1 t1 = NniProposer.revertNni p1 t1) := by
  refine ⟨fun other => propose_noStree other reconRoot p t g hs, ?_⟩
  intro p1 t1 g1 hok
  obtain ⟨hv1, _, _, _, _, _, _, _⟩ := (propose_safe reconRoot hv hs g).of_ok hok
  obtain ⟨ch, g2, t2, p3, t3, g3, hch, _, h3, h4⟩ := propose_inv hok
  obtain ⟨_, _, hst, _, _, _⟩ := proposeSecond_inv h3
  obtain ⟨u0, hu0⟩ := proposeSecond_draw h3
  obtain ⟨u, hu, e, hrec, hclear⟩ := proposeReroot_draw h4 (hst.trans hs)
  refine ⟨u0, u, ?_, ?_, ?_⟩
  · rw [← proposeRandomNni_reals hch, hu0, hu]
  · intro hlt
    obtain ⟨r0, r1, c0, c1, o1, o2⟩ := hrec hlt
    rw [← e] at c0 c1
    -- the two recorded nodes are the two children of the root
    have k0 : (t1.kids t1.root)[0]? = some r0 := by
      unfold Tree.childAt at c0
      unfold Tree.kids
      cases hn : t1.nodes[t1.root]? with
      | none => simp [hn] at c0
      | some nd =>
        simp only [hn] at c0 ⊢
        cases hc : nd.children[0]? with
        | none => simp [hc] at c0
        | some x =>
          simp only [hc] at c0
          rw [Except.ok.inj c0]
    have k1 : (t1.kids t1.root)[1]? = some r1 := by
      unfold Tree.childAt at c1
      unfold Tree.kids
      cases hn : t1.nodes[t1.root]? with
      | none => simp [hn] at c1
      | some nd =>
        simp only [hn] at c1 ⊢
        cases hc : nd.children[1]? with
        | none => simp [hc] at c1
        | some x =>
          simp only [hc] at c1
          rw [Except.ok.inj c1]
    have hm0 : r0 ∈ t1.kids t1.root := List.getElem?_mem k0
    obtain ⟨x, y, hxy⟩ := list_len_two (hv1.len_two hm0)
    rw [hxy] at k0 k1
    simp only [List.getElem?_cons_zero, List.getElem?_cons_succ, Option.some.injEq] at k0 k1
    subst k0 k1
    have hp0 := hv1.par_of_mem hm0
    have hne : ¬ some t1.root = some y := by
      intro h
      have hy : y ∈ t1.kids t1.root := by simp [hxy]
      have := hv1.par_of_mem hy
      rw [← Option.some.inj h, hv1.root_par] at this
      exact Option.noConfusion this
    refine ⟨x, y, hxy, o1, o2, ?_⟩
    unfold NniProposer.revert
    simp only [o1, o2, Tree.parentOf_eq (Tree.lt_of_par hp0), hp0, ok_bind, hne, if_false,
      deref]
  · intro hge
    obtain ⟨o1, o2⟩ := hclear hge
    refine ⟨o1, o2, ?_⟩
    unfold NniProposer.revert
    simp only [o1, pure_eq_ok, ok_bind]

/-- Witness for C16 (as amended).  With the re-rooting draw `1 / 2` the proposal
on the caterpillar records the root children `L2` and `n1`, and `revert` calls
`reroot` at `n1`; with the re-rooting draw `1` it records nothing and `revert`
only undoes the interchange, without a call of `reroot`. -/
theorem propose_records_root_children_witness :
    caterpillar4.Valid ∧
    (NniProposer.propose (fun t (_ : Unit) _ => .ok t) (NniProposer.new none [] 10)
        caterpillar4 drawsTwoNni = .ok (proposerAfter, caterpillar4Proposed, ⟨[], []⟩) ∧
      proposerAfter.oldroot1 = some 1 ∧ proposerAfter.oldroot2 = some 5 ∧
      NniProposer.revert markRoot proposerAfter caterpillar4Proposed
        = markRoot caterpillar4Proposed 5 >>= NniProposer.revertNni proposerAfter) ∧
    (NniProposer.propose (fun t (_ : Unit) _ => .ok t) (NniProposer.new none [] 10)
        caterpillar4 drawsNoRecord = .ok (proposerNoRecord, caterpillar4Swapped, ⟨[], []⟩) ∧
      proposerNoRecord.oldroot1 = none ∧ proposerNoRecord.oldroot2 = none ∧
      NniProposer.revert (fun _ _ => .error Fault.assertion) proposerNoRecord
          caterpillar4Swapped
        = NniProposer.revertNni proposerNoRecord caterpillar4Swapped ∧
      NniProposer.revertNni proposerNoRecord caterpillar4Swapped = .ok caterpillar4) := by
  obtain ⟨u0, u, hg, hrec, _⟩ :=
    (propose_records_root_children (fun t (_ : Unit) _ => .ok t) markRoot
      (NniProposer.new none [] 10) caterpillar4 drawsTwoNni (by decide) rfl).2
      proposerAfter caterpillar4Proposed ⟨[], []⟩ (by with_unfolding_all decide)
  have hu : u = 1 / 2 := by
    have h2 : drawsTwoNni.reals = [1 / 10, 1 / 2] := rfl
    rw [h2] at hg
    exact ((List.cons.inj (List.cons.inj hg).2).1).symm
  obtain ⟨r0, r1, _, _, h2, h3⟩ := hrec (by rw [hu]; with_unfolding_all decide)
  have e : r1 = 5 := by
    have : proposerAfter.oldroot2 = some 5 := rfl
    rw [this] at h2
    exact (Option.some.inj h2).symm
  rw [e] at h3
  obtain ⟨v0, v, hg', _, hclear⟩ :=
    (propose_records_root_children (fun t (_ : Unit) _ => .ok t)
      (fun _ _ => .error Fault.assertion)
      (NniProposer.new none [] 10) caterpillar4 drawsNoRecord (by decide) rfl).2
      proposerNoRecord caterpillar4Swapped ⟨[], []⟩ (by with_unfolding_all decide)
  have hv : v = 1 := by
    have h2 : drawsNoRecord.reals = [1 / 2, 1] := rfl
    rw [h2] at hg'
    exact ((List.cons.inj (List.cons.inj hg').2).1).symm
  obtain ⟨o1, o2, h4⟩ := hclear (by rw [hv]; with_unfolding_all decide)
  exact ⟨by decide, ⟨by with_unfolding_all decide, rfl, rfl, h3⟩,
    ⟨by with_unfolding_all decide, o1, o2, h4, by decide⟩⟩

/-- C16 as stated fails on the caterpillar: without species tree the proposal
records the root children `L2` and `n1`, and the following `revert` does call
`reroot`: with a `reroot` that fails, `revert` fails. -/
theorem propose_records_counterexample :
    NniProposer.propose (fun t (_ : Unit) _ => .ok t) (NniProposer.new none [] 10)
      caterpillar4 drawsTwoNni = .ok (proposerAfter, caterpillar4Proposed, ⟨[], []⟩) ∧
    proposerAfter.oldroot1 = some 1 ∧ proposerAfter.oldroot2 = some 5 ∧
    NniProposer.revert (fun _ _ => .error Fault.assertion) proposerAfter caterpillar4Proposed
      = .error Fault.assertion :=
  ⟨by with_unfolding_all decide, by decide, by decide, by decide⟩

/-- C17.  On a valid binary tree `proposeRandomNni` can stop early only because
the draws ran out, and whenever it returns: `node1` is an internal node with
parent `node2`, `a` is a child of `node1`, `b` is a child of `node2` other than
`node1`; so `a` and `b` differ from `node1`, from `node2` and from each other,
their parents `node1` and `node2` are joined by an edge, and the two-node
`proposeNni(tree, a, b)` passes its three assertions and returns a valid tree,
on which the optional second NNI of `propose` is in the same situation and
cannot fail an assertion either. -/
theorem proposeRandomNni_choice {S : Type} (t : Tree) (g : Rng) (hv : t.Valid) :
    (∀ e, proposeRandomNni t g = .error e → e = Fault.draws) ∧
    ∀ ch g1, proposeRandomNni t g = .ok (ch, g1) →
      t.kids ch.node1 ≠ [] ∧ t.par ch.node1 = some ch.node2 ∧
      ch.a ∈ t.kids ch.node1 ∧ ch.b ∈ t.kids ch.node2 ∧ ch.b ≠ ch.node1 ∧
      ch.a ≠ ch.node1 ∧ ch.a ≠ ch.node2 ∧ ch.b ≠ ch.node2 ∧ ch.a ≠ ch.b ∧
      t.par ch.a = some ch.node1 ∧ t.par ch.b = some ch.node2 ∧
      ∃ t1, proposeNni t ch.a ch.b = .ok t1 ∧ t1.Valid ∧
        ∀ (p : NniProposer S) (g2 : Rng) (e : Fault),
          NniProposer.proposeSecond p t1 g2 = .error e → e = Fault.draws := by
  have h := proposeRandomNni_safe hv g
  refine ⟨fun e he => h.of_error he, ?_⟩
  intro ch g1 hok
  obtain ⟨h12, hm1, hm2, hbn⟩ := h.of_ok hok
  simp only at h12 hm1 hm2 hbn
  have ha := hv.par_of_mem hm1
  have hb := hv.par_of_mem hm2
  obtain ⟨t1, e1, _, hv1, _⟩ := nni_sibling_step hv h12 hm1 hm2 hbn
  refine ⟨?_, h12, hm1, hm2, hbn, ?_, ?_, ?_, ?_, ha, hb, t1, e1, hv1, ?_⟩
  · intro h0
    rw [h0] at hm1
    exact List.not_mem_nil _ hm1
  · intro e
    rw [e] at ha
    exact hv.par_ne_self _ ha
  · intro e
    rw [e] at ha
    exact hv.no_two_cycle ha h12
  · intro e
    rw [e] at hb
    exact hv.par_ne_self _ hb
  · intro e
    rw [e, hb] at ha
    have hn := Option.some.inj ha
    rw [hn] at h12
    exact hv.par_ne_self _ h12
  · intro p g2 e he
    exact (proposeSecond_safe hv1 g2).of_error he

/-- Witness for C17: on the caterpillar the draws select the pivot `n1`, its
first child `L2`, and the sibling `L1` of `n1`. -/
theorem proposeRandomNni_choice_witness :
    caterpillar4.Valid ∧
    proposeRandomNni caterpillar4 drawsTwoNni
      = .ok (⟨5, 6, 1, 0⟩, ⟨[4, 1], [1 / 10, 1 / 2]⟩) ∧
    caterpillar4.par 1 = some 5 ∧ caterpillar4.par 0 = some 6 ∧
    ∃ t1, proposeNni caterpillar4 1 0 = .ok t1 ∧ t1.Valid := by
  obtain ⟨_, _, _, _, _, _, _, _, _, h10, h11, t1, e1, hv1, _⟩ :=
    (proposeRandomNni_choice (S := Unit) caterpillar4 drawsTwoNni (by decide)).2
      ⟨5, 6, 1, 0⟩ ⟨[4, 1], [1 / 10, 1 / 2]⟩ (by with_unfolding_all decide)
  exact ⟨by decide, by with_unfolding_all decide, h10, h11, t1, e1, hv1⟩

/-- C18 (the code at the failing input).  On the valid tree with a root and two
leaf children no node is internal and has a parent; for every proposer state and
every supply of draws the sampling loop of `proposeRandomNni` is still running
when the supply is used up, so `propose` does not return. -/
theorem propose_never_returns :
    twoLeaves.Valid ∧
    ∀ (p : NniProposer Unit) (g : Rng),
      NniProposer.propose (fun t _ _ => .ok t) p twoLeaves g = .error Fault.draws :=
  ⟨by decide, fun p g => propose_starved _ (by decide) (by decide) p g⟩

/-- C20.  On a valid binary tree, when the pivot `node1` chosen by
`proposeRandomNni` is a child of the root (so the root has exactly two children,
`node1` is internal, `a` is a child of `node1` and `b` is the other child of the
root), the two-node `proposeNni(tree, a, b)` returns a valid tree with the same
nodes, the same root node and the same leaves, in which `a` is now a child of
the root and `b` a child of `node1`, and the subtrees of its non-root nodes
induce the same set of leaf bipartitions as before: the unrooted topology is
unchanged, only the place of the root on it has moved. -/
theorem proposeNni_root_pivot_unrooted (t : Tree) (g : Rng) (hv : t.Valid)
    (ch : NniChoice) (g1 : Rng) (hch : proposeRandomNni t g = .ok (ch, g1))
    (hpiv : t.par ch.node1 = some t.root) :
    (t.kids t.root).length = 2 ∧ t.kids ch.node1 ≠ [] ∧
    ch.a ∈ t.kids ch.node1 ∧ ch.b ∈ t.kids t.root ∧ ch.b ≠ ch.node1 ∧
    ∃ t1, proposeNni t ch.a ch.b = .ok t1 ∧ t1.Valid ∧ t1.root = t.root ∧
      t1.par ch.a = some t.root ∧ t1.par ch.b = some ch.node1 ∧
      t.sameUnrooted t1 := by
  obtain ⟨h12, hm1, hm2, hbn⟩ := (proposeRandomNni_safe hv g).of_ok hch
  simp only at h12 hm1 hm2 hbn
  have e2 : ch.node2 = t.root := by
    rw [h12] at hpiv
    exact Option.some.inj hpiv
  rw [e2] at hm2
  refine ⟨hv.len_two hm2, ?_, hm1, hm2, hbn, root_exchange_unrooted hv hpiv hm1 hm2 hbn⟩
  intro h0
  rw [h0] at hm1
  exact List.not_mem_nil _ hm1

/-- Witness for C20: on the caterpillar the draws select the pivot `n1`, a child
of the root, with `a = L2` and `b = L1`. -/
theorem proposeNni_root_pivot_unrooted_witness :
    caterpillar4.Valid ∧
    proposeRandomNni caterpillar4 drawsTwoNni
      = .ok (⟨5, 6, 1, 0⟩, ⟨[4, 1], [1 / 10, 1 / 2]⟩) ∧
    caterpillar4.par 5 = some caterpillar4.root ∧
    ∃ t1, proposeNni caterpillar4 1 0 = .ok t1 ∧ t1.Valid ∧
      t1.par 1 = some 6 ∧ t1.par 0 = some 5 ∧ caterpillar4.sameUnrooted t1 := by
  obtain ⟨_, _, _, _, _, t1, e1, hv1, _, qa, qb, hs⟩ :=
    proposeNni_root_pivot_unrooted caterpillar4 drawsTwoNni (by decide)
      ⟨5, 6, 1, 0⟩ ⟨[4, 1], [1 / 10, 1 / 2]⟩ (by with_unfolding_all decide) (by decide)
  exact ⟨by decide, by with_unfolding_all decide, by decide, t1, e1, hv1, qa, qb, hs⟩

end spidir
